import Mathlib

/-!
The program gonet: a dense feed-forward network over a small matrix library.

Shallow embedding of `mat/matrix.go`, `activation/function.go`, `uniform/uniform.go`,
`training/data.go` and `network.go`.

Modelling conventions.

* `float64` values are elements of an arbitrary type `α` carrying the arithmetic that the
  code uses (`+`, `-`, `*`, `/`); the theorems are stated for fields, ordered fields or the
  real numbers.  Rounding, overflow to infinity and NaN are outside this model.
* `math.Exp`, `math.Sqrt` and `rand.Float64` are library functions: they are parameters
  (`exp`, `sqrt`, `rnd`) of the definitions that use them.
* Go `int` values are `Int`; slice lengths are natural numbers.
* A `panic` is the `error` result of `Except Err`; `Err` lists the error values that the
  packages declare together with the two run-time panics that the code can reach.
* A matrix (`[][]float64`) is a list of rows.  Functions that write into a matrix in place
  (`Set`, `Apply`, `Scale`) return the matrix after the write.
* The functions on the path of `Predict` are embedded a second time in namespace `Ref`,
  with the rows of a matrix held by reference in a store, to state which memory a call
  writes; `Ref.Dot_run` and `Ref.Predict_run` relate the two embeddings.
-/

namespace Gonet

/-- The panics of the program: the `errors.New` values of the packages and the run-time
panics for indexing out of range and for `make` with a negative length. -/
inductive Err where
  | errInvalidSize
  | errWrongNoValues
  | errOutOfBounds
  | errAdditionSize
  | errSubtractionSize
  | errDotProductSize
  | errMulElemSize
  | errLayers
  | errInputsSize
  | indexOutOfRange
  | makesliceLen
  deriving DecidableEq, Repr

/-- The Go loop `for i := 0; i < n; i++ { body }` acting on a state `s`; a panic in the
body ends the loop. -/
def forLoop {σ : Type} (n : Nat) (body : Nat → σ → Except Err σ) (s : σ) : Except Err σ :=
  (List.range n).foldlM (fun st i => body i st) s

/-- The Go index expression `l[i]` with its run-time bounds check. -/
def index {β : Type} (l : List β) (i : Int) : Except Err β :=
  if i < 0 then .error .indexOutOfRange
  else match l[i.toNat]? with
    | some v => .ok v
    | none => .error .indexOutOfRange

/-- The value of a Go `int` expression whose mathematical result is `x`: arithmetic on
`int` wraps around at 64 bits. -/
def wrapInt (x : Int) : Int :=
  (x + 2 ^ 63) % 2 ^ 64 - 2 ^ 63

namespace Mat

/-- The type `Matrix [][]float64`. -/
abbrev Matrix (α : Type) := List (List α)

section Defs

variable {α : Type}

/-- The function `zeroes`: `make([][]float64, rows)` and one `make([]float64, columns)` per
row.  Here `make` succeeds for every non-negative length: the operations of the package
call this function with the dimensions of matrices that exist.  `zeroesWith` below is the
function with the failure of `make` for the lengths that a caller of `New` chooses. -/
def zeroes [Zero α] (rows columns : Int) : Except Err (Matrix α) :=
  if rows < 0 then .error .makesliceLen
  else if 0 < rows ∧ columns < 0 then .error .makesliceLen
  else .ok (List.replicate rows.toNat (List.replicate columns.toNat 0))

/-- The function `NewEmpty`. -/
def NewEmpty [Zero α] (rows columns : Int) : Except Err (Matrix α) :=
  if rows < 1 ∨ columns < 1 then .error .errInvalidSize
  else zeroes rows columns

/-- The function `zeroes` with the failure of `make` made explicit: `canMake elemSize len`
tells whether `make` of a slice of `len` elements of `elemSize` bytes succeeds, and `make`
panics when it does not, as it does for a negative length.  A slice header (an element of
`[][]float64`) takes 24 bytes and a `float64` takes 8.  The function `zeroes` above is this
function for a `make` that succeeds for every non-negative length; it is used where the
lengths are the dimensions of matrices that exist. -/
def zeroesWith [Zero α] (canMake : Nat → Int → Bool) (rows columns : Int) :
    Except Err (Matrix α) :=
  if rows < 0 ∨ canMake 24 rows = false then .error .makesliceLen
  else if 0 < rows ∧ (columns < 0 ∨ canMake 8 columns = false) then .error .makesliceLen
  else .ok (List.replicate rows.toNat (List.replicate columns.toNat 0))

/-- The function `NewEmpty` with the failure of `make` made explicit, as `New` calls it:
there the dimensions are the layer sizes that the caller passes. -/
def NewEmptyWith [Zero α] (canMake : Nat → Int → Bool) (rows columns : Int) :
    Except Err (Matrix α) :=
  if rows < 1 ∨ columns < 1 then .error .errInvalidSize
  else zeroesWith canMake rows columns

/-- The function `NewColumn`. -/
def NewColumn (values : List α) : Matrix α :=
  values.map (fun v => [v])

/-- The method `Rows`. -/
def Rows (m : Matrix α) : Int := m.length

/-- The method `Columns`: `len(m[0])`, a run-time panic when `m` has no row. -/
def Columns (m : Matrix α) : Except Err Int :=
  match m with
  | [] => .error .indexOutOfRange
  | row :: _ => .ok row.length

/-- The method `Dims`. -/
def Dims (m : Matrix α) : Except Err (Int × Int) := do
  let r := Rows m
  let c ← Columns m
  pure (r, c)

/-- The function `SameDims`; `&&` evaluates its right operand only when the left one is
true. -/
def SameDims (a b : Matrix α) : Except Err Bool :=
  if Rows a = Rows b then do
    let ca ← Columns a
    let cb ← Columns b
    pure (decide (ca = cb))
  else pure false

/-- The method `outOfBonds`; `||` evaluates its right operand only when the left one is
false. -/
def outOfBonds (m : Matrix α) (x y : Int) : Except Err Bool := do
  let c ← Columns m
  if x > c - 1 then pure true
  else pure (decide (y > Rows m - 1))

/-- The method `Get`. -/
def Get (m : Matrix α) (x y : Int) : Except Err α := do
  if (← outOfBonds m x y) then throw Err.errOutOfBounds
  let row ← index m y
  index row x

/-- The method `Set`; the result is the matrix after the assignment `m[y][x] = value`. -/
def Set (m : Matrix α) (x y : Int) (value : α) : Except Err (Matrix α) := do
  if (← outOfBonds m x y) then throw Err.errOutOfBounds
  let row ← index m y
  let _ ← index row x
  pure (m.set y.toNat (row.set x.toNat value))

/-- The traversal of `Apply` over one row, for a mapping that reads and writes a state. -/
def applyRowS {σ : Type} (mapping : α → σ → α × σ) : List α → σ → List α × σ
  | [], s => ([], s)
  | x :: xs, s =>
    let p := mapping x s
    let q := applyRowS mapping xs p.2
    (p.1 :: q.1, q.2)

/-- The method `Apply` for a mapping that reads and writes a state (the closure passed by
`New` draws random numbers); rows are visited in order, each from left to right. -/
def ApplyS {σ : Type} (mapping : α → σ → α × σ) : Matrix α → σ → Matrix α × σ
  | [], s => ([], s)
  | row :: rows, s =>
    let p := applyRowS mapping row s
    let q := ApplyS mapping rows p.2
    (p.1 :: q.1, q.2)

/-- The method `Apply` for a mapping without side effects; the result is the matrix after
the in-place update. -/
def Apply (m : Matrix α) (mapping : α → α) : Matrix α :=
  (ApplyS (fun v (s : Unit) => (mapping v, s)) m ()).1

/-- The method `Scale`. -/
def Scale [Mul α] (m : Matrix α) (scale : α) : Matrix α :=
  Apply m (fun num => scale * num)

/-- The function `add`. -/
def add [Zero α] [Add α] [Sub α] (a b : Matrix α) (sub : Bool) : Except Err (Matrix α) := do
  let d ← Dims a
  let result ← NewEmpty d.1 d.2
  forLoop (Rows a).toNat (fun r res => do
    let cols ← Columns a
    forLoop cols.toNat (fun c res => do
      let value ←
        if sub then do
          let u ← Get a c r
          let v ← Get b c r
          pure (u - v)
        else do
          let u ← Get a c r
          let v ← Get b c r
          pure (u + v)
      Set res c r value) res) result

/-- The function `Subtract`. -/
def Subtract [Zero α] [Add α] [Sub α] (a b : Matrix α) : Except Err (Matrix α) := do
  if !(← SameDims a b) then throw Err.errSubtractionSize
  add a b true

/-- The function `Dot`. -/
def Dot [Zero α] [Add α] [Mul α] (a b : Matrix α) : Except Err (Matrix α) := do
  let ca ← Columns a
  if ca ≠ Rows b then throw Err.errDotProductSize
  let cb ← Columns b
  let result ← NewEmpty (Rows a) cb
  forLoop (Rows a).toNat (fun r res => do
    let cb ← Columns b
    forLoop cb.toNat (fun c res => do
      let ca ← Columns a
      let sum ← forLoop ca.toNat (fun k sum => do
        let u ← Get a k r
        let v ← Get b c k
        pure (sum + u * v)) (0 : α)
      Set res c r sum) res) result

/-- The function `MulElem`. -/
def MulElem [Zero α] [Mul α] (a b : Matrix α) : Except Err (Matrix α) := do
  if !(← SameDims a b) then throw Err.errMulElemSize
  let d ← Dims a
  let result ← NewEmpty d.1 d.2
  forLoop (Rows a).toNat (fun r res => do
    let cols ← Columns a
    forLoop cols.toNat (fun c res => do
      let u ← Get a c r
      let v ← Get b c r
      Set res c r (u * v)) res) result

/-- The function `Transpose`: `data` is made with one (nil) entry per column of `m`; for
each column `c` a slice `column` of `m.Rows()` zeroes is made, `column[r]` is assigned
`m.Get(c, r)` for every `r`, and `data[c]` is assigned `column`.  The assigned indices are
below the lengths just made, so the assignments are plain list updates. -/
def Transpose [Zero α] (m : Matrix α) : Except Err (Matrix α) := do
  let cols ← Columns m
  forLoop cols.toNat (fun c data => do
    let column ← forLoop (Rows m).toNat (fun r column => do
      let v ← Get m c r
      pure (column.set r v)) (List.replicate (Rows m).toNat (0 : α))
    pure (data.set c column)) (List.replicate cols.toNat [])

/-- The function `Copy`. -/
def Copy (m : Matrix α) : Matrix α :=
  m.map (fun row => row.map id)

/-- The function `FromSlice`.  The product `rows*columns` is computed on `int`; the loop
state is the matrix `m` together with the counter `t`. -/
def FromSlice [Zero α] (rows columns : Int) (values : List α) : Except Err (Matrix α) := do
  if (values.length : Int) ≠ wrapInt (rows * columns) then throw Err.errWrongNoValues
  let m ← NewEmpty rows columns
  let st ← forLoop rows.toNat (fun r (st : Matrix α × Int) =>
    forLoop columns.toNat (fun c (st : Matrix α × Int) => do
      let v ← index values st.2
      let m2 ← Set st.1 c r v
      pure (m2, st.2 + 1)) st) (m, 0)
  pure st.1

/-- The function `Add` (placed last in this section: from here on `Add` names it). -/
def Add [Zero α] [Add α] [Sub α] (a b : Matrix α) : Except Err (Matrix α) := do
  if !(← SameDims a b) then throw Err.errAdditionSize
  add a b false

end Defs

end Mat

namespace Activation

variable {α : Type}

/-- The function `sigmoid`; `exp` stands for `math.Exp`. -/
def sigmoid [One α] [Add α] [Neg α] [Div α] (exp : α → α) (x : α) : α :=
  1 / (1 + exp (-x))

/-- The function `sigmoidPrime`. -/
def sigmoidPrime [One α] [Add α] [Sub α] [Mul α] [Neg α] [Div α] (exp : α → α) (x : α) : α :=
  let sig := sigmoid exp x
  sig * (1 - sig)

/-- The type `Function`. -/
structure Function (α : Type) where
  Func : α → α
  Derivative : α → α

/-- The variable `Sigmoid`. -/
def Sigmoid [One α] [Add α] [Sub α] [Mul α] [Neg α] [Div α] (exp : α → α) : Function α :=
  ⟨sigmoid exp, sigmoidPrime exp⟩

end Activation

/-- The type `Uniform` of package `uniform`. -/
structure Uniform (α : Type) where
  Min : α
  Max : α

namespace Uniform

variable {α : Type}

/-- The function `Make`; `sqrt` stands for `math.Sqrt` and the cast for `float64(layerSize)`. -/
def Make [One α] [Neg α] [Div α] [IntCast α] (sqrt : α → α) (layerSize : Int) : Uniform α :=
  let sqrtLs := sqrt (layerSize : α)
  { Min := (-1) / sqrtLs, Max := 1 / sqrtLs }

/-- The method `Generate`; `draw` is the value returned by `rand.Float64()`. -/
def Generate [Add α] [Sub α] [Mul α] (u : Uniform α) (draw : α) : α :=
  u.Min + (draw * (u.Max - u.Min))

end Uniform

namespace Training

/-- The type `Data`. -/
structure Data (α : Type) where
  Input : List α
  Target : List α

/-- The method `TargetMatrix`. -/
def Data.TargetMatrix {α : Type} (d : Data α) : Mat.Matrix α :=
  Mat.NewColumn d.Target

end Training

/-- The type `Network`. -/
structure Network (α : Type) where
  InputSize : Int
  Layers : Int
  Weights : List (Mat.Matrix α)
  LearningRate : α

namespace Network

open Mat Activation Training

variable {α : Type}

/-- The body of the loop `for i := 1; i < len(layerSizes); i++` of `New`, for `i = j + 1`.
The loop state is the slice `weights` together with the number of calls of
`rand.Float64()` made so far; `rnd n` is the value returned by the `n`-th call, and
`canMake` tells which calls of `make` succeed. -/
def newLayer [Field α] (canMake : Nat → Int → Bool) (sqrt : α → α) (rnd : Nat → α)
    (layerSizes : List Int) (j : Nat) (st : List (Matrix α) × Nat) :
    Except Err (List (Matrix α) × Nat) := do
  let i : Int := (j : Int) + 1
  let size ← index layerSizes i
  let prevSize ← index layerSizes (i - 1)
  let distribution : Uniform α := Uniform.Make sqrt prevSize
  let matrix ← NewEmptyWith canMake size prevSize
  let p := ApplyS (fun _ n => (distribution.Generate (rnd n), n + 1)) matrix st.2
  let _ ← index st.1 (i - 1)
  pure (st.1.set (i - 1).toNat p.1, p.2)

/-- The function `New`.  `rnd` is the sequence of values that `rand.Float64()` returns
after the generator was seeded; `canMake` tells which calls of `make` succeed, the first
of them being `make([]mat.Matrix, len(layerSizes)-1)`. -/
def New [Field α] (canMake : Nat → Int → Bool) (sqrt : α → α) (rnd : Nat → α)
    (learningRate : α) (layerSizes : List Int) : Except Err (Network α) := do
  if layerSizes.length < 3 then throw Err.errLayers
  let inputSize ← index layerSizes 0
  if canMake 24 ((layerSizes.length : Int) - 1) = false then throw Err.makesliceLen
  let weights : List (Matrix α) := List.replicate (layerSizes.length - 1) []
  let st ← forLoop (layerSizes.length - 1) (newLayer canMake sqrt rnd layerSizes) (weights, 0)
  pure { InputSize := inputSize, Layers := layerSizes.length, Weights := st.1,
         LearningRate := learningRate }

/-- The method `layerOutputs`; the loop state is the pair of `layerOutput` and `outputs`. -/
def layerOutputs [Field α] (exp : α → α) (net : Network α) (input : List α) :
    Except Err (List (Matrix α)) := do
  if (input.length : Int) ≠ net.InputSize then throw Err.errInputsSize
  let layerOutput := NewColumn input
  let st ← net.Weights.foldlM (fun (st : Matrix α × List (Matrix α)) weights => do
    let z ← Dot weights st.1
    let layerOutput := Apply z (Sigmoid exp).Func
    pure (layerOutput, st.2 ++ [layerOutput])) (layerOutput, [layerOutput])
  pure st.2

/-- The method `Predict`. -/
def Predict [Field α] (exp : α → α) (net : Network α) (input : List α) :
    Except Err (Matrix α) := do
  let outputs ← layerOutputs exp net input
  index outputs ((outputs.length : Int) - 1)

/-- The state of the backward loop of `Train`: `lastLayer`, `lastErrors` and `deltas`. -/
structure BackState (α : Type) where
  lastLayer : Bool
  lastErrors : Matrix α
  deltas : List (Matrix α)

/-- The body of the loop `for i := len(outputs) - 1; i > 0; i--` of `Train`, for
`i = len(outputs) - 1 - j`. -/
def backStep [Field α] (net : Network α) (data : Data α) (outputs : List (Matrix α))
    (j : Nat) (st : BackState α) : Except Err (BackState α) := do
  let i : Int := ((outputs.length : Int) - 1) - (j : Int)
  let dErrorWrtOutput ←
    if st.lastLayer then do
      let o ← index outputs i
      Subtract o data.TargetMatrix
    else do
      let w ← index net.Weights i
      let t ← Transpose w
      Dot t st.lastErrors
  let o ← index outputs i
  let dOutputWrtSum := Apply (Copy o) (fun value => value * (1 - value))
  let dSumWrtWeights ← index outputs (i - 1)
  let m ← MulElem dErrorWrtOutput dOutputWrtSum
  let t ← Transpose dSumWrtWeights
  let deltaWeights ← Dot m t
  let deltaWeights := Scale deltaWeights net.LearningRate
  let _ ← index st.deltas (i - 1)
  pure { lastLayer := false, lastErrors := dErrorWrtOutput,
         deltas := st.deltas.set (i - 1).toNat deltaWeights }

/-- The first part of `Train`: the forward pass, `make([]mat.Matrix, len(outputs)-1)` and
the backward loop.  This part reads the network and writes only local variables. -/
def trainDeltas [Field α] (exp : α → α) (net : Network α) (data : Data α) :
    Except Err (List (Matrix α)) := do
  let outputs ← layerOutputs exp net data.Input
  if (outputs.length : Int) - 1 < 0 then throw Err.makesliceLen
  let st ← forLoop (outputs.length - 1) (backStep net data outputs)
    { lastLayer := true, lastErrors := [], deltas := List.replicate (outputs.length - 1) [] }
  pure st.deltas

/-- The second part of `Train`: `for i, delta := range deltas { net.Weights[i] = ... }`.
The result is the network after the loop together with the outcome; when an iteration
panics the network keeps the assignments made before it. -/
def applyDeltas [Field α] (net : Network α) : Nat → List (Matrix α) →
    Network α × Except Err Unit
  | _, [] => (net, .ok ())
  | i, delta :: rest =>
    match index net.Weights (i : Int) with
    | .error e => (net, .error e)
    | .ok w =>
      match Subtract w delta with
      | .error e => (net, .error e)
      | .ok w2 => applyDeltas { net with Weights := net.Weights.set i w2 } (i + 1) rest

/-- The method `Train` on a pointer receiver: the result is the network after the call
together with the outcome of the call. -/
def Train [Field α] (exp : α → α) (net : Network α) (data : Data α) :
    Network α × Except Err Unit :=
  match trainDeltas exp net data with
  | .error e => (net, .error e)
  | .ok deltas => applyDeltas net 0 deltas

end Network

/-! ### Persistence

`Save` and `Load` call the operating system and `encoding/json`.  The file system is the
state `Disk`; `json.MarshalIndent` and `json.Unmarshal` are the parameters `marshal` and
`unmarshal`.  A buffered write that fails is taken to write nothing, a file that exists
can be opened, and reading the whole of a file that could be opened does not fail. -/

/-- The `error` values that `Save` and `Load` can return. -/
inductive FileErr where
  | createFailed
  | openFailed
  | marshalFailed
  | writeFailed
  | unmarshalFailed
  deriving DecidableEq, Repr

/-- The file system: the content of every existing file, and the file names for which
`os.Create` fails and for which writing fails. -/
structure Disk where
  files : String → Option String
  createFails : String → Bool
  writeFails : String → Bool

namespace Network

variable {α : Type}

/-- The method `Save`: the file system after the call and the returned `error` (`none` for
`nil`).  `os.Create` truncates the file; `writer.Write` appends to the buffer of the
writer and `writer.Flush` appends the buffer to the file. -/
def Save (marshal : Network α → Except FileErr String) (net : Network α) (fileName : String)
    (d : Disk) : Disk × Option FileErr :=
  if d.createFails fileName then (d, some FileErr.createFailed)
  else
    let d1 : Disk :=
      { d with files := fun n => if n = fileName then some "" else d.files n }
    let buffer := ""
    match marshal net with
    | .error e => (d1, some e)
    | .ok marshalled =>
      if d.writeFails fileName then (d1, some FileErr.writeFailed)
      else
        let buffer := buffer ++ marshalled
        ({ d1 with files := fun n => if n = fileName then some ("" ++ buffer) else d1.files n },
          none)

/-- The function `Load`: the returned pointer (`none` for `nil`) and the returned `error`.
`unmarshal bytes` is the network that `json.Unmarshal` leaves in a zero `Network` together
with its `error`. -/
def Load (unmarshal : String → Network α × Option FileErr) (fileName : String) (d : Disk) :
    Option (Network α) × Option FileErr :=
  match d.files fileName with
  | none => (none, some FileErr.openFailed)
  | some bytes =>
    let r := unmarshal bytes
    (some r.1, r.2)

end Network

/-! ### The JSON text of a network

`Save` writes the text that `json.MarshalIndent(net, "", "    ")` returns and `Load`
decodes such a text with `json.Unmarshal`.  The text of a `Network` is defined here
together with a decoder for it.  `Network` has four exported fields, which are written in
the order of their declaration as `"name": value`; an `int` is written in decimal
notation; a slice is written as `[]` when it is empty and otherwise with one element per
line, four spaces of indentation per level of nesting; the text of a `float64` is that of
`strconv` and is the parameter `fmtFloat`, which gives `none` for the values that JSON
cannot express (`NaN` and the infinities), and `parseFloat` is the conversion of a number
token to a `float64`.  A `nil` slice, which Go writes as `null`, is not distinguished from
an empty one in this embedding; the decoder reads `null` as the empty list. -/

namespace Json

section Text

variable {β : Type}

/-- The white space of JSON. -/
def isSpace (c : Char) : Bool :=
  c = ' ' || c = '\n' || c = '\t' || c = '\r'

/-- The characters that can occur in a JSON number. -/
def isNumChar (c : Char) : Bool :=
  c.isDigit || c = '-' || c = '+' || c = '.' || c = 'e' || c = 'E'

/-- A line break followed by the indentation of the given depth. -/
def newline (depth : Nat) : List Char :=
  '\n' :: List.replicate (4 * depth) ' '

/-- The character of a decimal digit. -/
def digitChar (d : Nat) : Char := Char.ofNat (48 + d)

/-- The decimal notation of a natural number. -/
def fmtNat (n : Nat) : List Char :=
  if n = 0 then ['0'] else ((Nat.digits 10 n).reverse.map digitChar)

/-- The text of an `int`, as `strconv.AppendInt` writes it in base 10. -/
def fmtInt : Int → List Char
  | Int.ofNat n => fmtNat n
  | Int.negSucc n => '-' :: fmtNat (n + 1)

/-- The value of a natural number in decimal notation without a leading zero. -/
def parseNat (s : List Char) : Option Nat :=
  if s = ['0'] then some 0
  else if s ≠ [] ∧ s.head? ≠ some '0' ∧ s.all Char.isDigit = true then
    some (Nat.ofDigits 10 (s.reverse.map (fun c => c.toNat - 48)))
  else none

/-- The value of an integer token of JSON. -/
def parseInt : List Char → Option Int
  | [] => none
  | c :: s =>
    if c = '-' then (parseNat s).map (fun (n : Nat) => -(n : Int))
    else (parseNat (c :: s)).map (fun (n : Nat) => (n : Int))

/-- The elements of an array after the first one, each after a comma and a line break. -/
def encTail (enc : β → List Char) (depth : Nat) : List β → List Char
  | [] => []
  | x :: xs => ',' :: (newline depth ++ (enc x ++ encTail enc depth xs))

/-- The indented text of an array whose opening bracket is at the given depth. -/
def encArray (enc : β → List Char) (depth : Nat) : List β → List Char
  | [] => ['[', ']']
  | x :: xs =>
    '[' :: (newline (depth + 1) ++ (enc x ++ (encTail enc (depth + 1) xs ++
      (newline depth ++ [']']))))

/-- The text without its leading white space. -/
def skipSpace (s : List Char) : List Char := s.dropWhile isSpace

/-- The text after the character `c`, which has to come first after white space. -/
def expect (c : Char) (s : List Char) : Option (List Char) :=
  match skipSpace s with
  | [] => none
  | d :: rest => if d = c then some rest else none

/-- The text after the characters `t`, which have to come first. -/
def stripText : List Char → List Char → Option (List Char)
  | [], s => some s
  | _ :: _, [] => none
  | c :: t, d :: s => if c = d then stripText t s else none

/-- The text after the member name `name` in quotes and the colon that follows it. -/
def expectKey (name : List Char) (s : List Char) : Option (List Char) :=
  match stripText ('"' :: (name ++ ['"'])) (skipSpace s) with
  | none => none
  | some rest => expect ':' rest

/-- The number token that comes first after white space, which must not be empty,
converted with `parse`, and the text after it. -/
def decNumber (parse : List Char → Option β) (s : List Char) : Option (β × List Char) :=
  if (skipSpace s).takeWhile isNumChar = [] then none
  else
    match parse ((skipSpace s).takeWhile isNumChar) with
    | none => none
    | some v => some (v, (skipSpace s).dropWhile isNumChar)

/-- The elements of an array after the first one, up to the closing bracket.  The first
argument bounds the number of elements. -/
def decTail (p : List Char → Option (β × List Char)) :
    Nat → List Char → Option (List β × List Char)
  | 0, _ => none
  | fuel + 1, s =>
    match skipSpace s with
    | [] => none
    | c :: rest =>
      if c = ']' then some ([], rest)
      else if c = ',' then
        match p rest with
        | none => none
        | some (x, rest2) =>
          match decTail p fuel rest2 with
          | none => none
          | some (xs, rest3) => some (x :: xs, rest3)
      else none

/-- The array, or `null`, that comes first after white space, with the elements decoded
by `p`, and the text after it. -/
def decArray (p : List Char → Option (β × List Char)) (s : List Char) :
    Option (List β × List Char) :=
  match skipSpace s with
  | [] => none
  | c :: rest =>
    if c = '[' then
      match skipSpace rest with
      | [] => none
      | d :: rest1 =>
        if d = ']' then some ([], rest1)
        else
          match p rest with
          | none => none
          | some (x, rest2) =>
            match decTail p (rest2.length + 1) rest2 with
            | none => none
            | some (xs, rest3) => some (x :: xs, rest3)
    else
      match stripText ['n', 'u', 'l', 'l'] (c :: rest) with
      | none => none
      | some rest1 => some ([], rest1)

end Text

section NetworkText

variable {α : Type}

/-- The text of a `float64`; the empty text stands for a value without one. -/
def encFloat (fmtFloat : α → Option (List Char)) (x : α) : List Char :=
  (fmtFloat x).getD []

/-- The text of the field `Weights`, a slice of matrices, at depth 1. -/
def encWeights (fmtFloat : α → Option (List Char)) (ws : List (Mat.Matrix α)) : List Char :=
  encArray (encArray (encArray (encFloat fmtFloat) 3) 2) 1 ws

/-- The text of a field of a struct at depth 1, followed by `rest`: a line break, the
indentation, the name in quotes, a colon, a space and the text of the value. -/
def encField (name value rest : List Char) : List Char :=
  newline 1 ++ ('"' :: (name ++ ('"' :: ':' :: ' ' :: (value ++ rest))))

/-- The text of a network: the four fields, separated by commas, between braces. -/
def encNetwork (fmtFloat : α → Option (List Char)) (net : Network α) : List Char :=
  '\x7b' :: encField "InputSize".toList (fmtInt net.InputSize)
    (',' :: encField "Layers".toList (fmtInt net.Layers)
      (',' :: encField "Weights".toList (encWeights fmtFloat net.Weights)
        (',' :: encField "LearningRate".toList (encFloat fmtFloat net.LearningRate)
          (newline 0 ++ ['\x7d']))))

/-- Whether every number of the network has a JSON text. -/
def supported (fmtFloat : α → Option (List Char)) (net : Network α) : Bool :=
  net.Weights.all (fun m => m.all (fun row => row.all (fun x => (fmtFloat x).isSome))) &&
    (fmtFloat net.LearningRate).isSome

/-- The outcome of `json.MarshalIndent(net, "", "    ")`: an error when a number of the
network has no JSON text, otherwise the text of the network. -/
def marshalIndent (fmtFloat : α → Option (List Char)) (net : Network α) :
    Except FileErr String :=
  if supported fmtFloat net then .ok (String.mk (encNetwork fmtFloat net))
  else .error FileErr.marshalFailed

/-- An `int` field: an integer token whose value is in the range of a 64-bit `int`. -/
def decInt (s : List Char) : Option (Int × List Char) :=
  match decNumber parseInt s with
  | none => none
  | some (n, rest) => if -(2 ^ 63) ≤ n ∧ n < 2 ^ 63 then some (n, rest) else none

/-- The network that a text with the four fields of `Network`, in the order of their
declaration and followed by white space only, is decoded to. -/
def decNetwork (parseFloat : List Char → Option α) (s : List Char) : Option (Network α) := do
  let s ← expect '\x7b' s
  let s ← expectKey "InputSize".toList s
  let (inputSize, s) ← decInt s
  let s ← expect ',' s
  let s ← expectKey "Layers".toList s
  let (layers, s) ← decInt s
  let s ← expect ',' s
  let s ← expectKey "Weights".toList s
  let (weights, s) ← decArray (decArray (decArray (decNumber parseFloat))) s
  let s ← expect ',' s
  let s ← expectKey "LearningRate".toList s
  let (learningRate, s) ← decNumber parseFloat s
  let s ← expect '\x7d' s
  if skipSpace s = [] then
    pure { InputSize := inputSize, Layers := layers, Weights := weights,
           LearningRate := learningRate }
  else none

end NetworkText

end Json

/-! ### Auxiliary notions for the JSON text -/

namespace Json

/-- The text starts with a comma or a line break, as the text after an element of an
array or after the value of a field does. -/
def Delim (rest : List Char) : Prop :=
  ∃ r, rest = ',' :: r ∨ rest = '\n' :: r

/-- The decoder `p` reads the value `x` back from its text `enc x`: the text starts with
a character that is neither white space nor a closing bracket, and `p` applied to the
text, after any white space and before a comma or a line break, gives `x` and the text
that follows. -/
def ReadsBack {β : Type} (p : List Char → Option (β × List Char)) (enc : β → List Char)
    (x : β) : Prop :=
  (∃ c t, enc x = c :: t ∧ isSpace c = false ∧ c ≠ ']') ∧
  ∀ ws rest, (∀ c, c ∈ ws → isSpace c = true) → Delim rest →
    p (ws ++ (enc x ++ rest)) = some (x, rest)

end Json

/-! ### The data of `DigitRecognition` -/

namespace DigitRecognition

/-- The function `recordToData`.  `parseFloat` and `atoi` stand for `strconv.ParseFloat`
and `strconv.Atoi` with their errors dropped, as the code drops them; `0.99` and `0.01`
are the fractions `99/100` and `1/100`.  The loop `for i := 1; i < len(record); i++` is run
with `i = j + 1`. -/
def recordToData {α : Type} [Field α] (parseFloat : String → α) (atoi : String → Int)
    (record : List String) : Except Err (Training.Data α) := do
  let input ← forLoop (record.length - 1) (fun j (input : List α) => do
    let i : Int := (j : Int) + 1
    let s ← index record i
    let f := parseFloat s
    let _ ← index input (i - 1)
    pure (input.set (i - 1).toNat (((f / 255) * (99 / 100)) + 1 / 100)))
    (List.replicate 784 (0 : α))
  let target ← forLoop 10 (fun i (target : List α) => do
    let _ ← index target (i : Int)
    pure (target.set i (1 / 100))) (List.replicate 10 (0 : α))
  let s0 ← index record 0
  let actual := atoi s0
  let _ ← index target actual
  pure { Input := input, Target := target.set actual.toNat (99 / 100) }

end DigitRecognition

/-! ## Auxiliary notions used to state the properties -/

/-- The list `[f 0, ..., f (n-1)]`. -/
def tab {β : Type} (n : Nat) (f : Nat → β) : List β :=
  (List.range n).map f

namespace Mat

variable {α : Type}

/-- The value stored at row `r`, column `c` of `m` (zero outside of `m`). -/
def entry [Zero α] (m : Matrix α) (r c : Nat) : α :=
  (m.getD r []).getD c 0

/-- The matrix `m` is rectangular with `R` rows and `C` columns. -/
def IsMat (m : Matrix α) (R C : Nat) : Prop :=
  m.length = R ∧ ∀ row ∈ m, row.length = C

instance (m : Matrix α) (R C : Nat) : Decidable (IsMat m R C) := by
  unfold IsMat; infer_instance

/-- The matrix with `R` rows and `C` columns whose value at row `r`, column `c` is
`f r c`. -/
def mk (R C : Nat) (f : Nat → Nat → α) : Matrix α :=
  tab R (fun r => tab C (f r))

end Mat

namespace Network

open Mat Activation Training

variable {α : Type}

/-- The weight-shape invariant of a network for the declared layer sizes
`sizes = [n_0, ..., n_{L-1}]`: at least three layers, every size positive,
`InputSize = n_0`, `Layers = L`, exactly `L - 1` weight matrices, and `Weights[i]`
rectangular with `n_{i+1}` rows and `n_i` columns. -/
def ShapeInv (net : Network α) (sizes : List Nat) : Prop :=
  3 ≤ sizes.length ∧
  (∀ i, i < sizes.length → 0 < sizes.getD i 0) ∧
  net.InputSize = ((sizes.getD 0 0 : Nat) : Int) ∧
  net.Layers = ((sizes.length : Nat) : Int) ∧
  net.Weights.length = sizes.length - 1 ∧
  ∀ i, i < sizes.length - 1 →
    IsMat (net.Weights.getD i []) (sizes.getD (i + 1) 0) (sizes.getD i 0)

instance (net : Network α) (sizes : List Nat) : Decidable (ShapeInv net sizes) := by
  unfold ShapeInv; infer_instance

/-- The forward activations as the specification gives them, starting from the column `a`:
`a^0 = a` and `a^{i+1}` is the sigmoid applied elementwise to `Dot(W[i], a^i)`. -/
def forward [Field α] (exp : α → α) : List (Matrix α) → Matrix α → Except Err (List (Matrix α))
  | [], a => .ok [a]
  | W :: Ws, a =>
    match Dot W a with
    | .error e => .error e
    | .ok z =>
      match forward exp Ws (Apply z (sigmoid exp)) with
      | .error e => .error e
      | .ok rest => .ok (a :: rest)

/-- A caller that trains `n` times on the same sample:
`for k := 0; k < n; k++ { net.Train(data) }`; a panic ends the loop. -/
def trainN [Field α] (exp : α → α) (data : Data α) : Nat → Network α →
    Network α × Except Err Unit
  | 0, net => (net, .ok ())
  | n + 1, net =>
    match Train exp net data with
    | (net2, .ok _) => trainN exp data n net2
    | (net2, .error e) => (net2, .error e)

/-- The squared error between `Predict(input)` and the target: the sum over the components
`i` of the target of `(output_i - target_i)^2`. -/
def squaredError [Field α] (exp : α → α) (net : Network α) (data : Data α) : Except Err α := do
  let out ← Predict exp net data.Input
  pure ((List.range data.Target.length).map
    (fun i => (entry out i 0 - data.Target.getD i 0) ^ 2)).sum

end Network

/-! ## The concrete scenario of the specification -/

/-- A network with layer sizes `[2, 3, 2]` and learning rate `0.5`, with fixed weights. -/
def sampleNetwork (α : Type) [Field α] : Network α :=
  { InputSize := 2, Layers := 3,
    Weights := [[[1 / 10, 2 / 10], [3 / 10, 4 / 10], [5 / 10, 6 / 10]],
                [[1 / 10, 2 / 10, 3 / 10], [4 / 10, 5 / 10, 6 / 10]]],
    LearningRate := 1 / 2 }

/-- The sample with input `[0.5, 0.9]` and target `[0.99, 0.01]`. -/
def sampleData (α : Type) [Field α] : Training.Data α :=
  { Input := [1 / 2, 9 / 10], Target := [99 / 100, 1 / 100] }

/-- The length check of `make` in the Go runtime on a 64-bit platform: `make` panics with
`makeslice: len out of range` when the length is negative or the size of the slice in
bytes exceeds `maxAlloc = 2^48`. -/
def makeLenOk (elemSize : Nat) (len : Int) : Bool :=
  decide (0 ≤ len ∧ (elemSize : Int) * len ≤ 2 ^ 48)

/-- A stand-in for `math.Exp` on the rationals with the underflow of `float64`:
`math.Exp(x)` is 0 for every `x` below -746.  On the other arguments it is the
approximation `(1 + x/1024)^1024` of the exponential; its values are never negative. -/
def underflowExp (x : ℚ) : ℚ :=
  if x < -746 then 0 else (1 + x / 1024) ^ 1024

/-- A network with the layer sizes 1, 1, 1 whose two weights are 1000. -/
def saturatedNetwork : Network ℚ :=
  { InputSize := 1, Layers := 3, Weights := [[[1000]], [[1000]]], LearningRate := 1 }

/-- A text of a `float64` for the whole numbers only: the decimal notation of the number.
The other rationals have no text. -/
def wholeFmtFloat (x : ℚ) : Option (List Char) :=
  if x.den = 1 then some (Json.fmtInt x.num) else none

/-- The conversion of the text of a whole number to a `float64`. -/
def wholeParseFloat (s : List Char) : Option ℚ :=
  (Json.parseInt s).map (fun (n : Int) => (n : ℚ))

/-- A decoder on the texts that `Json.decNetwork` decodes; on the other texts it reports
an error and leaves the zero value of `Network`. -/
def wholeUnmarshal (bytes : String) : Network ℚ × Option FileErr :=
  match Json.decNetwork wholeParseFloat bytes.data with
  | some v => (v, none)
  | none => ({ InputSize := 0, Layers := 0, Weights := [], LearningRate := 0 },
      some FileErr.unmarshalFailed)


/-- A `float64` that is a rational number or, as `none`, the value `NaN`; only whole
numbers have a text here, and `NaN` has none, as in `encoding/json`. -/
def nanFmtFloat (x : Option ℚ) : Option (List Char) :=
  match x with
  | none => none
  | some q => wholeFmtFloat q

/-- The conversion of the text of a whole number to a `float64` that can be `NaN`. -/
def nanParseFloat (s : List Char) : Option (Option ℚ) :=
  (wholeParseFloat s).map some

/-- A network with the layer sizes 1, 1, 1 whose first weight is `NaN`. -/
def nanNetwork : Network (Option ℚ) :=
  { InputSize := 1, Layers := 3, Weights := [[[none]], [[some 1]]], LearningRate := some 1 }

/-- A decoder on the texts that `Json.decNetwork` decodes; on the other texts, the empty
text among them, it reports an error and leaves the zero value of `Network`. -/
def nanUnmarshal (bytes : String) : Network (Option ℚ) × Option FileErr :=
  match Json.decNetwork nanParseFloat bytes.data with
  | some v => (v, none)
  | none => ({ InputSize := 0, Layers := 0, Weights := [], LearningRate := some 0 },
      some FileErr.unmarshalFailed)

/-- A record of the data file of `DigitRecognition`: the label 5 followed by 784 pixel
values 255. -/
def sampleRecord : List String := "5" :: List.replicate 784 "255"

/-- The value of `strconv.ParseFloat` on the fields of `sampleRecord`. -/
def sampleParseFloat (s : String) : ℚ := if s = "255" then 255 else 0

/-- The value of `strconv.Atoi` on the fields of `sampleRecord`. -/
def sampleAtoi (s : String) : Int := if s = "5" then 5 else 0

/-! ## The matrix operations, `Predict` and `Train` with matrices held by reference

In Go a `Matrix` is a slice of row slices, and `Set` and `Apply` write into the backing
arrays of the rows of their receiver.  To state which memory a call writes, this section
embeds the functions on the paths of `Predict` and `Train` a second time, over an explicit
store of backing arrays: a matrix is the list of the addresses of its rows, `make` adds an
array at the next free address, and a computation returns its outcome together with the
store it leaves, also when it panics.  Slices of rows and slices of matrices are values
here: the code assigns to their elements only while it builds them (`zeroes`, `NewColumn`,
`Transpose`, `Copy`, `append`), except for the assignments `net.Weights[i] = ...` of the
last loop of `Train`, which are updates of the network record. -/

namespace Ref

/-- The store: the backing arrays of all `[]float64` rows, indexed by address. -/
abbrev Heap (α : Type) := List (List α)

/-- A `Matrix` value: the addresses of the backing arrays of its rows. -/
abbrev Matrix := List Nat

/-- A computation on the store: the outcome and the store after it. -/
def HeapM (α β : Type) := Heap α → Except Err β × Heap α

instance (α : Type) : Monad (HeapM α) where
  pure b := fun h => (.ok b, h)
  bind x f := fun h =>
    match x h with
    | (.ok b, h2) => f b h2
    | (.error e, h2) => (.error e, h2)

section Defs

variable {α : Type}

/-- A `panic`: the store stays as it is. -/
def raise {β : Type} (e : Err) : HeapM α β := fun h => (.error e, h)

/-- An outcome that does not touch the store. -/
def lift {β : Type} (x : Except Err β) : HeapM α β := fun h => (x, h)

/-- The allocation of a new backing array with the given content. -/
def make (row : List α) : HeapM α Nat := fun h => (.ok h.length, h ++ [row])

/-- The content of the backing array at address `a`. -/
def load (a : Nat) : HeapM α (List α) := fun h => (.ok (h.getD a []), h)

/-- The replacement of the content of the backing array at address `a`. -/
def store (a : Nat) (row : List α) : HeapM α Unit := fun h => (.ok (), h.set a row)

/-- The Go loop `for i := 0; i < n; i++ { body }`. -/
def forLoop {σ : Type} (n : Nat) (body : Nat → σ → HeapM α σ) (s : σ) : HeapM α σ :=
  (List.range n).foldlM (fun st i => body i st) s

/-- The function `zeroes`. -/
def zeroes [Zero α] (rows columns : Int) : HeapM α Matrix := do
  if rows < 0 then raise Err.makesliceLen
  else
    forLoop rows.toNat (fun _ data => do
      if columns < 0 then raise Err.makesliceLen
      else
        let a ← make (List.replicate columns.toNat (0 : α))
        pure (data ++ [a])) []

/-- The function `NewEmpty`. -/
def NewEmpty [Zero α] (rows columns : Int) : HeapM α Matrix :=
  if rows < 1 ∨ columns < 1 then raise Err.errInvalidSize
  else zeroes rows columns

/-- The function `NewColumn`. -/
def NewColumn (values : List α) : HeapM α Matrix :=
  forLoop values.length (fun i data => do
    let v ← lift (index values (i : Int))
    let a ← make [v]
    pure (data ++ [a])) []

/-- The method `Rows`. -/
def Rows (m : Matrix) : Int := m.length

/-- The method `Columns`. -/
def Columns (m : Matrix) : HeapM α Int := do
  let a ← lift (index m 0)
  let row ← load a
  pure (row.length : Int)

/-- The method `outOfBonds`. -/
def outOfBonds (m : Matrix) (x y : Int) : HeapM α Bool := do
  let c ← Columns m
  if x > c - 1 then pure true
  else pure (decide (y > Rows m - 1))

/-- The method `Get`. -/
def Get (m : Matrix) (x y : Int) : HeapM α α := do
  if (← outOfBonds m x y) then raise Err.errOutOfBounds
  else
    let a ← lift (index m y)
    let row ← load a
    lift (index row x)

/-- The method `Set`: the assignment `m[y][x] = value` writes into the backing array of
row `y`. -/
def Set (m : Matrix) (x y : Int) (value : α) : HeapM α Unit := do
  if (← outOfBonds m x y) then raise Err.errOutOfBounds
  else
    let a ← lift (index m y)
    let row ← load a
    let _ ← lift (index row x)
    store a (row.set x.toNat value)

/-- The method `Apply`: every element of every row of `m` is replaced in place. -/
def Apply (m : Matrix) (mapping : α → α) : HeapM α Unit :=
  forLoop m.length (fun r _ => do
    let a ← lift (index m (r : Int))
    let row ← load a
    forLoop row.length (fun i _ => do
      let cur ← load a
      let element ← lift (index cur (i : Int))
      store a (cur.set i (mapping element))) ()) ()

/-- The function `Dot`. -/
def Dot [Zero α] [Add α] [Mul α] (a b : Matrix) : HeapM α Matrix := do
  let ca ← Columns a
  if ca ≠ Rows b then raise Err.errDotProductSize
  else
    let cb ← Columns b
    let result ← NewEmpty (Rows a) cb
    forLoop (Rows a).toNat (fun r _ => do
      let cb ← Columns b
      forLoop cb.toNat (fun c _ => do
        let ca ← Columns a
        let sum ← forLoop ca.toNat (fun k sum => do
          let u ← Get a k r
          let v ← Get b c k
          pure (sum + u * v)) (0 : α)
        Set result c r sum) ()) ()
    pure result

/-- The type `Network`, with its weight matrices held by reference. -/
structure Network (α : Type) where
  InputSize : Int
  Layers : Int
  Weights : List Matrix
  LearningRate : α

/-- The body of the loop `for _, weights := range net.Weights` of `layerOutputs`; the loop
state is the pair of `layerOutput` and `outputs`. -/
def layerStep [Field α] (exp : α → α) (st : Matrix × List Matrix) (weights : Matrix) :
    HeapM α (Matrix × List Matrix) := do
  let layerOutput ← Dot weights st.1
  Apply layerOutput (Activation.Sigmoid exp).Func
  pure (layerOutput, st.2 ++ [layerOutput])

/-- The method `layerOutputs`. -/
def layerOutputs [Field α] (exp : α → α) (net : Network α) (input : List α) :
    HeapM α (List Matrix) := do
  if (input.length : Int) ≠ net.InputSize then raise Err.errInputsSize
  else
    let layerOutput ← NewColumn input
    let st ← net.Weights.foldlM (layerStep exp) (layerOutput, [layerOutput])
    pure st.2

/-- The method `Predict`. -/
def Predict [Field α] (exp : α → α) (net : Network α) (input : List α) :
    HeapM α Matrix := do
  let outputs ← layerOutputs exp net input
  lift (index outputs ((outputs.length : Int) - 1))

/-- The method `Dims`. -/
def Dims (m : Matrix) : HeapM α (Int × Int) := do
  let c ← Columns m
  pure (Rows m, c)

/-- The function `SameDims`. -/
def SameDims (a b : Matrix) : HeapM α Bool :=
  if Rows a = Rows b then do
    let ca ← Columns a
    let cb ← Columns b
    pure (decide (ca = cb))
  else pure false

/-- The function `add`. -/
def add [Zero α] [Add α] [Sub α] (a b : Matrix) (sub : Bool) : HeapM α Matrix := do
  let d ← Dims a
  let result ← NewEmpty d.1 d.2
  forLoop (Rows a).toNat (fun r _ => do
    let cols ← Columns a
    forLoop cols.toNat (fun c _ => do
      let value ← (
        if sub then do
          let u ← Get a c r
          let v ← Get b c r
          pure (u - v)
        else do
          let u ← Get a c r
          let v ← Get b c r
          pure (u + v))
      Set result c r value) ()) ()
  pure result

/-- The function `Subtract`. -/
def Subtract [Zero α] [Add α] [Sub α] (a b : Matrix) : HeapM α Matrix := do
  if !(← SameDims a b) then raise Err.errSubtractionSize
  else add a b true

/-- The function `MulElem`. -/
def MulElem [Zero α] [Mul α] (a b : Matrix) : HeapM α Matrix := do
  if !(← SameDims a b) then raise Err.errMulElemSize
  else
    let d ← Dims a
    let result ← NewEmpty d.1 d.2
    forLoop (Rows a).toNat (fun r _ => do
      let cols ← Columns a
      forLoop cols.toNat (fun c _ => do
        let u ← Get a c r
        let v ← Get b c r
        Set result c r (u * v)) ()) ()
    pure result

/-- The function `Transpose`: every `column` is a new array, filled by the assignments
`column[r] = m.Get(c, r)`; the slice `data` of row addresses is a value, built here by
appending `column` in iteration `c`. -/
def Transpose [Zero α] (m : Matrix) : HeapM α Matrix := do
  let cols ← Columns m
  forLoop cols.toNat (fun c data => do
    let column ← make (List.replicate (Rows m).toNat (0 : α))
    forLoop (Rows m).toNat (fun r _ => do
      let v ← Get m c r
      let cur ← load column
      store column (cur.set r v)) ()
    pure (data ++ [column])) []

/-- The function `Copy`: for every row, `make` and `copy` together allocate a new array
with the content of the row. -/
def Copy (m : Matrix) : HeapM α Matrix :=
  forLoop m.length (fun i duplicate => do
    let a ← lift (index m (i : Int))
    let row ← load a
    let b ← make row
    pure (duplicate ++ [b])) []

/-- The method `Scale`. -/
def Scale [Mul α] (m : Matrix) (scale : α) : HeapM α Unit :=
  Apply m (fun num => scale * num)

/-- The state of the backward loop of `Train`: `lastLayer`, `lastErrors` and `deltas`. -/
structure BackState where
  lastLayer : Bool
  lastErrors : Matrix
  deltas : List Matrix

/-- The body of the loop `for i := len(outputs) - 1; i > 0; i--` of `Train`, for
`i = len(outputs) - 1 - j`. -/
def backStep [Field α] (net : Network α) (data : Training.Data α) (outputs : List Matrix)
    (j : Nat) (st : BackState) : HeapM α BackState := do
  let i : Int := ((outputs.length : Int) - 1) - (j : Int)
  let dErrorWrtOutput ← (
    if st.lastLayer then do
      let o ← lift (index outputs i)
      let target ← NewColumn data.Target
      Subtract o target
    else do
      let w ← lift (index net.Weights i)
      let t ← Transpose w
      Dot t st.lastErrors)
  let o ← lift (index outputs i)
  let dOutputWrtSum ← Copy o
  Apply dOutputWrtSum (fun value => value * (1 - value))
  let dSumWrtWeights ← lift (index outputs (i - 1))
  let m ← MulElem dErrorWrtOutput dOutputWrtSum
  let t ← Transpose dSumWrtWeights
  let deltaWeights ← Dot m t
  Scale deltaWeights net.LearningRate
  let _ ← lift (index st.deltas (i - 1))
  pure { lastLayer := false, lastErrors := dErrorWrtOutput,
         deltas := st.deltas.set (i - 1).toNat deltaWeights }

/-- The first part of `Train`: the forward pass and the backward loop. -/
def trainDeltas [Field α] (exp : α → α) (net : Network α) (data : Training.Data α) :
    HeapM α (List Matrix) := do
  let outputs ← layerOutputs exp net data.Input
  if (outputs.length : Int) - 1 < 0 then raise Err.makesliceLen
  else
    let st ← forLoop (outputs.length - 1) (backStep net data outputs)
      { lastLayer := true, lastErrors := [], deltas := List.replicate (outputs.length - 1) [] }
    pure st.deltas

/-- The second part of `Train`: `for i, delta := range deltas { net.Weights[i] = ... }`.
The result is the network after the loop with the outcome, and the store. -/
def applyDeltas [Field α] (net : Network α) : Nat → List Matrix → Heap α →
    (Network α × Except Err Unit) × Heap α
  | _, [], h => ((net, .ok ()), h)
  | i, delta :: rest, h =>
    match index net.Weights (i : Int) with
    | .error e => ((net, .error e), h)
    | .ok w =>
      match Subtract w delta h with
      | (.error e, h2) => ((net, .error e), h2)
      | (.ok w2, h2) => applyDeltas { net with Weights := net.Weights.set i w2 } (i + 1) rest h2

/-- The method `Train` on a pointer receiver: the network after the call with the outcome
of the call, and the store after the call. -/
def Train [Field α] (exp : α → α) (net : Network α) (data : Training.Data α) (h : Heap α) :
    (Network α × Except Err Unit) × Heap α :=
  match trainDeltas exp net data h with
  | (.error e, h2) => ((net, .error e), h2)
  | (.ok deltas, h2) => applyDeltas net 0 deltas h2

/-- The function `Add` (placed last among the operations: from here on `Add` names it). -/
def Add [Zero α] [Add α] [Sub α] (a b : Matrix) : HeapM α Matrix := do
  if !(← SameDims a b) then raise Err.errAdditionSize
  else add a b false

/-- The matrix value that the reference `m` denotes in the store `h`. -/
def deref (h : Heap α) (m : Matrix) : Mat.Matrix α :=
  m.map (fun a => h.getD a [])

/-- The network value that the network `net` denotes in the store `h`. -/
def derefNet (h : Heap α) (net : Network α) : Gonet.Network α :=
  { InputSize := net.InputSize, Layers := net.Layers,
    Weights := net.Weights.map (deref h), LearningRate := net.LearningRate }

/-- The computation `f`, run from the store `h`, leaves a store of which `h0` is still a
prefix (no array that exists in `h0` has changed), whether it panics or not, and a value
that it returns satisfies `Q`. -/
def Keeps {β : Type} (h0 : Heap α) (Q : β → Prop) (f : HeapM α β) (h : Heap α) : Prop :=
  h0 <+: (f h).2 ∧ ∀ b, (f h).1 = .ok b → Q b

end Defs

end Ref

/-! ## Loops, indexing and tabulated lists -/

section Basics

variable {σ β : Type}

theorem forLoop_zero (body : Nat → σ → Except Err σ) (s : σ) :
    forLoop 0 body s = .ok s := by
  simp [forLoop, pure, Except.pure]

theorem forLoop_succ (n : Nat) (body : Nat → σ → Except Err σ) (s : σ) :
    forLoop (n + 1) body s = (forLoop n body s >>= body n) := by
  simp [forLoop, List.range_succ, List.foldlM_append]

/-- Invariant rule for `forLoop`: when every iteration below `n` succeeds and carries the
invariant from `i` to `i + 1`, the loop succeeds and the invariant holds at `n`. -/
theorem forLoop_inv (P : Nat → σ → Prop) (n : Nat) (body : Nat → σ → Except Err σ)
    (s : σ) (h0 : P 0 s)
    (hstep : ∀ i, i < n → ∀ st, P i st → ∃ st2, body i st = .ok st2 ∧ P (i + 1) st2) :
    ∃ st, forLoop n body s = .ok st ∧ P n st := by
  induction n with
  | zero => exact ⟨s, forLoop_zero body s, h0⟩
  | succ n ih =>
    obtain ⟨st, hst, hP⟩ := ih (fun i hi => hstep i (Nat.lt_succ_of_lt hi))
    obtain ⟨st2, hb, hP2⟩ := hstep n (Nat.lt_succ_self n) st hP
    refine ⟨st2, ?_, hP2⟩
    rw [forLoop_succ, hst]
    exact hb

theorem index_natCast (l : List β) (i : Nat) (v : β) (h : l[i]? = some v) :
    index l (i : Int) = .ok v := by
  simp [index, h]

theorem index_natCast_of_le (l : List β) (i : Nat) (h : l.length ≤ i) :
    index l (i : Int) = .error .indexOutOfRange := by
  have : l[i]? = none := List.getElem?_eq_none h
  simp [index, this]

theorem index_neg (l : List β) (i : Int) (h : i < 0) :
    index l i = .error .indexOutOfRange := by
  simp [index, h]

theorem tab_length (n : Nat) (f : Nat → β) : (tab n f).length = n := by
  simp [tab]

theorem tab_getElem? (n : Nat) (f : Nat → β) (i : Nat) (h : i < n) :
    (tab n f)[i]? = some (f i) := by
  simp [tab, List.getElem?_map, List.getElem?_range h]

theorem tab_congr (n : Nat) (f g : Nat → β) (h : ∀ i, i < n → f i = g i) :
    tab n f = tab n g := by
  apply List.map_congr_left
  intro i hi
  exact h i (List.mem_range.mp hi)

theorem tab_set (n : Nat) (f : Nat → β) (i : Nat) (v : β) :
    (tab n f).set i v = tab n (fun j => if j = i then v else f j) := by
  apply List.ext_getElem?
  intro j
  by_cases hj : j < n
  · rw [tab_getElem? _ _ _ hj]
    by_cases hji : j = i
    · subst hji
      rw [List.getElem?_set_self (by simpa [tab_length] using hj)]
      simp
    · rw [List.getElem?_set_ne (fun h => hji h.symm), tab_getElem? _ _ _ hj]
      simp [hji]
  · have h1 : (tab n fun j => if j = i then v else f j)[j]? = none :=
      List.getElem?_eq_none (by simpa [tab_length] using hj)
    have h2 : ((tab n f).set i v)[j]? = none :=
      List.getElem?_eq_none (by simpa [tab_length] using hj)
    rw [h1, h2]

theorem replicate_eq_tab (n : Nat) (z : β) : List.replicate n z = tab n (fun _ => z) := by
  apply List.ext_getElem?
  intro j
  by_cases hj : j < n
  · rw [tab_getElem? _ _ _ hj]
    simp [List.getElem?_replicate, hj]
  · have h1 : (tab n fun _ => z)[j]? = none :=
      List.getElem?_eq_none (by simpa [tab_length] using hj)
    have h2 : (List.replicate n z)[j]? = none :=
      List.getElem?_eq_none (by simpa using hj)
    rw [h1, h2]

theorem eq_tab_getD (l : List β) (d : β) : l = tab l.length (fun i => l.getD i d) := by
  apply List.ext_getElem?
  intro j
  by_cases hj : j < l.length
  · rw [tab_getElem? _ _ _ hj]
    simp [List.getD_eq_getElem?_getD, List.getElem?_eq_getElem hj]
  · have h1 : (tab l.length fun i => l.getD i d)[j]? = none :=
      List.getElem?_eq_none (by simpa [tab_length] using hj)
    have h2 : l[j]? = none := List.getElem?_eq_none (by simpa using hj)
    rw [h1, h2]

end Basics

/-! ## Matrices given by their entries -/

namespace Mat

section MkLemmas

variable {α : Type}

theorem mk_congr (R C : Nat) (f g : Nat → Nat → α)
    (h : ∀ r, r < R → ∀ c, c < C → f r c = g r c) : mk R C f = mk R C g :=
  tab_congr R _ _ (fun r hr => tab_congr C _ _ (fun c hc => h r hr c hc))

theorem isMat_mk (R C : Nat) (f : Nat → Nat → α) : IsMat (mk R C f) R C := by
  refine ⟨tab_length _ _, ?_⟩
  intro row hrow
  simp only [mk, tab, List.mem_map] at hrow
  obtain ⟨r, _, rfl⟩ := hrow
  simp

theorem mk_getElem? (R C : Nat) (f : Nat → Nat → α) (r : Nat) (hr : r < R) :
    (mk R C f)[r]? = some (tab C (f r)) :=
  tab_getElem? R _ r hr

theorem entry_mk [Zero α] (R C : Nat) (f : Nat → Nat → α) (r c : Nat) (hr : r < R)
    (hc : c < C) : entry (mk R C f) r c = f r c := by
  simp [entry, List.getD_eq_getElem?_getD, mk_getElem? R C f r hr, tab_getElem? C (f r) c hc]

theorem IsMat.eq_mk [Zero α] {m : Matrix α} {R C : Nat} (h : IsMat m R C) :
    m = mk R C (entry m) := by
  obtain ⟨hlen, hrows⟩ := h
  subst hlen
  apply List.ext_getElem?
  intro r
  by_cases hr : r < m.length
  · rw [mk_getElem? _ _ _ _ hr, List.getElem?_eq_getElem hr]
    have hlenr : (m[r]).length = C := hrows _ (List.getElem_mem hr)
    have h1 : m[r] = tab (m[r]).length (fun i => (m[r]).getD i 0) := eq_tab_getD _ 0
    rw [hlenr] at h1
    rw [h1]
    congr 1
    apply tab_congr
    intro c _
    simp [entry, List.getD_eq_getElem?_getD, List.getElem?_eq_getElem hr, ← h1]
  · have h1 : (mk m.length C (entry m))[r]? = none :=
      List.getElem?_eq_none (by simpa [mk, tab_length] using hr)
    have h2 : m[r]? = none := List.getElem?_eq_none (by simpa using hr)
    rw [h1, h2]

theorem Rows_mk (R C : Nat) (f : Nat → Nat → α) : Rows (mk R C f) = (R : Int) := by
  simp [Rows, mk, tab_length]

theorem Columns_mk (R C : Nat) (f : Nat → Nat → α) (hR : 0 < R) :
    Columns (mk R C f) = .ok (C : Int) := by
  obtain ⟨n, rfl⟩ : ∃ n, R = n + 1 := ⟨R - 1, by omega⟩
  simp [Columns, mk, tab, List.range_succ_eq_map]

theorem outOfBonds_mk (R C : Nat) (f : Nat → Nat → α) (r c : Nat) (hr : r < R) (hc : c < C) :
    outOfBonds (mk R C f) (c : Int) (r : Int) = .ok false := by
  have h1 : ¬ ((c : Int) > (C : Int) - 1) := by omega
  have h2 : ¬ ((r : Int) > (R : Int) - 1) := by omega
  simp only [outOfBonds, Columns_mk R C f (by omega), Rows_mk, bind, Except.bind, h1, h2,
    if_false, decide_False]
  rfl

theorem Get_mk (R C : Nat) (f : Nat → Nat → α) (r c : Nat) (hr : r < R) (hc : c < C) :
    Get (mk R C f) (c : Int) (r : Int) = .ok (f r c) := by
  simp only [Get, outOfBonds_mk R C f r c hr hc, bind, Except.bind,
    index_natCast _ r _ (mk_getElem? R C f r hr), index_natCast _ c _ (tab_getElem? C (f r) c hc)]
  rfl

theorem Set_mk (R C : Nat) (f : Nat → Nat → α) (r c : Nat) (v : α) (hr : r < R) (hc : c < C) :
    Set (mk R C f) (c : Int) (r : Int) v =
      .ok (mk R C (fun r2 c2 => if r2 = r ∧ c2 = c then v else f r2 c2)) := by
  simp only [Set, outOfBonds_mk R C f r c hr hc, bind, Except.bind,
    index_natCast _ r _ (mk_getElem? R C f r hr), index_natCast _ c _ (tab_getElem? C (f r) c hc)]
  simp only [Bool.false_eq_true, if_false, pure, Except.pure, Int.toNat_ofNat, mk, tab_set]
  congr 1
  apply tab_congr
  intro r2 _
  by_cases h : r2 = r
  · subst h
    simp
  · simp only [h, if_false, false_and]

theorem zeroes_eq [Zero α] (R C : Nat) :
    zeroes (R : Int) (C : Int) = .ok (mk R C (fun _ _ => (0 : α))) := by
  have h1 : ¬ ((R : Int) < 0) := by omega
  have h2 : ¬ (0 < (R : Int) ∧ (C : Int) < 0) := by omega
  simp only [zeroes, h1, h2, if_false, Int.toNat_ofNat, mk, replicate_eq_tab]

theorem NewEmpty_eq [Zero α] (R C : Nat) (hR : 0 < R) (hC : 0 < C) :
    NewEmpty (R : Int) (C : Int) = .ok (mk R C (fun _ _ => (0 : α))) := by
  have h1 : ¬ ((R : Int) < 1 ∨ (C : Int) < 1) := by omega
  simp only [NewEmpty, h1, if_false, zeroes_eq]

/-- The nested loops that fill a result matrix: when the body for `(r, c)` stores `F r c`
at row `r`, column `c`, the loops turn any `R` by `C` matrix into the matrix of `F`. -/
theorem fill_loop (R C : Nat) (outer : Nat → Matrix α → Except Err (Matrix α))
    (inner : Nat → Nat → Matrix α → Except Err (Matrix α)) (F z : Nat → Nat → α)
    (hO : ∀ r, r < R → ∀ res, outer r res = forLoop C (inner r) res)
    (hI : ∀ r, r < R → ∀ c, c < C → ∀ res, inner r c res = Set res (c : Int) (r : Int) (F r c)) :
    forLoop R outer (mk R C z) = .ok (mk R C F) := by
  obtain ⟨st, hst, hP⟩ := forLoop_inv
    (fun k res => res = mk R C (fun r c => if r < k then F r c else z r c)) R outer (mk R C z)
    (by simp) (by
      intro r hr st hP
      obtain ⟨st2, hst2, hQ⟩ := forLoop_inv
        (fun j res => res = mk R C (fun r2 c => if r2 < r ∨ (r2 = r ∧ c < j) then F r2 c
          else z r2 c)) C (inner r) st
        (by
          rw [hP]
          apply mk_congr
          intro r2 _ c _
          simp)
        (by
          intro c hc st3 hQ
          refine ⟨_, ?_, rfl⟩
          rw [hI r hr c hc, hQ, Set_mk _ _ _ _ _ _ hr hc]
          congr 1
          apply mk_congr
          intro r2 _ c2 _
          by_cases h1 : r2 = r
          · subst h1
            by_cases h2 : c2 = c
            · subst h2
              simp
            · have : c2 < c + 1 ↔ c2 < c := by omega
              simp [h2, this]
          · simp [h1])
      refine ⟨st2, ?_, ?_⟩
      · rw [hO r hr, hst2]
      · rw [hQ]
        apply mk_congr
        intro r2 _ c hc
        have : r2 < r + 1 ↔ (r2 < r ∨ r2 = r) := by omega
        simp [hc, this])
  rw [hst, hP]
  congr 1
  apply mk_congr
  intro r hr c _
  simp [hr]

end MkLemmas

end Mat

/-! ## The matrix operations on rectangular matrices -/

namespace Mat

section OpLemmas

variable {α : Type}

theorem Dims_mk (R C : Nat) (f : Nat → Nat → α) (hR : 0 < R) :
    Dims (mk R C f) = .ok ((R : Int), (C : Int)) := by
  simp only [Dims, Columns_mk R C f hR, Rows_mk, bind, Except.bind]
  rfl

theorem SameDims_mk (R C R2 C2 : Nat) (f g : Nat → Nat → α) (hR : 0 < R) (hR2 : 0 < R2) :
    SameDims (mk R C f) (mk R2 C2 g) = .ok (decide (R = R2 ∧ C = C2)) := by
  by_cases h : R = R2
  · subst h
    simp only [SameDims, Rows_mk, Columns_mk _ _ _ hR, bind, Except.bind, if_true, pure,
      Except.pure, Nat.cast_inj, true_and]
  · have h2 : ¬ ((R : Int) = (R2 : Int)) := by omega
    simp only [SameDims, Rows_mk, h2, if_false, pure, Except.pure, h, false_and, decide_False]

theorem dot_sum_loop [Semiring α] (K : Nat) (body : Nat → α → Except Err α) (g : Nat → α)
    (h : ∀ k, k < K → ∀ s, body k s = .ok (s + g k)) :
    forLoop K body (0 : α) = .ok (∑ k in Finset.range K, g k) := by
  obtain ⟨st, hst, hP⟩ := forLoop_inv (fun k s => s = ∑ i in Finset.range k, g i) K body 0
    (by simp) (by
      intro k hk st hP
      refine ⟨_, h k hk st, ?_⟩
      simp only [hP, Finset.sum_range_succ])
  rw [hst, hP]

theorem Dot_mk [Semiring α] (R K C : Nat) (fa fb : Nat → Nat → α) (hR : 0 < R) (hK : 0 < K)
    (hC : 0 < C) :
    Dot (mk R K fa) (mk K C fb) =
      .ok (mk R C (fun r c => ∑ k in Finset.range K, fa r k * fb k c)) := by
  simp only [Dot, Columns_mk _ _ _ hR, Columns_mk _ _ _ hK, Rows_mk, bind, Except.bind,
    ne_eq, not_true_eq_false, if_false, NewEmpty_eq R C hR hC, Int.toNat_ofNat, pure,
    Except.pure]
  refine fill_loop R C _ _ _ _ (fun r _ res => rfl) ?_
  intro r hr c hc res
  rw [dot_sum_loop K _ (fun k => fa r k * fb k c)]
  intro k hk s
  rw [Get_mk _ _ _ _ _ hr hk, Get_mk _ _ _ _ _ hk hc]

theorem add_mk [Ring α] (R C : Nat) (fa fb : Nat → Nat → α) (sub : Bool) (hR : 0 < R)
    (hC : 0 < C) :
    add (mk R C fa) (mk R C fb) sub =
      .ok (mk R C (fun r c => if sub then fa r c - fb r c else fa r c + fb r c)) := by
  simp only [add, Dims_mk _ _ _ hR, Columns_mk _ _ _ hR, Rows_mk, bind, Except.bind,
    NewEmpty_eq R C hR hC, Int.toNat_ofNat, pure, Except.pure]
  refine fill_loop R C _ _ _ _ (fun r _ res => rfl) ?_
  intro r hr c hc res
  simp only [Get_mk _ _ _ _ _ hr hc]
  cases sub <;> simp

theorem MulElem_mk [Semiring α] (R C : Nat) (fa fb : Nat → Nat → α) (hR : 0 < R) (hC : 0 < C) :
    MulElem (mk R C fa) (mk R C fb) = .ok (mk R C (fun r c => fa r c * fb r c)) := by
  simp only [MulElem, SameDims_mk _ _ _ _ _ _ hR hR, Dims_mk _ _ _ hR, Columns_mk _ _ _ hR,
    Rows_mk, bind, Except.bind, NewEmpty_eq R C hR hC, Int.toNat_ofNat, pure, Except.pure,
    and_self, decide_True, Bool.not_true, Bool.false_eq_true, if_false]
  refine fill_loop R C _ _ _ _ (fun r _ res => rfl) ?_
  intro r hr c hc res
  simp only [Get_mk _ _ _ _ _ hr hc]

theorem Subtract_mk [Ring α] (R C : Nat) (fa fb : Nat → Nat → α) (hR : 0 < R) (hC : 0 < C) :
    Subtract (mk R C fa) (mk R C fb) = .ok (mk R C (fun r c => fa r c - fb r c)) := by
  simp only [Subtract, SameDims_mk _ _ _ _ _ _ hR hR, bind, Except.bind, and_self,
    decide_True, Bool.not_true, Bool.false_eq_true, if_false, pure, Except.pure,
    add_mk R C fa fb true hR hC, if_true]

theorem Add_mk [Ring α] (R C : Nat) (fa fb : Nat → Nat → α) (hR : 0 < R) (hC : 0 < C) :
    Add (mk R C fa) (mk R C fb) = .ok (mk R C (fun r c => fa r c + fb r c)) := by
  simp only [Add, SameDims_mk _ _ _ _ _ _ hR hR, bind, Except.bind, and_self,
    decide_True, Bool.not_true, Bool.false_eq_true, if_false, pure, Except.pure,
    add_mk R C fa fb false hR hC]

/-- A loop that assigns `F i` to position `i` of a list of length `n` yields
`[F 0, ..., F (n-1)]`. -/
theorem fill_list {β : Type} (n : Nat) (body : Nat → List β → Except Err (List β))
    (F : Nat → β) (z : β) (h : ∀ i, i < n → ∀ l, body i l = .ok (l.set i (F i))) :
    forLoop n body (List.replicate n z) = .ok (tab n F) := by
  obtain ⟨st, hst, hP⟩ := forLoop_inv
    (fun k l => l = tab n (fun i => if i < k then F i else z)) n body (List.replicate n z)
    (by simp [replicate_eq_tab]) (by
      intro i hi l hP
      refine ⟨_, h i hi l, ?_⟩
      simp only [hP, tab_set]
      apply tab_congr
      intro j _
      by_cases hj : j = i
      · subst hj
        simp
      · have : j < i + 1 ↔ j < i := by omega
        simp [hj, this])
  rw [hst, hP]
  congr 1
  apply tab_congr
  intro i hi
  simp [hi]

theorem Transpose_mk [Zero α] (R C : Nat) (f : Nat → Nat → α) (hR : 0 < R) :
    Transpose (mk R C f) = .ok (mk C R (fun c r => f r c)) := by
  simp only [Transpose, Columns_mk _ _ _ hR, Rows_mk, bind, Except.bind, Int.toNat_ofNat]
  apply fill_list C _ (fun c => tab R (fun r => f r c))
  intro c hc data
  rw [fill_list R _ (fun r => f r c)]
  · rfl
  · intro r hr column
    rw [Get_mk _ _ _ _ _ hr hc]
    rfl

theorem applyRowS_unit (f : α → α) (row : List α) :
    (applyRowS (fun v (s : Unit) => (f v, s)) row ()).1 = row.map f := by
  induction row with
  | nil => rfl
  | cons x xs ih => simp [applyRowS, ih]

theorem Apply_eq_map (m : Matrix α) (f : α → α) : Apply m f = m.map (List.map f) := by
  unfold Apply
  induction m with
  | nil => rfl
  | cons row rows ih => simp [ApplyS, ih, applyRowS_unit]

theorem Apply_mk (R C : Nat) (g : Nat → Nat → α) (f : α → α) :
    Apply (mk R C g) f = mk R C (fun r c => f (g r c)) := by
  simp [Apply_eq_map, mk, tab, Function.comp_def]

theorem Scale_mk [Mul α] (R C : Nat) (g : Nat → Nat → α) (k : α) :
    Scale (mk R C g) k = mk R C (fun r c => k * g r c) :=
  Apply_mk R C g _

theorem Copy_eq (m : Matrix α) : Copy m = m := by
  simp [Copy]

theorem NewColumn_eq_mk [Zero α] (values : List α) :
    NewColumn values = mk values.length 1 (fun r _ => values.getD r 0) := by
  apply List.ext_getElem?
  intro r
  by_cases hr : r < values.length
  · rw [mk_getElem? _ _ _ _ hr]
    simp [NewColumn, List.getElem?_map, List.getElem?_eq_getElem hr, tab,
      List.getD_eq_getElem?_getD]
  · have h1 : (mk values.length 1 (fun r _ => values.getD r 0))[r]? = none :=
      List.getElem?_eq_none (by simpa [mk, tab_length] using hr)
    have h2 : (NewColumn values)[r]? = none :=
      List.getElem?_eq_none (by simpa [NewColumn] using hr)
    rw [h1, h2]

theorem Get_entry [Zero α] (m : Matrix α) (R C r c : Nat) (hm : IsMat m R C) (hr : r < R)
    (hc : c < C) : Get m (c : Int) (r : Int) = .ok (entry m r c) := by
  have h := Get_mk R C (entry m) r c hr hc
  rw [← hm.eq_mk] at h
  exact h

theorem Dot_isMat [Semiring α] (a b : Matrix α) (R K C : Nat) (ha : IsMat a R K)
    (hb : IsMat b K C) (hR : 0 < R) (hK : 0 < K) (hC : 0 < C) :
    Dot a b = .ok (mk R C (fun r c => ∑ k in Finset.range K, entry a r k * entry b k c)) := by
  have h := Dot_mk R K C (entry a) (entry b) hR hK hC
  rw [← ha.eq_mk, ← hb.eq_mk] at h
  exact h

theorem Dot_error_of_degenerate [Semiring α] (a b : Matrix α) (R K C : Nat) (ha : IsMat a R K)
    (hb : IsMat b K C) (h : R = 0 ∨ K = 0 ∨ C = 0) : ∃ e, Dot a b = .error e := by
  by_cases hR : R = 0
  · subst hR
    have : a = [] := List.length_eq_zero.mp ha.1
    subst this
    exact ⟨_, rfl⟩
  by_cases hK : K = 0
  · subst hK
    have hb0 : b = [] := List.length_eq_zero.mp hb.1
    subst hb0
    rw [ha.eq_mk]
    refine ⟨Err.indexOutOfRange, ?_⟩
    simp only [Dot, Columns_mk _ _ _ (Nat.pos_of_ne_zero hR), bind, Except.bind, Rows]
    rfl
  · have hC : C = 0 := by omega
    subst hC
    rw [ha.eq_mk, hb.eq_mk]
    refine ⟨Err.errInvalidSize, ?_⟩
    simp only [Dot, Columns_mk _ _ _ (Nat.pos_of_ne_zero hR),
      Columns_mk _ _ _ (Nat.pos_of_ne_zero hK), bind, Except.bind, Rows_mk, NewEmpty]
    simp [pure, Except.pure]

end OpLemmas

end Mat

/-! ## The forward pass -/

namespace Network

open Mat Activation Training

section ForwardLemmas

variable {α : Type} [Field α]

theorem forward_head (exp : α → α) (Ws : List (Matrix α)) (a : Matrix α)
    (outs : List (Matrix α)) (h : forward exp Ws a = .ok outs) : ∃ t, outs = a :: t := by
  cases Ws with
  | nil =>
    simp only [forward] at h
    cases h
    exact ⟨[], rfl⟩
  | cons W Ws =>
    cases hz : Dot W a with
    | error e => simp [forward, hz] at h
    | ok z =>
      cases hr : forward exp Ws (Apply z (sigmoid exp)) with
      | error e => simp [forward, hz, hr] at h
      | ok rest =>
        simp only [forward, hz, hr, Except.ok.injEq] at h
        subst h
        exact ⟨rest, rfl⟩

/-- The loop of `layerOutputs`, started with current output `lo` and collected outputs
`outs`, appends to `outs` the forward activations that follow `lo`. -/
theorem foldl_forward (exp : α → α) (Ws : List (Matrix α)) (lo : Matrix α)
    (outs : List (Matrix α)) :
    (do
      let st ← Ws.foldlM (fun (st : Matrix α × List (Matrix α)) weights => do
        let z ← Dot weights st.1
        let layerOutput := Apply z (Sigmoid exp).Func
        pure (layerOutput, st.2 ++ [layerOutput])) (lo, outs)
      pure st.2) =
    (match forward exp Ws lo with
      | .error e => .error e
      | .ok rest => .ok (outs ++ rest.tail)) := by
  induction Ws generalizing lo outs with
  | nil => simp [forward, pure, Except.pure, bind, Except.bind]
  | cons W Ws ih =>
    simp only [List.foldlM_cons, forward, bind_assoc]
    cases hz : Dot W lo with
    | error e => rfl
    | ok z =>
      have h1 := ih (Apply z (sigmoid exp)) (outs ++ [Apply z (sigmoid exp)])
      simp only [bind, Except.bind, pure, Except.pure, Sigmoid] at h1 ⊢
      rw [h1]
      cases hr : forward exp Ws (Apply z (sigmoid exp)) with
      | error e => rfl
      | ok rest =>
        obtain ⟨t, rfl⟩ := forward_head exp Ws _ rest hr
        simp

theorem layerOutputs_eq_forward (exp : α → α) (net : Network α) (input : List α)
    (h : (input.length : Int) = net.InputSize) :
    layerOutputs exp net input = forward exp net.Weights (NewColumn input) := by
  have h1 := foldl_forward exp net.Weights (NewColumn input) [NewColumn input]
  simp only [layerOutputs, h, ne_eq, not_true_eq_false, if_false]
  simp only [bind, Except.bind, pure, Except.pure] at h1 ⊢
  rw [h1]
  cases hr : forward exp net.Weights (NewColumn input) with
  | error e => rfl
  | ok rest =>
    obtain ⟨t, rfl⟩ := forward_head exp _ _ rest hr
    rfl

theorem layerOutputs_wrong_size (exp : α → α) (net : Network α) (input : List α)
    (h : (input.length : Int) ≠ net.InputSize) :
    layerOutputs exp net input = .error .errInputsSize := by
  simp only [layerOutputs, h, ne_eq, not_false_eq_true, if_true]
  rfl

/-- The list returned by `forward` satisfies the recurrence of the forward pass. -/
theorem forward_rel (exp : α → α) (Ws : List (Matrix α)) (a : Matrix α)
    (outs : List (Matrix α)) (h : forward exp Ws a = .ok outs) :
    outs.length = Ws.length + 1 ∧ outs[0]? = some a ∧
    ∀ i, i < Ws.length → ∃ z, Dot (Ws.getD i []) (outs.getD i []) = .ok z ∧
      outs[i + 1]? = some (Apply z (sigmoid exp)) := by
  induction Ws generalizing a outs with
  | nil =>
    simp only [forward] at h
    cases h
    simp
  | cons W Ws ih =>
    cases hz : Dot W a with
    | error e => simp [forward, hz] at h
    | ok z =>
      cases hr : forward exp Ws (Apply z (sigmoid exp)) with
      | error e => simp [forward, hz, hr] at h
      | ok rest =>
        simp only [forward, hz, hr, Except.ok.injEq] at h
        subst h
        obtain ⟨hlen, h0, hstep⟩ := ih _ rest hr
        refine ⟨by simp [hlen], by simp, ?_⟩
        intro i hi
        cases i with
        | zero =>
          refine ⟨z, by simpa using hz, ?_⟩
          simpa using h0
        | succ i =>
          obtain ⟨z2, hz2, hn⟩ := hstep i (by simpa using hi)
          exact ⟨z2, by simpa using hz2, by simpa using hn⟩

theorem Apply_isMat (m : Matrix α) (R C : Nat) (f : α → α) (hm : IsMat m R C) :
    IsMat (Apply m f) R C := by
  rw [hm.eq_mk, Apply_mk]
  exact isMat_mk _ _ _

theorem NewColumn_isMat (values : List α) : IsMat (NewColumn values) values.length 1 := by
  rw [NewColumn_eq_mk]
  exact isMat_mk _ _ _

/-- Under the shape conditions the forward recursion succeeds and `a^i` is a column of
`n_i` values. -/
theorem forward_shapes (exp : α → α) (Ws : List (Matrix α)) (sizes : List Nat) (a : Matrix α)
    (hlen : Ws.length + 1 = sizes.length)
    (hpos : ∀ i, i < sizes.length → 0 < sizes.getD i 0)
    (hW : ∀ i, i < Ws.length → IsMat (Ws.getD i []) (sizes.getD (i + 1) 0) (sizes.getD i 0))
    (ha : IsMat a (sizes.getD 0 0) 1) :
    ∃ outs, forward exp Ws a = .ok outs ∧
      ∀ i, i < sizes.length → IsMat (outs.getD i []) (sizes.getD i 0) 1 := by
  induction Ws generalizing sizes a with
  | nil =>
    refine ⟨[a], rfl, ?_⟩
    intro i hi
    have : i = 0 := by simp at hlen; omega
    subst this
    simpa using ha
  | cons W Ws ih =>
    match sizes, hlen with
    | n0 :: n1 :: ns, hlen =>
      have hW0 : IsMat W n1 n0 := by simpa using hW 0 (by simp)
      have ha0 : IsMat a n0 1 := by simpa using ha
      have hn0 : 0 < n0 := by simpa using hpos 0 (by simp)
      have hn1 : 0 < n1 := by simpa using hpos 1 (by simp)
      obtain ⟨z, hz, hzm⟩ : ∃ z, Dot W a = .ok z ∧ IsMat z n1 1 :=
        ⟨_, Dot_isMat W a n1 n0 1 hW0 ha0 hn1 hn0 Nat.one_pos, isMat_mk _ _ _⟩
      obtain ⟨rest, hrest, hshape⟩ := ih (n1 :: ns) (Apply z (sigmoid exp))
        (by simpa using hlen)
        (fun i hi => by simpa using hpos (i + 1) (by simpa using hi))
        (fun i hi => by simpa using hW (i + 1) (by simpa using hi))
        (by simpa using Apply_isMat z n1 1 (sigmoid exp) hzm)
      refine ⟨a :: rest, by simp only [forward, hz, hrest], ?_⟩
      intro i hi
      cases i with
      | zero => simpa using ha0
      | succ i => simpa using hshape i (by simpa using hi)

theorem Predict_eq (exp : α → α) (net : Network α) (input : List α)
    (outs : List (Matrix α)) (h : layerOutputs exp net input = .ok outs)
    (hlen : outs.length = net.Weights.length + 1) :
    Predict exp net input = .ok (outs.getD net.Weights.length []) := by
  have h1 : ((outs.length : Int) - 1) = ((net.Weights.length : Nat) : Int) := by
    rw [hlen]; push_cast; ring
  have h2 : outs[net.Weights.length]? = some (outs.getD net.Weights.length []) := by
    rw [List.getD_eq_getElem?_getD, List.getElem?_eq_getElem (by omega)]
    rfl
  simp only [Predict, h, bind, Except.bind, h1, index_natCast _ _ _ h2]

theorem ShapeInv.layerOutputs_ok (exp : α → α) (net : Network α) (sizes : List Nat)
    (input : List α) (hinv : ShapeInv net sizes) (hin : input.length = sizes.getD 0 0) :
    ∃ outs, layerOutputs exp net input = .ok outs ∧
      forward exp net.Weights (NewColumn input) = .ok outs ∧
      outs.length = sizes.length ∧
      ∀ i, i < sizes.length → IsMat (outs.getD i []) (sizes.getD i 0) 1 := by
  obtain ⟨hL, hpos, hI, _, hlen, hW⟩ := hinv
  have hsz : (input.length : Int) = net.InputSize := by rw [hI, hin]
  obtain ⟨outs, hf, hshape⟩ := forward_shapes exp net.Weights sizes (NewColumn input)
    (by omega) hpos (fun i hi => hW i (by omega))
    (by rw [← hin]; exact NewColumn_isMat input)
  refine ⟨outs, by rw [layerOutputs_eq_forward exp net input hsz, hf], hf, ?_, hshape⟩
  rw [(forward_rel exp _ _ _ hf).1]
  omega

end ForwardLemmas

end Network

/-! ## Construction of a network -/

theorem forLoop_error {σ : Type} (n j0 : Nat) (body : Nat → σ → Except Err σ) (s st : σ)
    (e : Err) (h1 : forLoop j0 body s = .ok st) (h2 : body j0 st = .error e) (hj : j0 < n) :
    forLoop n body s = .error e := by
  induction n with
  | zero => omega
  | succ n ih =>
    rw [forLoop_succ]
    by_cases h : j0 = n
    · subst h
      rw [h1]
      exact h2
    · rw [ih (by omega)]
      rfl

theorem index_getD {β : Type} (l : List β) (i : Nat) (d : β) (h : i < l.length) :
    index l (i : Int) = .ok (l.getD i d) := by
  apply index_natCast
  rw [List.getD_eq_getElem?_getD, List.getElem?_eq_getElem h]
  rfl

namespace Mat

theorem applyRowS_length {α σ : Type} (f : α → σ → α × σ) (row : List α) (s : σ) :
    (applyRowS f row s).1.length = row.length := by
  induction row generalizing s with
  | nil => rfl
  | cons x xs ih => simp [applyRowS, ih]

theorem ApplyS_isMat {α σ : Type} (f : α → σ → α × σ) (m : Matrix α) (s : σ) (R C : Nat)
    (h : IsMat m R C) : IsMat (ApplyS f m s).1 R C := by
  induction m generalizing s R with
  | nil => exact h
  | cons row rows ih =>
    obtain ⟨hlen, hrows⟩ := h
    have htail : IsMat rows rows.length C :=
      ⟨rfl, fun r hr => hrows r (List.mem_cons_of_mem _ hr)⟩
    have h2 := ih (applyRowS f row s).2 rows.length htail
    refine ⟨?_, ?_⟩
    · simp only [ApplyS, List.length_cons, h2.1]
      simpa using hlen
    · intro r hr
      simp only [ApplyS, List.mem_cons] at hr
      rcases hr with rfl | hr
      · rw [applyRowS_length]
        exact hrows row (List.mem_cons_self _ _)
      · exact h2.2 r hr

end Mat

namespace Network

open Mat Activation Training

section NewLemmas

variable {α : Type} [Field α]

theorem zeroesWith_unbounded (rows columns : Int) :
    (zeroesWith (fun _ len => decide (0 ≤ len)) rows columns : Except Err (Matrix α)) =
      zeroes rows columns := by
  unfold zeroesWith zeroes
  by_cases h1 : rows < 0
  · simp [h1]
  · have h1b : 0 ≤ rows := by omega
    by_cases h2 : 0 < rows ∧ columns < 0
    · simp [h1, h1b, h2]
    · by_cases h3 : 0 < rows
      · have h4 : ¬ columns < 0 := fun h => h2 ⟨h3, h⟩
        have h5 : 0 ≤ columns := by omega
        simp [h1, h1b, h4, h5]
      · simp [h1, h1b, h3]

theorem NewEmptyWith_unbounded (rows columns : Int) :
    (NewEmptyWith (fun _ len => decide (0 ≤ len)) rows columns : Except Err (Matrix α)) =
      NewEmpty rows columns := by
  unfold NewEmptyWith NewEmpty
  rw [zeroesWith_unbounded]

theorem NewEmptyWith_eq (canMake : Nat → Int → Bool) (R C : Nat) (hR : 0 < R) (hC : 0 < C)
    (h24 : canMake 24 (R : Int) = true) (h8 : canMake 8 (C : Int) = true) :
    NewEmptyWith canMake (R : Int) (C : Int) = .ok (Mat.mk R C (fun _ _ => (0 : α))) := by
  have h1 : ¬ ((R : Int) < 1 ∨ (C : Int) < 1) := by omega
  have h2 : ¬ ((R : Int) < 0) := by omega
  have h3 : ¬ ((C : Int) < 0) := by omega
  simp only [NewEmptyWith, zeroesWith, h1, h2, h3, h24, h8, if_false, false_or, and_false,
    Bool.true_eq_false, Int.toNat_ofNat, Mat.mk, replicate_eq_tab]

theorem NewEmptyWith_makeslice (canMake : Nat → Int → Bool) (rows columns : Int)
    (hr : 1 ≤ rows) (hc : 1 ≤ columns)
    (h : canMake 24 rows = false ∨ canMake 8 columns = false) :
    (NewEmptyWith canMake rows columns : Except Err (Matrix α)) = .error .makesliceLen := by
  have h1 : ¬ (rows < 1 ∨ columns < 1) := by omega
  have h2 : 0 < rows := by omega
  simp only [NewEmptyWith, zeroesWith, h1, if_false]
  by_cases h24 : canMake 24 rows = false
  · simp [h24]
  · have h8 : canMake 8 columns = false := h.resolve_left h24
    simp [h8, h2]

theorem newLayer_ok (canMake : Nat → Int → Bool) (sqrt : α → α) (rnd : Nat → α)
    (layerSizes : List Int) (j : Nat)
    (st : List (Matrix α) × Nat) (hj : j + 1 < layerSizes.length)
    (hp : 1 ≤ layerSizes.getD j 0) (hs : 1 ≤ layerSizes.getD (j + 1) 0)
    (h24 : canMake 24 (layerSizes.getD (j + 1) 0) = true)
    (h8 : canMake 8 (layerSizes.getD j 0) = true)
    (hlen : st.1.length = layerSizes.length - 1) :
    ∃ m k, newLayer canMake sqrt rnd layerSizes j st = .ok (st.1.set j m, k) ∧
      IsMat m (layerSizes.getD (j + 1) 0).toNat (layerSizes.getD j 0).toNat := by
  have h1 : index layerSizes ((j : Int) + 1) = .ok (layerSizes.getD (j + 1) 0) := by
    have := index_getD layerSizes (j + 1) 0 hj
    simpa using this
  have h2 : index layerSizes ((j : Int) + 1 - 1) = .ok (layerSizes.getD j 0) := by
    have := index_getD layerSizes j 0 (by omega)
    simpa using this
  have h3 : index st.1 ((j : Int) + 1 - 1) = .ok (st.1.getD j []) := by
    have := index_getD st.1 j [] (by omega)
    simpa using this
  obtain ⟨R, hR⟩ : ∃ R : Nat, layerSizes.getD (j + 1) 0 = (R : Int) :=
    ⟨(layerSizes.getD (j + 1) 0).toNat, by omega⟩
  obtain ⟨C, hC⟩ : ∃ C : Nat, layerSizes.getD j 0 = (C : Int) :=
    ⟨(layerSizes.getD j 0).toNat, by omega⟩
  rw [hR] at hs h1 h24 ⊢
  rw [hC] at hp h2 h8 ⊢
  have hne : NewEmptyWith canMake (R : Int) (C : Int) =
      .ok (Mat.mk R C (fun _ _ => (0 : α))) :=
    NewEmptyWith_eq canMake R C (by omega) (by omega) h24 h8
  refine ⟨(ApplyS (fun _ n => ((Uniform.Make sqrt (C : Int)).Generate (rnd n), n + 1))
      (Mat.mk R C (fun _ _ => (0 : α))) st.2).1,
    (ApplyS (fun _ n => ((Uniform.Make sqrt (C : Int)).Generate (rnd n), n + 1))
      (Mat.mk R C (fun _ _ => (0 : α))) st.2).2, ?_, ?_⟩
  · simp only [newLayer, h1, h2, h3, hne, bind, Except.bind, pure, Except.pure]
    simp
  · simp only [Int.toNat_ofNat]
    exact ApplyS_isMat _ _ _ R C (isMat_mk _ _ _)

/-- An iteration of the loop of `New` that reads two sizes `≥ 1` for which a `make` of
`NewEmpty` fails panics with the length error of `make`. -/
theorem newLayer_makeslice (canMake : Nat → Int → Bool) (sqrt : α → α) (rnd : Nat → α)
    (layerSizes : List Int) (j : Nat)
    (st : List (Matrix α) × Nat) (hj : j + 1 < layerSizes.length)
    (hp : 1 ≤ layerSizes.getD j 0) (hs : 1 ≤ layerSizes.getD (j + 1) 0)
    (h : canMake 24 (layerSizes.getD (j + 1) 0) = false ∨
      canMake 8 (layerSizes.getD j 0) = false) :
    newLayer canMake sqrt rnd layerSizes j st = .error .makesliceLen := by
  have h1 : index layerSizes ((j : Int) + 1) = .ok (layerSizes.getD (j + 1) 0) := by
    have := index_getD layerSizes (j + 1) 0 hj
    simpa using this
  have h2 : index layerSizes ((j : Int) + 1 - 1) = .ok (layerSizes.getD j 0) := by
    have := index_getD layerSizes j 0 (by omega)
    simpa using this
  have h3 : (NewEmptyWith canMake (layerSizes.getD (j + 1) 0) (layerSizes.getD j 0) :
      Except Err (Matrix α)) = .error .makesliceLen :=
    NewEmptyWith_makeslice canMake _ _ hs hp h
  simp only [newLayer, h1, h2, h3, bind, Except.bind]

theorem getD_set_self {β : Type} (l : List β) (i : Nat) (v d : β) (h : i < l.length) :
    (l.set i v).getD i d = v := by
  rw [List.getD_eq_getElem?_getD, List.getElem?_set_self h]
  rfl

theorem getD_set_ne {β : Type} (l : List β) (i j : Nat) (v d : β) (h : i ≠ j) :
    (l.set i v).getD j d = l.getD j d := by
  rw [List.getD_eq_getElem?_getD, List.getElem?_set_ne h, List.getD_eq_getElem?_getD]

/-- The first `n` iterations of the loop of `New` succeed when the sizes they read are
positive, and they leave rectangular matrices of the declared shapes in `weights`. -/
theorem newLoop_prefix (canMake : Nat → Int → Bool) (sqrt : α → α) (rnd : Nat → α)
    (layerSizes : List Int) (n : Nat)
    (hn : n + 1 ≤ layerSizes.length)
    (hpos : ∀ j, j < n → 1 ≤ layerSizes.getD j 0 ∧ 1 ≤ layerSizes.getD (j + 1) 0)
    (hmk : ∀ j, j < n → canMake 24 (layerSizes.getD (j + 1) 0) = true ∧
      canMake 8 (layerSizes.getD j 0) = true) :
    ∃ st, forLoop n (newLayer canMake sqrt rnd layerSizes)
        ((List.replicate (layerSizes.length - 1) [] : List (Matrix α)), 0) = .ok st ∧
      st.1.length = layerSizes.length - 1 ∧
      ∀ i, i < n → IsMat (st.1.getD i [])
        (layerSizes.getD (i + 1) 0).toNat (layerSizes.getD i 0).toNat := by
  refine forLoop_inv (fun k (st : List (Matrix α) × Nat) =>
      st.1.length = layerSizes.length - 1 ∧
      ∀ i, i < k → IsMat (st.1.getD i [])
        (layerSizes.getD (i + 1) 0).toNat (layerSizes.getD i 0).toNat) n _ _ ?_ ?_
  · exact ⟨by simp, fun i hi => absurd hi (Nat.not_lt_zero i)⟩
  · intro j hj st hP
    obtain ⟨hlen, hmat⟩ := hP
    obtain ⟨m, k, hstep, hm⟩ := newLayer_ok canMake sqrt rnd layerSizes j st (by omega)
      (hpos j hj).1 (hpos j hj).2 (hmk j hj).1 (hmk j hj).2 hlen
    refine ⟨_, hstep, by simpa using hlen, ?_⟩
    intro i hi
    by_cases hij : i = j
    · subst hij
      rw [getD_set_self _ _ _ _ (by omega)]
      exact hm
    · rw [getD_set_ne _ _ _ _ _ (fun h => hij h.symm)]
      exact hmat i (by omega)

theorem getD_map_cast (sizes : List Nat) (i : Nat) :
    (sizes.map Int.ofNat).getD i 0 = ((sizes.getD i 0 : Nat) : Int) := by
  simp only [List.getD_eq_getElem?_getD, List.getElem?_map]
  cases sizes[i]? <;> rfl

end NewLemmas

end Network

/-! ## The training step -/

namespace Mat

section ShapeLemmas

variable {α : Type}

theorem Subtract_isMat [Ring α] (a b : Matrix α) (R C : Nat) (ha : IsMat a R C)
    (hb : IsMat b R C) (hR : 0 < R) (hC : 0 < C) :
    ∃ res, Subtract a b = .ok res ∧ IsMat res R C := by
  have h := Subtract_mk R C (entry a) (entry b) hR hC
  rw [← ha.eq_mk, ← hb.eq_mk] at h
  exact ⟨_, h, isMat_mk _ _ _⟩

theorem MulElem_isMat [Semiring α] (a b : Matrix α) (R C : Nat) (ha : IsMat a R C)
    (hb : IsMat b R C) (hR : 0 < R) (hC : 0 < C) :
    ∃ res, MulElem a b = .ok res ∧ IsMat res R C := by
  have h := MulElem_mk R C (entry a) (entry b) hR hC
  rw [← ha.eq_mk, ← hb.eq_mk] at h
  exact ⟨_, h, isMat_mk _ _ _⟩

theorem Transpose_isMat [Zero α] (m : Matrix α) (R C : Nat) (hm : IsMat m R C) (hR : 0 < R) :
    ∃ res, Transpose m = .ok res ∧ IsMat res C R := by
  have h := Transpose_mk R C (entry m) hR
  rw [← hm.eq_mk] at h
  exact ⟨_, h, isMat_mk _ _ _⟩

theorem Dot_isMat_ex [Semiring α] (a b : Matrix α) (R K C : Nat) (ha : IsMat a R K)
    (hb : IsMat b K C) (hR : 0 < R) (hK : 0 < K) (hC : 0 < C) :
    ∃ res, Dot a b = .ok res ∧ IsMat res R C :=
  ⟨_, Dot_isMat a b R K C ha hb hR hK hC, isMat_mk _ _ _⟩

theorem Scale_isMat [Mul α] (m : Matrix α) (R C : Nat) (k : α) (hm : IsMat m R C) :
    IsMat (Scale m k) R C := by
  have : Scale m k = Apply m (fun num => k * num) := rfl
  rw [this, Apply_eq_map]
  refine ⟨by simpa using hm.1, ?_⟩
  intro row hrow
  obtain ⟨row0, h0, rfl⟩ := List.mem_map.mp hrow
  simpa using hm.2 row0 h0

theorem Subtract_entry [Ring α] (a b res : Matrix α) (R C : Nat) (ha : IsMat a R C)
    (hb : IsMat b R C) (hR : 0 < R) (hC : 0 < C) (h : Subtract a b = .ok res) (r c : Nat)
    (hr : r < R) (hc : c < C) : entry res r c = entry a r c - entry b r c := by
  have h2 := Subtract_mk R C (entry a) (entry b) hR hC
  rw [← ha.eq_mk, ← hb.eq_mk, h] at h2
  cases h2
  exact entry_mk R C _ r c hr hc

theorem Scale_entry [Mul α] [Zero α] (m : Matrix α) (R C : Nat) (k : α) (hm : IsMat m R C)
    (r c : Nat) (hr : r < R) (hc : c < C) : entry (Scale m k) r c = k * entry m r c := by
  have h := Scale_mk R C (entry m) k
  rw [← hm.eq_mk] at h
  rw [h]
  exact entry_mk R C _ r c hr hc

end ShapeLemmas

end Mat

namespace Network

open Mat Activation Training

section TrainLemmas

variable {α : Type} [Field α]

/-- One iteration of the backward loop, given the values of its intermediate steps, when
`lastLayer` is set. -/
theorem backStep_first (net : Network α) (data : Data α) (outs : List (Matrix α)) (j i : Nat)
    (st : BackState α) (o p e m t d x : Matrix α) (hl : st.lastLayer = true)
    (hi : (outs.length : Int) - 1 - (j : Int) = ((i + 1 : Nat) : Int))
    (h1 : index outs ((i + 1 : Nat) : Int) = .ok o)
    (h2 : Subtract o data.TargetMatrix = .ok e)
    (h3 : index outs (i : Int) = .ok p)
    (h4 : MulElem e (Apply o (fun value => value * (1 - value))) = .ok m)
    (h5 : Transpose p = .ok t) (h6 : Dot m t = .ok d)
    (h7 : index st.deltas (i : Int) = .ok x) :
    backStep net data outs j st =
      .ok ⟨false, e, st.deltas.set i (Scale d net.LearningRate)⟩ := by
  have hi2 : ((i + 1 : Nat) : Int) - 1 = (i : Int) := by push_cast; ring
  simp only [backStep, bind, Except.bind, pure, Except.pure, hl, if_true, hi, h1, h2, hi2, h3,
    Copy_eq, h4, h5, h6, h7, Int.toNat_ofNat]

/-- One iteration of the backward loop, given the values of its intermediate steps, when
`lastLayer` is cleared. -/
theorem backStep_later (net : Network α) (data : Data α) (outs : List (Matrix α)) (j i : Nat)
    (st : BackState α) (w wt o p e m t d x : Matrix α) (hl : st.lastLayer = false)
    (hi : (outs.length : Int) - 1 - (j : Int) = ((i + 1 : Nat) : Int))
    (h0 : index net.Weights ((i + 1 : Nat) : Int) = .ok w)
    (h0t : Transpose w = .ok wt)
    (h2 : Dot wt st.lastErrors = .ok e)
    (h1 : index outs ((i + 1 : Nat) : Int) = .ok o)
    (h3 : index outs (i : Int) = .ok p)
    (h4 : MulElem e (Apply o (fun value => value * (1 - value))) = .ok m)
    (h5 : Transpose p = .ok t) (h6 : Dot m t = .ok d)
    (h7 : index st.deltas (i : Int) = .ok x) :
    backStep net data outs j st =
      .ok ⟨false, e, st.deltas.set i (Scale d net.LearningRate)⟩ := by
  have hi2 : ((i + 1 : Nat) : Int) - 1 = (i : Int) := by push_cast; ring
  simp only [backStep, bind, Except.bind, pure, Except.pure, hl, Bool.false_eq_true, if_false,
    hi, h0, h0t, h1, h2, hi2, h3, Copy_eq, h4, h5, h6, h7, Int.toNat_ofNat]

/-- The invariant of the backward loop after `j` iterations, for `n` weight matrices: the
errors `E k` and the deltas of the weight indices `k ≥ n - j` are in place. -/
theorem backLoop_ok (net : Network α) (data : Data α) (outs : List (Matrix α))
    (sizes : List Nat) (hL : 2 ≤ sizes.length)
    (hpos : ∀ i, i < sizes.length → 0 < sizes.getD i 0)
    (hWlen : net.Weights.length = sizes.length - 1)
    (hW : ∀ i, i < sizes.length - 1 →
      IsMat (net.Weights.getD i []) (sizes.getD (i + 1) 0) (sizes.getD i 0))
    (houtlen : outs.length = sizes.length)
    (hout : ∀ i, i < sizes.length → IsMat (outs.getD i []) (sizes.getD i 0) 1)
    (htg : data.Target.length = sizes.getD (sizes.length - 1) 0) :
    ∃ st, ∃ E : Nat → Matrix α,
      forLoop (sizes.length - 1) (backStep net data outs)
        ⟨true, [], List.replicate (sizes.length - 1) []⟩ = .ok st ∧
      st.deltas.length = sizes.length - 1 ∧
      Subtract (outs.getD (sizes.length - 1) []) data.TargetMatrix =
        .ok (E (sizes.length - 2)) ∧
      (∀ k, k + 2 < sizes.length → ∃ t, Transpose (net.Weights.getD (k + 1) []) = .ok t ∧
        Dot t (E (k + 1)) = .ok (E k)) ∧
      ∀ k, k + 1 < sizes.length → ∃ m t d,
        MulElem (E k) (Apply (outs.getD (k + 1) []) (fun value => value * (1 - value))) = .ok m ∧
        Transpose (outs.getD k []) = .ok t ∧ Dot m t = .ok d ∧
        st.deltas.getD k [] = Scale d net.LearningRate ∧
        IsMat d (sizes.getD (k + 1) 0) (sizes.getD k 0) := by
  obtain ⟨n, hn⟩ : ∃ n, sizes.length = n + 2 := ⟨sizes.length - 2, by omega⟩
  have hn1 : sizes.length - 1 = n + 1 := by omega
  have hn2 : sizes.length - 2 = n := by omega
  rw [hn1, hn2]
  obtain ⟨st, hst, hP⟩ := forLoop_inv
    (fun j (st : BackState α) => st.deltas.length = n + 1 ∧ (st.lastLayer = true ↔ j = 0) ∧
      ∃ E : Nat → Matrix α,
        (∀ k, n + 1 - j ≤ k → k < n + 1 → IsMat (E k) (sizes.getD (k + 1) 0) 1) ∧
        (0 < j → st.lastErrors = E (n + 1 - j)) ∧
        (0 < j → Subtract (outs.getD (n + 1) []) data.TargetMatrix = .ok (E n)) ∧
        (∀ k, n + 1 - j ≤ k → k < n → ∃ t, Transpose (net.Weights.getD (k + 1) []) = .ok t ∧
          Dot t (E (k + 1)) = .ok (E k)) ∧
        ∀ k, n + 1 - j ≤ k → k < n + 1 → ∃ m t d,
          MulElem (E k) (Apply (outs.getD (k + 1) []) (fun value => value * (1 - value)))
            = .ok m ∧
          Transpose (outs.getD k []) = .ok t ∧ Dot m t = .ok d ∧
          st.deltas.getD k [] = Scale d net.LearningRate ∧
          IsMat d (sizes.getD (k + 1) 0) (sizes.getD k 0))
    (n + 1) (backStep net data outs) ⟨true, [], List.replicate (n + 1) []⟩
    ⟨by simp, by simp, fun _ => [], fun k h1 h2 => by omega, fun h => by omega,
      fun h => by omega, fun k h1 h2 => by omega, fun k h1 h2 => by omega⟩
    (by
      intro j hj st hP
      obtain ⟨hdl, hll, E, hEa, hEb, hEc, hEd, hEe⟩ := hP
      obtain ⟨i, hi⟩ : ∃ i, i = n - j := ⟨_, rfl⟩
      have hij : i + j = n := by omega
      have hidx : (outs.length : Int) - 1 - (j : Int) = ((i + 1 : Nat) : Int) := by
        rw [houtlen, hn]; push_cast; omega
      have ho : index outs ((i + 1 : Nat) : Int) = .ok (outs.getD (i + 1) []) :=
        index_getD outs (i + 1) [] (by omega)
      have hp : index outs (i : Int) = .ok (outs.getD i []) :=
        index_getD outs i [] (by omega)
      have hx : index st.deltas (i : Int) = .ok (st.deltas.getD i []) :=
        index_getD st.deltas i [] (by omega)
      have hoM := hout (i + 1) (by omega)
      have hpM := hout i (by omega)
      have hs1 := hpos (i + 1) (by omega)
      have hs0 := hpos i (by omega)
      have common : ∀ e : Matrix α, IsMat e (sizes.getD (i + 1) 0) 1 → ∃ m t d,
          MulElem e (Apply (outs.getD (i + 1) []) (fun value => value * (1 - value))) = .ok m ∧
          Transpose (outs.getD i []) = .ok t ∧ Dot m t = .ok d ∧
          IsMat d (sizes.getD (i + 1) 0) (sizes.getD i 0) := by
        intro e he
        obtain ⟨m, hm, hmM⟩ := MulElem_isMat e _ _ 1 he
          (Apply_isMat _ _ 1 (fun value => value * (1 - value)) hoM) hs1 Nat.one_pos
        obtain ⟨t, ht, htM⟩ := Transpose_isMat _ _ 1 hpM hs0
        obtain ⟨d, hd, hdM⟩ := Dot_isMat_ex m t _ 1 _ hmM htM hs1 Nat.one_pos hs0
        exact ⟨m, t, d, hm, ht, hd, hdM⟩
      -- the error of this layer
      have herr : ∃ e, IsMat e (sizes.getD (i + 1) 0) 1 ∧
          (∀ m t d, MulElem e (Apply (outs.getD (i + 1) [])
              (fun value => value * (1 - value))) = .ok m →
            Transpose (outs.getD i []) = .ok t → Dot m t = .ok d →
            backStep net data outs j st =
              .ok ⟨false, e, st.deltas.set i (Scale d net.LearningRate)⟩) ∧
          (j = 0 → Subtract (outs.getD (n + 1) []) data.TargetMatrix = .ok e) ∧
          (0 < j → ∃ t, Transpose (net.Weights.getD (i + 1) []) = .ok t ∧
            Dot t (E (i + 1)) = .ok e) := by
        by_cases hj0 : j = 0
        · have hin : i = n := by omega
          have htM : IsMat data.TargetMatrix (sizes.getD (i + 1) 0) 1 := by
            have := NewColumn_isMat data.Target
            rw [htg, hn] at this
            rw [hin]
            simpa using this
          obtain ⟨e, he, heM⟩ := Subtract_isMat _ _ _ 1 hoM htM hs1 Nat.one_pos
          refine ⟨e, heM, ?_, ?_, fun h => by omega⟩
          · intro m t d hm ht hd
            exact backStep_first net data outs j i st _ _ e m t d _ (hll.mpr hj0) hidx ho he hp
              hm ht hd hx
          · intro _
            rw [← hin]
            exact he
        · have hjpos : 0 < j := Nat.pos_of_ne_zero hj0
          have hlf : st.lastLayer = false := by
            cases h : st.lastLayer with
            | false => rfl
            | true => exact absurd (hll.mp h) hj0
          have hw : index net.Weights ((i + 1 : Nat) : Int) = .ok (net.Weights.getD (i + 1) []) :=
            index_getD net.Weights (i + 1) [] (by omega)
          have hwM := hW (i + 1) (by omega)
          obtain ⟨wt, hwt, hwtM⟩ := Transpose_isMat _ _ _ hwM (hpos (i + 2) (by omega))
          have hle : st.lastErrors = E (i + 1) := by
            rw [hEb hjpos]
            congr 1
            omega
          have hleM : IsMat (E (i + 1)) (sizes.getD (i + 2) 0) 1 :=
            hEa (i + 1) (by omega) (by omega)
          obtain ⟨e, he, heM⟩ := Dot_isMat_ex wt (E (i + 1)) _ _ 1 hwtM hleM hs1
            (hpos (i + 2) (by omega)) Nat.one_pos
          refine ⟨e, heM, ?_, fun h => absurd h hj0, fun _ => ⟨wt, hwt, he⟩⟩
          intro m t d hm ht hd
          exact backStep_later net data outs j i st _ wt _ _ e m t d _ hlf hidx hw hwt
            (by rw [hle]; exact he) ho hp hm ht hd hx
      obtain ⟨e, heM, hstep, hfirst, hlater⟩ := herr
      obtain ⟨m, t, d, hm, ht, hd, hdM⟩ := common e heM
      refine ⟨_, hstep m t d hm ht hd, by simpa using hdl, by simp, Function.update E i e,
        ?_, ?_, ?_, ?_, ?_⟩
      · intro k hk1 hk2
        by_cases hki : k = i
        · subst hki
          simpa using heM
        · rw [Function.update_noteq hki]
          exact hEa k (by omega) hk2
      · intro _
        have : n + 1 - (j + 1) = i := by omega
        rw [this]
        simp
      · intro _
        by_cases hj0 : j = 0
        · have hin : n = i := by omega
          rw [hin]
          simpa [← hin] using hfirst hj0
        · have hne : n ≠ i := by omega
          rw [Function.update_noteq hne]
          exact hEc (Nat.pos_of_ne_zero hj0)
      · intro k hk1 hk2
        by_cases hki : k = i
        · subst hki
          have hne : k + 1 ≠ k := by omega
          obtain ⟨wt, hwt, he⟩ := hlater (by omega)
          refine ⟨wt, hwt, ?_⟩
          rw [Function.update_noteq hne, Function.update_same]
          exact he
        · have hne : k + 1 ≠ i := by omega
          rw [Function.update_noteq hne, Function.update_noteq hki]
          exact hEd k (by omega) hk2
      · intro k hk1 hk2
        by_cases hki : k = i
        · subst hki
          refine ⟨m, t, d, ?_, ht, hd, ?_, hdM⟩
          · rw [Function.update_same]
            exact hm
          · exact getD_set_self _ _ _ _ (by omega)
        · obtain ⟨m2, t2, d2, h1, h2, h3, h4, h5⟩ := hEe k (by omega) hk2
          refine ⟨m2, t2, d2, ?_, h2, h3, ?_, h5⟩
          · rw [Function.update_noteq hki]
            exact h1
          · rw [getD_set_ne _ _ _ _ _ (fun h => hki h.symm)]
            exact h4)
  obtain ⟨hdl, _, E, _, _, hEc, hEd, hEe⟩ := hP
  refine ⟨st, E, hst, hdl, hEc (by omega), ?_, ?_⟩
  · intro k hk
    exact hEd k (by omega) (by omega)
  · intro k hk
    exact hEe k (by omega) (by omega)

/-- The update loop of `Train`, started at index `i` with the deltas `rest` still to
apply: when every subtraction succeeds, the loop ends normally, the weights below `i`
are kept, every weight from `i` on is replaced by its difference with its delta, and the
other fields are kept. -/
theorem applyDeltas_ok (net : Network α) (i : Nat) (rest : List (Matrix α))
    (hlen : i + rest.length = net.Weights.length)
    (hsub : ∀ k, k < rest.length →
      ∃ w, Subtract (net.Weights.getD (i + k) []) (rest.getD k []) = .ok w) :
    ∃ net2, applyDeltas net i rest = (net2, .ok ()) ∧
      net2.InputSize = net.InputSize ∧ net2.Layers = net.Layers ∧
      net2.LearningRate = net.LearningRate ∧
      net2.Weights.length = net.Weights.length ∧
      (∀ k, k < i → net2.Weights.getD k [] = net.Weights.getD k []) ∧
      ∀ k, k < rest.length →
        Subtract (net.Weights.getD (i + k) []) (rest.getD k []) =
          .ok (net2.Weights.getD (i + k) []) := by
  induction rest generalizing net i with
  | nil =>
    exact ⟨net, rfl, rfl, rfl, rfl, rfl, fun _ _ => rfl,
      fun k hk => absurd hk (Nat.not_lt_zero k)⟩
  | cons delta rest ih =>
    have hi : i < net.Weights.length := by simp at hlen; omega
    obtain ⟨w, hw⟩ := hsub 0 (by simp)
    simp only [Nat.add_zero, List.getD_cons_zero] at hw
    have hidx := index_getD net.Weights i [] hi
    obtain ⟨net2, h1, h2, h3, h4, h5, h6, h7⟩ := ih
      { net with Weights := net.Weights.set i w } (i + 1)
      (by simp at hlen ⊢; omega)
      (by
        intro k hk
        obtain ⟨w2, hw2⟩ := hsub (k + 1) (by simpa using hk)
        refine ⟨w2, ?_⟩
        have hne : i ≠ i + 1 + k := by omega
        simp only [getD_set_ne _ _ _ _ _ hne]
        have : i + (k + 1) = i + 1 + k := by omega
        rw [← this]
        simpa using hw2)
    refine ⟨net2, ?_, h2, h3, h4, by simpa using h5, ?_, ?_⟩
    · simp only [applyDeltas, hidx, hw]
      exact h1
    · intro k hk
      rw [h6 k (by omega)]
      exact getD_set_ne _ _ _ _ _ (by omega)
    · intro k hk
      cases k with
      | zero =>
        have := h6 i (by omega)
        simp only [getD_set_self _ _ _ _ hi] at this
        simp only [Nat.add_zero, List.getD_cons_zero, this]
        exact hw
      | succ k =>
        have := h7 k (by simpa using hk)
        have hne : i ≠ i + 1 + k := by omega
        simp only [getD_set_ne _ _ _ _ _ hne] at this
        have heq : i + (k + 1) = i + 1 + k := by omega
        rw [heq]
        simpa using this

/-- The training step under the weight-shape invariant: forward activations `acts`,
errors `errs`, and the network `net2` after the call. -/
theorem Train_spec (exp : α → α) (net : Network α) (sizes : List Nat) (data : Data α)
    (hinv : ShapeInv net sizes) (hin : data.Input.length = sizes.getD 0 0)
    (htg : data.Target.length = sizes.getD (sizes.length - 1) 0) :
    ∃ acts, ∃ errs : Nat → Matrix α, ∃ net2,
      layerOutputs exp net data.Input = .ok acts ∧ acts.length = sizes.length ∧
      Subtract (acts.getD (sizes.length - 1) []) data.TargetMatrix =
        .ok (errs (sizes.length - 2)) ∧
      (∀ i, i + 2 < sizes.length → ∃ t, Transpose (net.Weights.getD (i + 1) []) = .ok t ∧
        Dot t (errs (i + 1)) = .ok (errs i)) ∧
      Train exp net data = (net2, .ok ()) ∧
      net2.InputSize = net.InputSize ∧ net2.Layers = net.Layers ∧
      net2.LearningRate = net.LearningRate ∧
      net2.Weights.length = sizes.length - 1 ∧
      ∀ i, i + 1 < sizes.length → ∃ m t d,
        MulElem (errs i) (Apply (acts.getD (i + 1) []) (fun a => a * (1 - a))) = .ok m ∧
        Transpose (acts.getD i []) = .ok t ∧ Dot m t = .ok d ∧
        Subtract (net.Weights.getD i []) (Scale d net.LearningRate) =
          .ok (net2.Weights.getD i []) ∧
        IsMat d (sizes.getD (i + 1) 0) (sizes.getD i 0) ∧
        IsMat (net2.Weights.getD i []) (sizes.getD (i + 1) 0) (sizes.getD i 0) := by
  obtain ⟨acts, hacts, _, hlen, hshape⟩ := hinv.layerOutputs_ok exp net sizes data.Input hin
  obtain ⟨hL, hpos, hI, _, hWlen, hW⟩ := hinv
  obtain ⟨st, E, hloop, hdl, hE0, hEd, hEe⟩ := backLoop_ok net data acts sizes (by omega) hpos
    hWlen hW hlen hshape htg
  have hnneg : ¬ ((sizes.length : Int) - 1 < 0) := by omega
  have hdeltas : trainDeltas exp net data = .ok st.deltas := by
    simp only [trainDeltas, hacts, bind, Except.bind, pure, Except.pure, hlen, hloop]
    simp only [hnneg, if_false]
  have hsubs : ∀ k, k < st.deltas.length →
      ∃ w, Subtract (net.Weights.getD k []) (st.deltas.getD k []) = .ok w ∧
        IsMat w (sizes.getD (k + 1) 0) (sizes.getD k 0) := by
    intro k hk
    obtain ⟨m, t, d, _, _, _, hd, hdM⟩ := hEe k (by omega)
    rw [hd]
    exact Subtract_isMat _ _ _ _ (hW k (by omega)) (Scale_isMat d _ _ _ hdM)
      (hpos (k + 1) (by omega)) (hpos k (by omega))
  obtain ⟨net2, h1, h2, h3, h4, h5, _, h7⟩ := applyDeltas_ok net 0 st.deltas (by omega)
    (fun k hk => by
      obtain ⟨w, hw, _⟩ := hsubs k hk
      exact ⟨w, by simpa using hw⟩)
  refine ⟨acts, E, net2, hacts, hlen, hE0, hEd, ?_, h2, h3, h4, by omega, ?_⟩
  · simp only [Train, hdeltas]
    exact h1
  · intro i hi
    obtain ⟨m, t, d, hm, ht, hd, hdel, hdM⟩ := hEe i hi
    have h := h7 i (by omega)
    simp only [Nat.zero_add] at h
    obtain ⟨w, hw, hwM⟩ := hsubs i (by omega)
    rw [hw] at h
    cases h
    rw [hdel] at hw
    exact ⟨m, t, d, hm, ht, hd, hw, hdM, hwM⟩

/-- The function `New`, with its sequence of checks written out. -/
theorem New_eq (canMake : Nat → Int → Bool) (sqrt : α → α) (rnd : Nat → α)
    (learningRate : α) (layerSizes : List Int) :
    New canMake sqrt rnd learningRate layerSizes =
      if layerSizes.length < 3 then .error .errLayers
      else match index layerSizes 0 with
        | .error e => .error e
        | .ok inputSize =>
          if canMake 24 ((layerSizes.length : Int) - 1) = false then .error .makesliceLen
          else match forLoop (layerSizes.length - 1) (newLayer canMake sqrt rnd layerSizes)
              ((List.replicate (layerSizes.length - 1) [] : List (Matrix α)), 0) with
            | .error e => .error e
            | .ok st => .ok { InputSize := inputSize, Layers := layerSizes.length,
                              Weights := st.1, LearningRate := learningRate } := by
  unfold New
  by_cases h1 : layerSizes.length < 3
  · simp only [h1, if_true]
    rfl
  · simp only [h1, if_false]
    cases h0 : index layerSizes 0 with
    | error e => rfl
    | ok inputSize =>
      by_cases h2 : canMake 24 ((layerSizes.length : Int) - 1) = false
      · simp only [h2, if_true, bind, Except.bind, pure, Except.pure]
      · simp only [h2, if_false, bind, Except.bind, pure, Except.pure]
        cases forLoop (layerSizes.length - 1) (newLayer canMake sqrt rnd layerSizes)
          ((List.replicate (layerSizes.length - 1) [] : List (Matrix α)), 0) <;> rfl

theorem New_ok (canMake : Nat → Int → Bool) (sqrt : α → α) (rnd : Nat → α)
    (learningRate : α) (sizes : List Nat)
    (hL : 3 ≤ sizes.length) (hpos : ∀ i, i < sizes.length → 0 < sizes.getD i 0)
    (hw : canMake 24 ((sizes.length : Int) - 1) = true)
    (hmk : ∀ i, i + 1 < sizes.length →
      canMake 24 ((sizes.getD (i + 1) 0 : Nat) : Int) = true ∧
      canMake 8 ((sizes.getD i 0 : Nat) : Int) = true) :
    ∃ net, New canMake sqrt rnd learningRate (sizes.map Int.ofNat) = .ok net ∧
      ShapeInv net sizes ∧ net.LearningRate = learningRate := by
  have hlen : (sizes.map Int.ofNat).length = sizes.length := List.length_map _ _
  obtain ⟨st, hst, hstlen, hmat⟩ := newLoop_prefix canMake sqrt rnd (sizes.map Int.ofNat)
    (sizes.length - 1) (by rw [hlen]; omega) (by
      intro j hj
      rw [getD_map_cast, getD_map_cast]
      have h1 := hpos j (by omega)
      have h2 := hpos (j + 1) (by omega)
      omega) (by
      intro j hj
      rw [getD_map_cast, getD_map_cast]
      exact hmk j (by omega))
  have h0 : index (sizes.map Int.ofNat) 0 = .ok ((sizes.getD 0 0 : Nat) : Int) := by
    have := index_getD (sizes.map Int.ofNat) 0 0 (by rw [hlen]; omega)
    rw [getD_map_cast] at this
    simpa using this
  have hnl : ¬ sizes.length < 3 := by omega
  rw [hlen] at hst hstlen
  refine ⟨⟨((sizes.getD 0 0 : Nat) : Int), ((sizes.length : Nat) : Int), st.1, learningRate⟩,
    ?_, ⟨hL, hpos, rfl, rfl, hstlen, ?_⟩, rfl⟩
  · simp only [New, h0, hlen, hst, hw, bind, Except.bind, pure, Except.pure]
    simp only [hnl, if_false, Bool.true_eq_false]
  · intro i hi
    have := hmat i hi
    rw [getD_map_cast, getD_map_cast] at this
    simpa using this

end TrainLemmas

end Network

/-! ## Which arrays the forward pass writes -/

namespace Ref

section FrameLemmas

variable {α β γ σ : Type}

theorem keeps_pure (h0 h : Heap α) (Q : β → Prop) (b : β) (hh : h0 <+: h) (hq : Q b) :
    Keeps h0 Q (pure b : HeapM α β) h :=
  ⟨hh, fun b2 hb => by cases hb; exact hq⟩

theorem keeps_raise (h0 h : Heap α) (Q : β → Prop) (e : Err) (hh : h0 <+: h) :
    Keeps h0 Q (raise e : HeapM α β) h :=
  ⟨hh, fun b hb => by cases hb⟩

theorem keeps_lift (h0 h : Heap α) (Q : β → Prop) (x : Except Err β) (hh : h0 <+: h)
    (hq : ∀ b, x = .ok b → Q b) : Keeps h0 Q (lift x : HeapM α β) h :=
  ⟨hh, hq⟩

theorem keeps_mono (h0 h : Heap α) (Q Q2 : β → Prop) (f : HeapM α β) (hk : Keeps h0 Q f h)
    (hq : ∀ b, Q b → Q2 b) : Keeps h0 Q2 f h :=
  ⟨hk.1, fun b hb => hq b (hk.2 b hb)⟩

theorem keeps_bind (h0 h : Heap α) (Q1 : β → Prop) (Q2 : γ → Prop) (x : HeapM α β)
    (f : β → HeapM α γ) (hx : Keeps h0 Q1 x h)
    (hf : ∀ b h2, h0 <+: h2 → Q1 b → Keeps h0 Q2 (f b) h2) :
    Keeps h0 Q2 (x >>= f) h := by
  obtain ⟨hp, hq⟩ := hx
  have key : (x >>= f) h = (match x h with
    | (.ok b, h2) => f b h2
    | (.error e, h2) => (.error e, h2)) := rfl
  unfold Keeps
  rw [key]
  rcases hxh : x h with ⟨r, h2⟩
  rw [hxh] at hp hq
  cases r with
  | error e => exact ⟨hp, fun b hb => by cases hb⟩
  | ok b => exact hf b h2 hp (hq b rfl)

theorem keeps_make (h0 h : Heap α) (row : List α) (hh : h0 <+: h) :
    Keeps h0 (fun a => h0.length ≤ a) (make row) h :=
  ⟨hh.trans (List.prefix_append h [row]), fun b hb => by
    cases hb
    exact hh.length_le⟩

theorem keeps_load (h0 h : Heap α) (a : Nat) (hh : h0 <+: h) :
    Keeps h0 (fun _ => True) (load a) h :=
  ⟨hh, fun _ _ => trivial⟩

theorem prefix_set (h0 h : Heap α) (a : Nat) (row : List α) (hh : h0 <+: h)
    (ha : h0.length ≤ a) : h0 <+: h.set a row := by
  obtain ⟨ext, rfl⟩ := hh
  rw [List.set_append_right _ _ ha]
  exact List.prefix_append _ _

theorem keeps_store (h0 h : Heap α) (a : Nat) (row : List α) (hh : h0 <+: h)
    (ha : h0.length ≤ a) : Keeps h0 (fun _ => True) (store a row) h :=
  ⟨prefix_set h0 h a row hh ha, fun _ _ => trivial⟩

theorem keeps_foldlM {ι : Type} (h0 : Heap α) (I : σ → Prop) (l : List ι)
    (body : σ → ι → HeapM α σ)
    (hbody : ∀ s i h, I s → h0 <+: h → Keeps h0 I (body s i) h)
    (s : σ) (h : Heap α) (hs : I s) (hh : h0 <+: h) :
    Keeps h0 I (l.foldlM body s) h := by
  induction l generalizing s h with
  | nil => exact keeps_pure h0 h I s hh hs
  | cons i l ih =>
    rw [List.foldlM_cons]
    exact keeps_bind h0 h I I _ _ (hbody s i h hs hh) (fun s2 h2 hh2 hs2 => ih s2 h2 hs2 hh2)

theorem keeps_forLoop (h0 : Heap α) (I : σ → Prop) (n : Nat) (body : Nat → σ → HeapM α σ)
    (hbody : ∀ i s h, I s → h0 <+: h → Keeps h0 I (body i s) h)
    (s : σ) (h : Heap α) (hs : I s) (hh : h0 <+: h) :
    Keeps h0 I (forLoop n body s) h :=
  keeps_foldlM h0 I (List.range n) (fun st i => body i st)
    (fun s i h hs hh => hbody i s h hs hh) s h hs hh

theorem index_mem {ι : Type} (l : List ι) (i : Int) (v : ι) (h : index l i = .ok v) :
    v ∈ l := by
  unfold index at h
  split at h
  · cases h
  · split at h
    · rename_i w hw
      cases h
      exact List.getElem?_mem hw
    · cases h

/-- The addresses of `m` are not addresses of the store `h0`. -/
theorem fresh_append (h0 : Heap α) (m : Matrix) (a : Nat) (hm : ∀ b ∈ m, h0.length ≤ b)
    (ha : h0.length ≤ a) : ∀ b ∈ m ++ [a], h0.length ≤ b := by
  intro b hb
  rcases List.mem_append.mp hb with hb | hb
  · exact hm b hb
  · rw [List.mem_singleton.mp hb]
    exact ha

theorem keeps_zeroes [Zero α] (h0 h : Heap α) (rows columns : Int) (hh : h0 <+: h) :
    Keeps h0 (fun m => ∀ a ∈ m, h0.length ≤ a) (zeroes rows columns) h := by
  unfold zeroes
  split
  · exact keeps_raise h0 h _ _ hh
  · refine keeps_forLoop h0 (fun m => ∀ a ∈ m, h0.length ≤ a) _ _ ?_ [] h (by simp) hh
    intro i data h2 hI hh2
    split
    · exact keeps_raise h0 h2 _ _ hh2
    · exact keeps_bind h0 h2 (fun a => h0.length ≤ a) _ _ _ (keeps_make h0 h2 _ hh2)
        (fun a h3 hh3 ha => keeps_pure h0 h3 _ _ hh3 (fresh_append h0 data a hI ha))

theorem keeps_NewEmpty [Zero α] (h0 h : Heap α) (rows columns : Int) (hh : h0 <+: h) :
    Keeps h0 (fun m => ∀ a ∈ m, h0.length ≤ a) (NewEmpty rows columns) h := by
  unfold NewEmpty
  split
  · exact keeps_raise h0 h _ _ hh
  · exact keeps_zeroes h0 h rows columns hh

theorem keeps_NewColumn (h0 h : Heap α) (values : List α) (hh : h0 <+: h) :
    Keeps h0 (fun m => ∀ a ∈ m, h0.length ≤ a) (NewColumn values) h := by
  unfold NewColumn
  refine keeps_forLoop h0 (fun m => ∀ a ∈ m, h0.length ≤ a) _ _ ?_ [] h (by simp) hh
  intro i data h2 hI hh2
  refine keeps_bind h0 h2 (fun _ => True) _ _ _ (keeps_lift h0 h2 _ _ hh2 (fun _ _ => trivial)) ?_
  intro v h3 hh3 _
  exact keeps_bind h0 h3 (fun a => h0.length ≤ a) _ _ _ (keeps_make h0 h3 _ hh3)
    (fun a h4 hh4 ha => keeps_pure h0 h4 _ _ hh4 (fresh_append h0 data a hI ha))

theorem keeps_Columns (h0 h : Heap α) (m : Matrix) (hh : h0 <+: h) :
    Keeps h0 (fun _ => True) (Columns m : HeapM α Int) h := by
  unfold Columns
  refine keeps_bind h0 h (fun _ => True) _ _ _ (keeps_lift h0 h _ _ hh (fun _ _ => trivial)) ?_
  intro a h2 hh2 _
  exact keeps_bind h0 h2 (fun _ => True) _ _ _ (keeps_load h0 h2 a hh2)
    (fun row h3 hh3 _ => keeps_pure h0 h3 _ _ hh3 trivial)

theorem keeps_outOfBonds (h0 h : Heap α) (m : Matrix) (x y : Int) (hh : h0 <+: h) :
    Keeps h0 (fun _ => True) (outOfBonds m x y : HeapM α Bool) h := by
  unfold outOfBonds
  refine keeps_bind h0 h (fun _ => True) _ _ _ (keeps_Columns h0 h m hh) ?_
  intro c h2 hh2 _
  split
  · exact keeps_pure h0 h2 _ _ hh2 trivial
  · exact keeps_pure h0 h2 _ _ hh2 trivial

theorem keeps_Get (h0 h : Heap α) (m : Matrix) (x y : Int) (hh : h0 <+: h) :
    Keeps h0 (fun _ => True) (Get m x y : HeapM α α) h := by
  unfold Get
  refine keeps_bind h0 h (fun _ => True) _ _ _ (keeps_outOfBonds h0 h m x y hh) ?_
  intro c h2 hh2 _
  split
  · exact keeps_raise h0 h2 _ _ hh2
  · refine keeps_bind h0 h2 (fun _ => True) _ _ _
      (keeps_lift h0 h2 _ _ hh2 (fun _ _ => trivial)) ?_
    intro a h3 hh3 _
    refine keeps_bind h0 h3 (fun _ => True) _ _ _ (keeps_load h0 h3 a hh3) ?_
    intro row h4 hh4 _
    exact keeps_lift h0 h4 _ _ hh4 (fun _ _ => trivial)

/-- `Set` on a matrix whose rows were allocated after `h0` keeps `h0`. -/
theorem keeps_Set (h0 h : Heap α) (m : Matrix) (x y : Int) (value : α) (hh : h0 <+: h)
    (hm : ∀ a ∈ m, h0.length ≤ a) :
    Keeps h0 (fun _ => True) (Set m x y value) h := by
  unfold Set
  refine keeps_bind h0 h (fun _ => True) _ _ _ (keeps_outOfBonds h0 h m x y hh) ?_
  intro c h2 hh2 _
  split
  · exact keeps_raise h0 h2 _ _ hh2
  · refine keeps_bind h0 h2 (fun a => a ∈ m) _ _ _
      (keeps_lift h0 h2 _ _ hh2 (fun a ha => index_mem m y a ha)) ?_
    intro a h3 hh3 ha
    refine keeps_bind h0 h3 (fun _ => True) _ _ _ (keeps_load h0 h3 a hh3) ?_
    intro row h4 hh4 _
    refine keeps_bind h0 h4 (fun _ => True) _ _ _
      (keeps_lift h0 h4 _ _ hh4 (fun _ _ => trivial)) ?_
    intro _ h5 hh5 _
    exact keeps_store h0 h5 a _ hh5 (hm a ha)

/-- `Apply` on a matrix whose rows were allocated after `h0` keeps `h0`. -/
theorem keeps_Apply (h0 h : Heap α) (m : Matrix) (mapping : α → α) (hh : h0 <+: h)
    (hm : ∀ a ∈ m, h0.length ≤ a) :
    Keeps h0 (fun _ => True) (Apply m mapping) h := by
  unfold Apply
  refine keeps_forLoop h0 (fun _ => True) _ _ ?_ () h trivial hh
  intro r _ h2 _ hh2
  refine keeps_bind h0 h2 (fun a => a ∈ m) _ _ _
    (keeps_lift h0 h2 _ _ hh2 (fun a ha => index_mem m _ a ha)) ?_
  intro a h3 hh3 ha
  refine keeps_bind h0 h3 (fun _ => True) _ _ _ (keeps_load h0 h3 a hh3) ?_
  intro row h4 hh4 _
  refine keeps_forLoop h0 (fun _ => True) _ _ ?_ () h4 trivial hh4
  intro i _ h5 _ hh5
  refine keeps_bind h0 h5 (fun _ => True) _ _ _ (keeps_load h0 h5 a hh5) ?_
  intro cur h6 hh6 _
  refine keeps_bind h0 h6 (fun _ => True) _ _ _
    (keeps_lift h0 h6 _ _ hh6 (fun _ _ => trivial)) ?_
  intro element h7 hh7 _
  exact keeps_store h0 h7 a _ hh7 (hm a ha)

/-- `Dot` keeps every array of the store it starts from, and the rows of its result are
new arrays. -/
theorem keeps_Dot [Semiring α] (h0 h : Heap α) (a b : Matrix) (hh : h0 <+: h) :
    Keeps h0 (fun m => ∀ r ∈ m, h0.length ≤ r) (Dot a b : HeapM α Matrix) h := by
  unfold Dot
  refine keeps_bind h0 h (fun _ => True) _ _ _ (keeps_Columns h0 h a hh) ?_
  intro ca h2 hh2 _
  split
  · exact keeps_raise h0 h2 _ _ hh2
  · refine keeps_bind h0 h2 (fun _ => True) _ _ _ (keeps_Columns h0 h2 b hh2) ?_
    intro cb h3 hh3 _
    refine keeps_bind h0 h3 (fun m => ∀ r ∈ m, h0.length ≤ r) _ _ _
      (keeps_NewEmpty h0 h3 _ _ hh3) ?_
    intro result h4 hh4 hres
    refine keeps_bind h0 h4 (fun _ => True) _ _ _ ?_
      (fun _ h5 hh5 _ => keeps_pure h0 h5 _ _ hh5 hres)
    refine keeps_forLoop h0 (fun _ => True) _ _ ?_ () h4 trivial hh4
    intro r _ h5 _ hh5
    refine keeps_bind h0 h5 (fun _ => True) _ _ _ (keeps_Columns h0 h5 b hh5) ?_
    intro cb2 h6 hh6 _
    refine keeps_forLoop h0 (fun _ => True) _ _ ?_ () h6 trivial hh6
    intro c _ h7 _ hh7
    refine keeps_bind h0 h7 (fun _ => True) _ _ _ (keeps_Columns h0 h7 a hh7) ?_
    intro ca2 h8 hh8 _
    refine keeps_bind h0 h8 (fun _ => True) _ _ _ ?_
      (fun sum h9 hh9 _ => keeps_Set h0 h9 result _ _ sum hh9 hres)
    refine keeps_forLoop h0 (fun _ => True) _ _ ?_ (0 : α) h8 trivial hh8
    intro k sum h9 _ hh9
    refine keeps_bind h0 h9 (fun _ => True) _ _ _ (keeps_Get h0 h9 a _ _ hh9) ?_
    intro u h10 hh10 _
    refine keeps_bind h0 h10 (fun _ => True) _ _ _ (keeps_Get h0 h10 b _ _ hh10) ?_
    intro v h11 hh11 _
    exact keeps_pure h0 h11 _ _ hh11 trivial

theorem keeps_layerOutputs [Field α] (exp : α → α) (h0 h : Heap α) (net : Network α)
    (input : List α) (hh : h0 <+: h) :
    Keeps h0 (fun _ => True) (layerOutputs exp net input) h := by
  unfold layerOutputs
  split
  · exact keeps_raise h0 h _ _ hh
  · refine keeps_bind h0 h (fun _ => True) _ _ _
      (keeps_mono h0 h _ _ _ (keeps_NewColumn h0 h input hh) (fun _ _ => trivial)) ?_
    intro layerOutput h2 hh2 _
    refine keeps_bind h0 h2 (fun _ => True) _ _ _ ?_
      (fun st h3 hh3 _ => keeps_pure h0 h3 _ _ hh3 trivial)
    refine keeps_foldlM h0 (fun _ => True) _ _ ?_ _ h2 trivial hh2
    intro st weights h3 _ hh3
    unfold layerStep
    refine keeps_bind h0 h3 (fun m => ∀ r ∈ m, h0.length ≤ r) _ _ _
      (keeps_Dot h0 h3 weights st.1 hh3) ?_
    intro z h4 hh4 hz
    refine keeps_bind h0 h4 (fun _ => True) _ _ _ (keeps_Apply h0 h4 z _ hh4 hz) ?_
    intro _ h5 hh5 _
    exact keeps_pure h0 h5 _ _ hh5 trivial

theorem keeps_Predict [Field α] (exp : α → α) (h0 h : Heap α) (net : Network α)
    (input : List α) (hh : h0 <+: h) :
    Keeps h0 (fun _ => True) (Predict exp net input) h := by
  unfold Predict
  refine keeps_bind h0 h (fun _ => True) _ _ _ (keeps_layerOutputs exp h0 h net input hh) ?_
  intro outputs h2 hh2 _
  exact keeps_lift h0 h2 _ _ hh2 (fun _ _ => trivial)

theorem prefix_getD (h0 h : Heap α) (hh : h0 <+: h) (a : Nat) (ha : a < h0.length) :
    h.getD a [] = h0.getD a [] := by
  obtain ⟨ext, rfl⟩ := hh
  simp [List.getD_eq_getElem?_getD, List.getElem?_append_left ha]

theorem prefix_deref (h0 h : Heap α) (hh : h0 <+: h) (m : Matrix)
    (hm : ∀ a ∈ m, a < h0.length) : deref h m = deref h0 m := by
  unfold deref
  apply List.map_congr_left
  intro a ha
  exact prefix_getD h0 h hh a (hm a ha)

end FrameLemmas

/-! ### The reference-level `Dot` computes the value-level `Dot` -/

section RefineLemmas

variable {α β σ : Type}

theorem bind_run (x : HeapM α β) (f : β → HeapM α σ) (h : Heap α) :
    (x >>= f) h = (match x h with
      | (.ok b, h2) => f b h2
      | (.error e, h2) => (.error e, h2)) := rfl

theorem bind_run_ok (x : HeapM α β) (f : β → HeapM α σ) (h h2 : Heap α) (b : β)
    (hx : x h = (.ok b, h2)) : (x >>= f) h = f b h2 := by
  rw [bind_run, hx]

theorem pure_run (b : β) (h : Heap α) : (pure b : HeapM α β) h = (.ok b, h) := rfl

theorem foldlM_snoc {ι : Type} (l : List ι) (i : ι) (body : σ → ι → HeapM α σ) (s : σ)
    (h : Heap α) :
    (l ++ [i]).foldlM body s h = (match l.foldlM body s h with
      | (.ok s2, h2) => body s2 i h2
      | (.error e, h2) => (.error e, h2)) := by
  induction l generalizing s h with
  | nil =>
    simp only [List.nil_append, List.foldlM_cons, List.foldlM_nil, bind_run, pure_run]
    rcases body s i h with ⟨r, h2⟩
    cases r <;> rfl
  | cons a l ih =>
    simp only [List.cons_append, List.foldlM_cons, bind_run]
    rcases body s a h with ⟨r, h2⟩
    cases r with
    | error e => rfl
    | ok s2 => exact ih s2 h2

theorem forLoop_run_zero (body : Nat → σ → HeapM α σ) (s : σ) (h : Heap α) :
    forLoop 0 body s h = (.ok s, h) := rfl

theorem forLoop_run_succ (n : Nat) (body : Nat → σ → HeapM α σ) (s : σ) (h : Heap α) :
    forLoop (n + 1) body s h = (match forLoop n body s h with
      | (.ok s2, h2) => body n s2 h2
      | (.error e, h2) => (.error e, h2)) := by
  unfold forLoop
  rw [List.range_succ]
  exact foldlM_snoc (List.range n) n (fun st i => body i st) s h

/-- Invariant rule for the loop on the store. -/
theorem forLoop_run_inv (P : Nat → σ → Heap α → Prop) (n : Nat) (body : Nat → σ → HeapM α σ)
    (s : σ) (h : Heap α) (h0 : P 0 s h)
    (hstep : ∀ i, i < n → ∀ st hp, P i st hp →
      ∃ st2 hp2, body i st hp = (.ok st2, hp2) ∧ P (i + 1) st2 hp2) :
    ∃ st hp, forLoop n body s h = (.ok st, hp) ∧ P n st hp := by
  induction n with
  | zero => exact ⟨s, h, rfl, h0⟩
  | succ n ih =>
    obtain ⟨st, hp, hst, hP⟩ := ih (fun i hi => hstep i (Nat.lt_succ_of_lt hi))
    obtain ⟨st2, hp2, hb, hP2⟩ := hstep n (Nat.lt_succ_self n) st hp hP
    refine ⟨st2, hp2, ?_, hP2⟩
    rw [forLoop_run_succ, hst]
    exact hb

theorem Columns_run (m : Matrix) (h : Heap α) :
    (Columns m : HeapM α Int) h = (Mat.Columns (deref h m), h) := by
  have h0 : ∀ l : List Nat, index l 0 = index l ((0 : Nat) : Int) := fun _ => rfl
  cases m with
  | nil => rfl
  | cons a m =>
    have hi : index (a :: m) 0 = .ok a := by
      rw [h0]
      exact index_natCast _ 0 a (by simp)
    unfold Columns
    rw [bind_run, hi]
    rfl

theorem outOfBonds_run (m : Matrix) (x y : Int) (h : Heap α) :
    (outOfBonds m x y : HeapM α Bool) h = (Mat.outOfBonds (deref h m) x y, h) := by
  have hr : Rows m = Mat.Rows (deref h m) := by simp [Rows, Mat.Rows, deref]
  unfold outOfBonds Mat.outOfBonds
  rw [bind_run, Columns_run]
  cases hc : Mat.Columns (deref h m) with
  | error e => rfl
  | ok c =>
    simp only [bind, Except.bind, hr]
    split <;> rfl

theorem index_deref (m : Matrix) (y : Int) (h : Heap α) :
    index (deref h m) y = (match index m y with
      | .ok a => .ok (h.getD a [])
      | .error e => .error e) := by
  unfold index deref
  split
  · rfl
  · rw [List.getElem?_map]
    cases m[y.toNat]? <;> rfl

theorem Get_run (m : Matrix) (x y : Int) (h : Heap α) :
    (Get m x y : HeapM α α) h = (Mat.Get (deref h m) x y, h) := by
  unfold Get Mat.Get
  rw [bind_run, outOfBonds_run]
  cases hc : Mat.outOfBonds (deref h m) x y with
  | error e => rfl
  | ok c =>
    cases c with
    | true => rfl
    | false =>
      simp only [bind, Except.bind, Bool.false_eq_true, if_false, pure, Except.pure]
      rw [index_deref]
      cases hi : index m y with
      | error e => simp [lift, hi]
      | ok a => simp [lift, hi, load]

theorem tab_succ (n : Nat) (f : Nat → β) : tab (n + 1) f = tab n f ++ [f n] := by
  simp [tab, List.range_succ]

theorem mk_set (R C : Nat) (f : Nat → Nat → α) (r c : Nat) (v : α) :
    (Mat.mk R C f).set r ((tab C (f r)).set c v) =
      Mat.mk R C (fun r2 c2 => if r2 = r ∧ c2 = c then v else f r2 c2) := by
  simp only [Mat.mk, tab_set]
  apply tab_congr
  intro r2 _
  by_cases h : r2 = r
  · subst h
    simp
  · simp only [h, if_false, false_and]

theorem deref_fresh (h : Heap α) (M : Mat.Matrix α) :
    deref (h ++ M) (tab M.length (fun r => h.length + r)) = M := by
  apply List.ext_getElem?
  intro r
  by_cases hr : r < M.length
  · simp only [deref, List.getElem?_map, tab_getElem? _ _ r hr, Option.map_some',
      List.getD_eq_getElem?_getD, List.getElem?_append_right (Nat.le_add_right _ _),
      Nat.add_sub_cancel_left, List.getElem?_eq_getElem hr]
    rfl
  · have h1 : M[r]? = none := List.getElem?_eq_none (by omega)
    have h2 : (deref (h ++ M) (tab M.length (fun r => h.length + r)))[r]? = none :=
      List.getElem?_eq_none (by simp [deref, tab_length]; omega)
    rw [h1, h2]

theorem deref_append (h ext : Heap α) (m : Matrix) (hm : ∀ a ∈ m, a < h.length) :
    deref (h ++ ext) m = deref h m :=
  prefix_deref h (h ++ ext) (List.prefix_append h ext) m hm

/-- `Set` on the matrix whose rows are the arrays `mk R C f` allocated after `h`. -/
theorem Set_run_fresh (h : Heap α) (R C : Nat) (f : Nat → Nat → α) (r c : Nat) (v : α)
    (hr : r < R) (hc : c < C) :
    Set (tab R (fun i => h.length + i)) (c : Int) (r : Int) v (h ++ Mat.mk R C f) =
      (.ok (), h ++ Mat.mk R C (fun r2 c2 => if r2 = r ∧ c2 = c then v else f r2 c2)) := by
  have hlen : (Mat.mk R C f).length = R := tab_length _ _
  have hd : deref (h ++ Mat.mk R C f) (tab R (fun i => h.length + i)) = Mat.mk R C f := by
    have := deref_fresh h (Mat.mk R C f)
    rw [hlen] at this
    exact this
  have hi : index (tab R (fun i => h.length + i)) (r : Int) = .ok (h.length + r) :=
    index_natCast _ r _ (tab_getElem? _ _ r hr)
  have hrow : (h ++ Mat.mk R C f).getD (h.length + r) [] = tab C (f r) := by
    rw [List.getD_eq_getElem?_getD, List.getElem?_append_right (Nat.le_add_right _ _),
      Nat.add_sub_cancel_left, Mat.mk_getElem? R C f r hr]
    rfl
  have hix : index (tab C (f r)) (c : Int) = .ok (f r c) :=
    index_natCast _ c _ (tab_getElem? _ _ c hc)
  unfold Set
  rw [bind_run, outOfBonds_run, hd, Mat.outOfBonds_mk R C f r c hr hc]
  simp only [Bool.false_eq_true, if_false]
  rw [bind_run_ok _ _ _ (h ++ Mat.mk R C f) (h.length + r) (by rw [hi]; rfl)]
  rw [bind_run_ok _ _ _ (h ++ Mat.mk R C f) (tab C (f r)) (by unfold load; rw [hrow])]
  rw [bind_run_ok _ _ _ (h ++ Mat.mk R C f) (f r c) (by rw [hix]; rfl)]
  unfold store
  rw [List.set_append_right _ _ (Nat.le_add_right _ _), Nat.add_sub_cancel_left,
    Int.toNat_ofNat, mk_set]

theorem NewEmpty_run [Zero α] (h : Heap α) (R C : Nat) (hR : 0 < R) (hC : 0 < C) :
    (NewEmpty (R : Int) (C : Int) : HeapM α Matrix) h =
      (.ok (tab R (fun i => h.length + i)), h ++ Mat.mk R C (fun _ _ => (0 : α))) := by
  have h1 : ¬ ((R : Int) < 1 ∨ (C : Int) < 1) := by omega
  have h2 : ¬ ((R : Int) < 0) := by omega
  have h3 : ¬ ((C : Int) < 0) := by omega
  unfold NewEmpty zeroes
  simp only [h1, h2, h3, if_false, Int.toNat_ofNat]
  obtain ⟨data, hp, hrun, hdata, hhp⟩ := forLoop_run_inv
    (fun i (data : Matrix) (hp : Heap α) => data = tab i (fun j => h.length + j) ∧
      hp = h ++ Mat.mk i C (fun _ _ => (0 : α))) R
    (fun _ data => do
      let a ← make (List.replicate C (0 : α))
      pure (data ++ [a])) [] h
    ⟨rfl, by simp [Mat.mk, tab]⟩ (by
      intro i _ data hp hP
      obtain ⟨hd, hh⟩ := hP
      refine ⟨data ++ [hp.length], hp ++ [List.replicate C (0 : α)], rfl, ?_, ?_⟩
      · rw [tab_succ, hd, hh]
        simp [Mat.mk, tab_length]
      · rw [hh]
        simp only [Mat.mk, tab_succ, replicate_eq_tab, List.append_assoc])
  rw [hrun, hdata, hhp]

/-- The nested loops that fill the result of an operation, on the store: the rows of the
result are the arrays allocated after `h`. -/
theorem fill_loop_run (h : Heap α) (R C : Nat) (outer : Nat → Unit → HeapM α Unit)
    (inner : Nat → Nat → Unit → HeapM α Unit) (F z : Nat → Nat → α)
    (hO : ∀ r, r < R → ∀ f, outer r () (h ++ Mat.mk R C f) =
      forLoop C (inner r) () (h ++ Mat.mk R C f))
    (hI : ∀ r, r < R → ∀ c, c < C → ∀ f, inner r c () (h ++ Mat.mk R C f) =
      Set (tab R (fun i => h.length + i)) (c : Int) (r : Int) (F r c) (h ++ Mat.mk R C f)) :
    forLoop R outer () (h ++ Mat.mk R C z) = (.ok (), h ++ Mat.mk R C F) := by
  obtain ⟨st, hp, hrun, hP⟩ := forLoop_run_inv
    (fun k (_ : Unit) hp => hp = h ++ Mat.mk R C (fun r c => if r < k then F r c else z r c))
    R outer () (h ++ Mat.mk R C z) (by simp) (by
      intro r hr st hp hP
      obtain ⟨st2, hp2, hrun2, hQ⟩ := forLoop_run_inv
        (fun j (_ : Unit) hp => hp = h ++ Mat.mk R C (fun r2 c =>
          if r2 < r ∨ (r2 = r ∧ c < j) then F r2 c else z r2 c)) C (inner r) () hp
        (by
          rw [hP]
          congr 1
          apply Mat.mk_congr
          intro r2 _ c _
          simp)
        (by
          intro c hc st3 hp3 hQ
          refine ⟨(), _, ?_, rfl⟩
          rw [hQ, hI r hr c hc, Set_run_fresh h R C _ r c _ hr hc]
          congr 2
          apply Mat.mk_congr
          intro r2 _ c2 _
          by_cases h1 : r2 = r
          · subst h1
            by_cases h2 : c2 = c
            · subst h2
              simp
            · have : c2 < c + 1 ↔ c2 < c := by omega
              simp [h2, this]
          · simp [h1])
      refine ⟨st2, hp2, ?_, ?_⟩
      · rw [hP, hO r hr, ← hP, hrun2]
      · rw [hQ]
        congr 1
        apply Mat.mk_congr
        intro r2 _ c hc
        have : r2 < r + 1 ↔ (r2 < r ∨ r2 = r) := by omega
        simp [hc, this])
  rw [hrun, hP]
  congr 2
  apply Mat.mk_congr
  intro r hr c _
  simp [hr]

theorem sum_loop_run [Semiring α] (K : Nat) (body : Nat → α → HeapM α α) (g : Nat → α)
    (h : Heap α) (hb : ∀ k, k < K → ∀ s, body k s h = (.ok (s + g k), h)) :
    forLoop K body (0 : α) h = (.ok (∑ k in Finset.range K, g k), h) := by
  obtain ⟨st, hp, hrun, hs, hh⟩ := forLoop_run_inv
    (fun k s hp => s = ∑ i in Finset.range k, g i ∧ hp = h) K body 0 h (by simp) (by
      intro k hk st hp hP
      obtain ⟨hs, hh⟩ := hP
      refine ⟨_, _, by rw [hh]; exact hb k hk st, ?_, rfl⟩
      simp only [hs, Finset.sum_range_succ])
  rw [hrun, hs, hh]

/-- On rectangular operands stored in `h`, the reference-level `Dot` allocates the rows of
its result after `h`, fills them with the product, and leaves `h` as it is. -/
theorem Dot_run [Semiring α] (h : Heap α) (a b : Matrix) (R K C : Nat)
    (fa fb : Nat → Nat → α) (ha : deref h a = Mat.mk R K fa) (hb : deref h b = Mat.mk K C fb)
    (hva : ∀ x ∈ a, x < h.length) (hvb : ∀ x ∈ b, x < h.length)
    (hR : 0 < R) (hK : 0 < K) (hC : 0 < C) :
    (Dot a b : HeapM α Matrix) h =
      (.ok (tab R (fun i => h.length + i)),
        h ++ Mat.mk R C (fun r c => ∑ k in Finset.range K, fa r k * fb k c)) := by
  have hRa : Rows a = (R : Int) := by
    have : (deref h a).length = R := by rw [ha]; exact tab_length _ _
    simpa [Rows, deref] using this
  have hRb : Rows b = (K : Int) := by
    have : (deref h b).length = K := by rw [hb]; exact tab_length _ _
    simpa [Rows, deref] using this
  have hda : ∀ f, deref (h ++ Mat.mk R C f) a = Mat.mk R K fa := fun f => by
    rw [deref_append h _ a hva, ha]
  have hdb : ∀ f, deref (h ++ Mat.mk R C f) b = Mat.mk K C fb := fun f => by
    rw [deref_append h _ b hvb, hb]
  have hCa : (Columns a : HeapM α Int) h = (.ok (K : Int), h) := by
    rw [Columns_run, ha, Mat.Columns_mk _ _ _ hR]
  have hCb : (Columns b : HeapM α Int) h = (.ok (C : Int), h) := by
    rw [Columns_run, hb, Mat.Columns_mk _ _ _ hK]
  have hCa2 : ∀ f, (Columns a : HeapM α Int) (h ++ Mat.mk R C f) =
      (.ok (K : Int), h ++ Mat.mk R C f) := fun f => by
    rw [Columns_run, hda, Mat.Columns_mk _ _ _ hR]
  have hCb2 : ∀ f, (Columns b : HeapM α Int) (h ++ Mat.mk R C f) =
      (.ok (C : Int), h ++ Mat.mk R C f) := fun f => by
    rw [Columns_run, hdb, Mat.Columns_mk _ _ _ hK]
  have hne : ¬ ((K : Int) ≠ Rows b) := by rw [hRb]; simp
  unfold Dot
  rw [bind_run_ok _ _ _ _ _ hCa]
  simp only [hne, if_false]
  rw [bind_run_ok _ _ _ _ _ hCb, hRa, bind_run_ok _ _ _ _ _ (NewEmpty_run h R C hR hC)]
  simp only [Int.toNat_ofNat]
  rw [bind_run_ok _ _ _ _ () (fill_loop_run h R C _
    (fun r c _ => do
      let ca ← Columns a
      let sum ← forLoop ca.toNat (fun k sum => do
        let u ← Get a k r
        let v ← Get b c k
        pure (sum + u * v)) (0 : α)
      Set (tab R (fun i => h.length + i)) c r sum)
    (fun r c => ∑ k in Finset.range K, fa r k * fb k c) (fun _ _ => 0) ?_ ?_)]
  · rfl
  · intro r _ f
    rw [bind_run_ok _ _ _ _ _ (hCb2 f)]
    rfl
  · intro r hr c hc f
    beta_reduce
    rw [bind_run_ok _ _ _ _ _ (hCa2 f)]
    simp only [Int.toNat_ofNat]
    rw [bind_run_ok _ _ _ _ _ (sum_loop_run K _ (fun k => fa r k * fb k c) _ ?_)]
    intro k hk s
    rw [bind_run_ok _ _ _ (h ++ Mat.mk R C f) (fa r k)
      (by rw [Get_run, hda, Mat.Get_mk _ _ _ _ _ hr hk])]
    rw [bind_run_ok _ _ _ (h ++ Mat.mk R C f) (fb k c)
      (by rw [Get_run, hdb, Mat.Get_mk _ _ _ _ _ hk hc])]
    rfl

theorem NewColumn_run (values : List α) (h : Heap α) :
    NewColumn values h =
      (.ok (tab values.length (fun i => h.length + i)), h ++ Mat.NewColumn values) := by
  obtain ⟨data, hp, hrun, hdata, hhp⟩ := forLoop_run_inv
    (fun i (data : Matrix) (hp : Heap α) => data = tab i (fun j => h.length + j) ∧
      hp = h ++ Mat.NewColumn (values.take i)) values.length
    (fun i data => do
      let v ← lift (index values (i : Int))
      let a ← make [v]
      pure (data ++ [a])) [] h
    ⟨rfl, by simp [Mat.NewColumn]⟩ (by
      intro i hi data hp hP
      obtain ⟨hd, hh⟩ := hP
      have hidx : index values (i : Int) = .ok values[i] :=
        index_natCast _ i _ (List.getElem?_eq_getElem hi)
      have htake : Mat.NewColumn (values.take (i + 1)) =
          Mat.NewColumn (values.take i) ++ [[values[i]]] := by
        unfold Mat.NewColumn
        rw [List.take_succ, List.getElem?_eq_getElem hi, List.map_append]
        rfl
      refine ⟨data ++ [hp.length], hp ++ [[values[i]]], ?_, ?_, ?_⟩
      · beta_reduce
        rw [bind_run_ok _ _ _ hp values[i] (by rw [hidx]; rfl)]
        rfl
      · rw [tab_succ, hd, hh]
        simp [Mat.NewColumn, List.length_take, Nat.min_eq_left (Nat.le_of_lt hi)]
      · rw [hh, htake, List.append_assoc])
  have hfull : values.take values.length = values := List.take_length _
  rw [hfull] at hhp
  unfold NewColumn
  rw [hrun, hdata, hhp]

/-- `Apply` on the matrix whose rows are the arrays `mk R C g` allocated after `h`. -/
theorem Apply_run_fresh (h : Heap α) (R C : Nat) (g : Nat → Nat → α) (f : α → α) :
    Apply (tab R (fun i => h.length + i)) f (h ++ Mat.mk R C g) =
      (.ok (), h ++ Mat.mk R C (fun r c => f (g r c))) := by
  have hrowAt : ∀ (F : Nat → Nat → α) (r : Nat), r < R →
      (h ++ Mat.mk R C F).getD (h.length + r) [] = tab C (F r) := by
    intro F r hr
    rw [List.getD_eq_getElem?_getD, List.getElem?_append_right (Nat.le_add_right _ _),
      Nat.add_sub_cancel_left, Mat.mk_getElem? R C F r hr]
    rfl
  unfold Apply
  rw [tab_length]
  obtain ⟨st, hp, hrun, hP⟩ := forLoop_run_inv
    (fun k (_ : Unit) hp => hp = h ++ Mat.mk R C (fun r c => if r < k then f (g r c) else g r c))
    R (fun r _ => do
      let a ← lift (index (tab R (fun i => h.length + i)) (r : Int))
      let row ← load a
      forLoop row.length (fun i _ => do
        let cur ← load a
        let element ← lift (index cur (i : Int))
        store a (cur.set i (f element))) ()) () (h ++ Mat.mk R C g) (by simp) (by
      intro r hr st hp hP
      have hi : index (tab R (fun i => h.length + i)) (r : Int) = .ok (h.length + r) :=
        index_natCast _ r _ (tab_getElem? _ _ r hr)
      rw [hP]
      obtain ⟨st2, hp2, hrun2, hQ⟩ := forLoop_run_inv
        (fun j (_ : Unit) hp => hp = h ++ Mat.mk R C (fun r2 c =>
          if r2 < r ∨ (r2 = r ∧ c < j) then f (g r2 c) else g r2 c)) C
        (fun i _ => do
          let cur ← load (h.length + r)
          let element ← lift (index cur (i : Int))
          store (h.length + r) (cur.set i (f element))) ()
        (h ++ Mat.mk R C (fun r2 c => if r2 < r then f (g r2 c) else g r2 c))
        (by
          congr 1
          apply Mat.mk_congr
          intro r2 _ c _
          simp)
        (by
          intro c hc st3 hp3 hQ
          refine ⟨(), _, ?_, rfl⟩
          rw [hQ]
          beta_reduce
          rw [bind_run_ok _ _ _ _ _ (by unfold load; rw [hrowAt _ r hr])]
          have hix : index (tab C (fun c2 => if r < r ∨ (r = r ∧ c2 < c) then f (g r c2)
              else g r c2)) (c : Int) = .ok (g r c) := by
            apply index_natCast
            rw [tab_getElem? _ _ c hc]
            simp
          rw [bind_run_ok _ _ _ _ (g r c) (by rw [hix]; rfl)]
          unfold store
          rw [List.set_append_right _ _ (Nat.le_add_right _ _), Nat.add_sub_cancel_left,
            mk_set]
          congr 2
          apply Mat.mk_congr
          intro r2 _ c2 _
          by_cases h1 : r2 = r
          · subst h1
            by_cases h2 : c2 = c
            · subst h2
              simp
            · have : c2 < c + 1 ↔ c2 < c := by omega
              simp [h2, this]
          · simp [h1])
      refine ⟨st2, hp2, ?_, ?_⟩
      · beta_reduce
        rw [bind_run_ok _ _ _ _ (h.length + r) (by rw [hi]; rfl)]
        rw [bind_run_ok _ _ _ _ _ (by unfold load; rw [hrowAt _ r hr])]
        rw [tab_length]
        exact hrun2
      · rw [hQ]
        congr 1
        apply Mat.mk_congr
        intro r2 _ c hc
        have : r2 < r + 1 ↔ (r2 < r ∨ r2 = r) := by omega
        simp [hc, this])
  rw [hrun, hP]
  congr 2
  apply Mat.mk_congr
  intro r hr c _
  simp [hr]

theorem index_map {ι κ : Type} (l : List ι) (g : ι → κ) (i : Int) :
    index (l.map g) i = (match index l i with
      | .ok a => .ok (g a)
      | .error e => .error e) := by
  unfold index
  split
  · rfl
  · rw [List.getElem?_map]
    cases l[i.toNat]? <;> rfl

theorem deref_fresh_mk (h : Heap α) (R C : Nat) (f : Nat → Nat → α) :
    deref (h ++ Mat.mk R C f) (tab R (fun i => h.length + i)) = Mat.mk R C f := by
  have := deref_fresh h (Mat.mk R C f)
  rw [show (Mat.mk R C f).length = R from tab_length _ _] at this
  exact this

/-- The loop of the reference-level `layerOutputs` follows the forward recursion on the
matrices that the references denote. -/
theorem fold_run [Field α] (exp : α → α) (h0 : Heap α) (Ws : List Matrix) (sizes : List Nat)
    (hc : Heap α) (lo : Matrix) (outsR : List Matrix) (hpre : h0 <+: hc)
    (hWv : ∀ W ∈ Ws, ∀ a ∈ W, a < h0.length) (hlov : ∀ a ∈ lo, a < hc.length)
    (houtv : ∀ m ∈ outsR, ∀ a ∈ m, a < hc.length)
    (hlen : Ws.length + 1 = sizes.length)
    (hpos : ∀ i, i < sizes.length → 0 < sizes.getD i 0)
    (hW : ∀ i, i < Ws.length →
      Mat.IsMat (deref h0 (Ws.getD i [])) (sizes.getD (i + 1) 0) (sizes.getD i 0))
    (hlo : Mat.IsMat (deref hc lo) (sizes.getD 0 0) 1) :
    ∃ st hf rest,
      Ws.foldlM (layerStep exp) (lo, outsR) hc = (.ok st, hf) ∧
      Gonet.Network.forward exp (Ws.map (deref h0)) (deref hc lo) = .ok rest ∧
      st.2.map (deref hf) = outsR.map (deref hc) ++ rest.tail := by
  induction Ws generalizing sizes hc lo outsR with
  | nil =>
    refine ⟨(lo, outsR), hc, [deref hc lo], rfl, rfl, ?_⟩
    simp
  | cons W Ws ih =>
    match sizes, hlen with
    | n0 :: n1 :: ns, hlen =>
      have hW0 : Mat.IsMat (deref h0 W) n1 n0 := by simpa using hW 0 (by simp)
      have hlo0 : Mat.IsMat (deref hc lo) n0 1 := by simpa using hlo
      have hn0 : 0 < n0 := by simpa using hpos 0 (by simp)
      have hn1 : 0 < n1 := by simpa using hpos 1 (by simp)
      have hWc : deref hc W = deref h0 W :=
        prefix_deref h0 hc hpre W (hWv W (List.mem_cons_self _ _))
      have hWvc : ∀ a ∈ W, a < hc.length := fun a ha =>
        Nat.lt_of_lt_of_le (hWv W (List.mem_cons_self _ _) a ha) hpre.length_le
      have hdot := Dot_run hc W lo n1 n0 1 (Mat.entry (deref h0 W)) (Mat.entry (deref hc lo))
        (by rw [hWc]; exact hW0.eq_mk) hlo0.eq_mk hWvc hlov hn1 hn0 Nat.one_pos
      have hdotV := Mat.Dot_isMat (deref h0 W) (deref hc lo) n1 n0 1 hW0 hlo0 hn1 hn0
        Nat.one_pos
      have happ := Apply_run_fresh hc n1 1
        (fun r c => ∑ k in Finset.range n0,
          Mat.entry (deref h0 W) r k * Mat.entry (deref hc lo) k c)
        (Activation.Sigmoid exp).Func
      have hpre2 : h0 <+: hc ++ Mat.mk n1 1 (fun r c => (Activation.Sigmoid exp).Func
          (∑ k in Finset.range n0,
            Mat.entry (deref h0 W) r k * Mat.entry (deref hc lo) k c)) :=
        hpre.trans (List.prefix_append _ _)
      have hlen2 : (hc ++ Mat.mk n1 1 (fun r c => (Activation.Sigmoid exp).Func
          (∑ k in Finset.range n0,
            Mat.entry (deref h0 W) r k * Mat.entry (deref hc lo) k c))).length
          = hc.length + n1 := by
        rw [List.length_append]
        congr 1
        exact tab_length _ _
      have hzv : ∀ a ∈ tab n1 (fun i => hc.length + i), a < hc.length + n1 := by
        intro a ha
        simp only [tab, List.mem_map, List.mem_range] at ha
        obtain ⟨i, hi, rfl⟩ := ha
        omega
      obtain ⟨st, hf, rest, hrun, hfw, hmap⟩ := ih (n1 :: ns)
        (hc ++ Mat.mk n1 1 (fun r c => (Activation.Sigmoid exp).Func
          (∑ k in Finset.range n0,
            Mat.entry (deref h0 W) r k * Mat.entry (deref hc lo) k c)))
        (tab n1 (fun i => hc.length + i)) (outsR ++ [tab n1 (fun i => hc.length + i)])
        hpre2 (fun W2 hW2 => hWv W2 (List.mem_cons_of_mem _ hW2))
        (by rw [hlen2]; exact hzv)
        (by
          intro m hm a ha
          rw [hlen2]
          rcases List.mem_append.mp hm with hm | hm
          · exact Nat.lt_of_lt_of_le (houtv m hm a ha) (Nat.le_add_right _ _)
          · rw [List.mem_singleton.mp hm] at ha
            exact hzv a ha)
        (by simpa using hlen)
        (fun i hi => by simpa using hpos (i + 1) (by simpa using hi))
        (fun i hi => by simpa using hW (i + 1) (by simpa using hi))
        (by
          rw [deref_fresh_mk]
          simpa using Mat.isMat_mk n1 1 _)
      rw [deref_fresh_mk] at hfw
      have hAV : Mat.Apply (Mat.mk n1 1 (fun r c => ∑ k in Finset.range n0,
          Mat.entry (deref h0 W) r k * Mat.entry (deref hc lo) k c))
          (Activation.sigmoid exp) =
          Mat.mk n1 1 (fun r c => (Activation.Sigmoid exp).Func
            (∑ k in Finset.range n0,
              Mat.entry (deref h0 W) r k * Mat.entry (deref hc lo) k c)) :=
        Mat.Apply_mk _ _ _ _
      obtain ⟨t, ht⟩ := Gonet.Network.forward_head exp _ _ rest hfw
      refine ⟨st, hf, deref hc lo :: rest, ?_, ?_, ?_⟩
      · rw [List.foldlM_cons, bind_run]
        have hstep : layerStep exp (lo, outsR) W hc =
            (.ok (tab n1 (fun i => hc.length + i),
              outsR ++ [tab n1 (fun i => hc.length + i)]),
              hc ++ Mat.mk n1 1 (fun r c => (Activation.Sigmoid exp).Func
                (∑ k in Finset.range n0,
                  Mat.entry (deref h0 W) r k * Mat.entry (deref hc lo) k c))) := by
          unfold layerStep
          rw [bind_run_ok _ _ _ _ _ hdot, bind_run_ok _ _ _ _ _ happ]
          rfl
        rw [hstep]
        exact hrun
      · simp only [List.map_cons, Gonet.Network.forward, hdotV, hAV, hfw]
      · rw [hmap, ht]
        have hpm : (outsR ++ [tab n1 (fun i => hc.length + i)]).map
            (deref (hc ++ Mat.mk n1 1 (fun r c => (Activation.Sigmoid exp).Func
              (∑ k in Finset.range n0,
                Mat.entry (deref h0 W) r k * Mat.entry (deref hc lo) k c)))) =
            outsR.map (deref hc) ++ [Mat.mk n1 1 (fun r c => (Activation.Sigmoid exp).Func
              (∑ k in Finset.range n0,
                Mat.entry (deref h0 W) r k * Mat.entry (deref hc lo) k c))] := by
          rw [List.map_append, List.map_singleton, deref_fresh_mk]
          congr 1
          apply List.map_congr_left
          intro m hm
          exact deref_append hc _ m (houtv m hm)
        rw [hpm]
        simp

theorem getD_map_deref (h : Heap α) (Ws : List Matrix) (i : Nat) :
    (Ws.map (deref h)).getD i [] = deref h (Ws.getD i []) := by
  simp only [List.getD_eq_getElem?_getD, List.getElem?_map]
  cases Ws[i]? <;> rfl

/-- Under the weight-shape invariant the reference-level `layerOutputs` returns references
to the matrices that the value-level `layerOutputs` returns. -/
theorem layerOutputs_run [Field α] (exp : α → α) (h : Heap α) (net : Network α)
    (sizes : List Nat) (input : List α)
    (hinv : Gonet.Network.ShapeInv (derefNet h net) sizes)
    (hv : ∀ W ∈ net.Weights, ∀ a ∈ W, a < h.length)
    (hin : input.length = sizes.getD 0 0) :
    ∃ refs hf outs, layerOutputs exp net input h = (.ok refs, hf) ∧
      Gonet.Network.layerOutputs exp (derefNet h net) input = .ok outs ∧
      refs.map (deref hf) = outs := by
  obtain ⟨hL, hpos, hI, _, hWlen, hW⟩ := hinv
  have hsz : (input.length : Int) = net.InputSize := by
    rw [hin]
    exact hI.symm
  have hnc := NewColumn_run input h
  have hdl : deref (h ++ Mat.NewColumn input) (tab input.length (fun i => h.length + i)) =
      Mat.NewColumn input := by
    have := deref_fresh h (Mat.NewColumn input)
    rw [show (Mat.NewColumn input).length = input.length from by simp [Mat.NewColumn]] at this
    exact this
  have hlenW : net.Weights.length = sizes.length - 1 := by
    simpa [derefNet] using hWlen
  have hlv : ∀ a ∈ tab input.length (fun i => h.length + i),
      a < (h ++ Mat.NewColumn input).length := by
    intro a ha
    simp only [tab, List.mem_map, List.mem_range] at ha
    obtain ⟨i, hi, rfl⟩ := ha
    simp [Mat.NewColumn]
    omega
  obtain ⟨st, hf, rest, hrun, hfw, hmap⟩ := fold_run exp h net.Weights sizes
    (h ++ Mat.NewColumn input) (tab input.length (fun i => h.length + i))
    [tab input.length (fun i => h.length + i)] (List.prefix_append _ _) hv hlv
    (by
      intro m hm a ha
      rw [List.mem_singleton.mp hm] at ha
      exact hlv a ha)
    (by omega) hpos
    (by
      intro i hi
      have := hW i (by omega)
      simp only [derefNet, getD_map_deref] at this
      exact this)
    (by
      rw [hdl, ← hin]
      exact Gonet.Network.NewColumn_isMat input)
  rw [hdl] at hfw
  obtain ⟨t, ht⟩ := Gonet.Network.forward_head exp _ _ rest hfw
  refine ⟨st.2, hf, rest, ?_, ?_, ?_⟩
  · unfold layerOutputs
    simp only [hsz, ne_eq, not_true_eq_false, if_false]
    rw [bind_run_ok _ _ _ _ _ hnc, bind_run_ok _ _ _ _ _ hrun]
    rfl
  · rw [Gonet.Network.layerOutputs_eq_forward exp (derefNet h net) input hsz]
    exact hfw
  · rw [hmap, ht]
    simp [hdl]

theorem Predict_run [Field α] (exp : α → α) (h : Heap α) (net : Network α)
    (sizes : List Nat) (input : List α)
    (hinv : Gonet.Network.ShapeInv (derefNet h net) sizes)
    (hv : ∀ W ∈ net.Weights, ∀ a ∈ W, a < h.length)
    (hin : input.length = sizes.getD 0 0) :
    ∃ ref hf, Predict exp net input h = (.ok ref, hf) ∧
      Gonet.Network.Predict exp (derefNet h net) input = .ok (deref hf ref) := by
  obtain ⟨refs, hf, outs, hrun, hval, hmap⟩ := layerOutputs_run exp h net sizes input hinv hv hin
  obtain ⟨outs2, houts2, _, hlen2, _⟩ :=
    Gonet.Network.ShapeInv.layerOutputs_ok exp (derefNet h net) sizes input hinv hin
  rw [hval] at houts2
  cases houts2
  have hL := hinv.1
  have hlen : refs.length = sizes.length := by
    rw [← hlen2, ← hmap, List.length_map]
  have hidx : index refs ((refs.length : Int) - 1) = .ok (refs.getD (sizes.length - 1) []) := by
    have h1 : (refs.length : Int) - 1 = ((sizes.length - 1 : Nat) : Int) := by
      rw [hlen]; omega
    rw [h1]
    exact index_getD refs _ [] (by omega)
  refine ⟨refs.getD (sizes.length - 1) [], hf, ?_, ?_⟩
  · unfold Predict
    rw [bind_run_ok _ _ _ _ _ hrun, hidx]
    rfl
  · simp only [Gonet.Network.Predict, hval, bind, Except.bind]
    rw [← hmap, index_map, List.length_map, hidx]

end RefineLemmas

end Ref

/-! ## Indexing with arbitrary indices -/

namespace Mat

section IndexLemmas

variable {α : Type}

theorem outOfBonds_mk_int (R C : Nat) (f : Nat → Nat → α) (hR : 0 < R) (x y : Int) :
    outOfBonds (mk R C f) x y = .ok (decide ((C : Int) ≤ x ∨ (R : Int) ≤ y)) := by
  simp only [outOfBonds, Columns_mk R C f hR, Rows_mk, bind, Except.bind]
  by_cases h1 : x > (C : Int) - 1
  · have : (C : Int) ≤ x := by omega
    simp [h1, this, pure, Except.pure]
  · have h2 : ¬ ((C : Int) ≤ x) := by omega
    simp only [h1, if_false, h2, false_or, pure, Except.pure]
    congr 1
    apply decide_eq_decide.mpr
    omega

/-- The outcome of `Get` on a tabulated matrix, for any pair of indices. -/
theorem Get_mk_int (R C : Nat) (f : Nat → Nat → α) (hR : 0 < R) (x y : Int) :
    Get (mk R C f) x y =
      if (C : Int) ≤ x ∨ (R : Int) ≤ y then .error .errOutOfBounds
      else if y < 0 ∨ x < 0 then .error .indexOutOfRange
      else .ok (f y.toNat x.toNat) := by
  by_cases h1 : (C : Int) ≤ x ∨ (R : Int) ≤ y
  · simp only [Get, outOfBonds_mk_int R C f hR, bind, Except.bind, h1, decide_True, if_true]
  · rw [if_neg h1]
    by_cases h2 : y < 0 ∨ x < 0
    · rw [if_pos h2]
      simp only [Get, outOfBonds_mk_int R C f hR, bind, Except.bind, h1, decide_False,
        Bool.false_eq_true, if_false, pure, Except.pure]
      by_cases hy : y < 0
      · rw [index_neg _ y hy]
      · have hx : x < 0 := by omega
        obtain ⟨r, rfl⟩ : ∃ r : Nat, y = (r : Int) := ⟨y.toNat, by omega⟩
        rw [index_natCast _ r _ (mk_getElem? R C f r (by omega))]
        simp only [index_neg _ x hx]
    · rw [if_neg h2]
      obtain ⟨r, rfl⟩ : ∃ r : Nat, y = (r : Int) := ⟨y.toNat, by omega⟩
      obtain ⟨c, rfl⟩ : ∃ c : Nat, x = (c : Int) := ⟨x.toNat, by omega⟩
      rw [Get_mk R C f r c (by omega) (by omega)]
      simp

/-- The outcome of `Set` on a tabulated matrix, for any pair of indices. -/
theorem Set_mk_int (R C : Nat) (f : Nat → Nat → α) (hR : 0 < R) (x y : Int) (v : α) :
    Set (mk R C f) x y v =
      if (C : Int) ≤ x ∨ (R : Int) ≤ y then .error .errOutOfBounds
      else if y < 0 ∨ x < 0 then .error .indexOutOfRange
      else .ok (mk R C (fun r c => if r = y.toNat ∧ c = x.toNat then v else f r c)) := by
  by_cases h1 : (C : Int) ≤ x ∨ (R : Int) ≤ y
  · simp only [Set, outOfBonds_mk_int R C f hR, bind, Except.bind, h1, decide_True, if_true]
  · rw [if_neg h1]
    by_cases h2 : y < 0 ∨ x < 0
    · rw [if_pos h2]
      simp only [Set, outOfBonds_mk_int R C f hR, bind, Except.bind, h1, decide_False,
        Bool.false_eq_true, if_false, pure, Except.pure]
      by_cases hy : y < 0
      · rw [index_neg _ y hy]
      · have hx : x < 0 := by omega
        obtain ⟨r, rfl⟩ : ∃ r : Nat, y = (r : Int) := ⟨y.toNat, by omega⟩
        rw [index_natCast _ r _ (mk_getElem? R C f r (by omega))]
        simp only [index_neg _ x hx]
    · rw [if_neg h2]
      obtain ⟨r, rfl⟩ : ∃ r : Nat, y = (r : Int) := ⟨y.toNat, by omega⟩
      obtain ⟨c, rfl⟩ : ∃ c : Nat, x = (c : Int) := ⟨x.toNat, by omega⟩
      rw [Set_mk R C f r c v (by omega) (by omega)]
      simp

theorem Get_isMat_int [Zero α] (m : Matrix α) (R C : Nat) (hm : IsMat m R C) (hR : 0 < R)
    (x y : Int) :
    Get m x y =
      if (C : Int) ≤ x ∨ (R : Int) ≤ y then .error .errOutOfBounds
      else if y < 0 ∨ x < 0 then .error .indexOutOfRange
      else .ok (entry m y.toNat x.toNat) := by
  have h := Get_mk_int R C (entry m) hR x y
  rw [← hm.eq_mk] at h
  exact h

theorem Set_isMat_int [Zero α] (m : Matrix α) (R C : Nat) (hm : IsMat m R C) (hR : 0 < R)
    (x y : Int) (v : α) :
    Set m x y v =
      if (C : Int) ≤ x ∨ (R : Int) ≤ y then .error .errOutOfBounds
      else if y < 0 ∨ x < 0 then .error .indexOutOfRange
      else .ok (mk R C (fun r c => if r = y.toNat ∧ c = x.toNat then v else entry m r c)) := by
  have h := Set_mk_int R C (entry m) hR x y v
  rw [← hm.eq_mk] at h
  exact h

theorem isMat_zero_rows {m : Matrix α} {C : Nat} (h : IsMat m 0 C) : m = [] :=
  List.eq_nil_of_length_eq_zero h.1

theorem Get_nil (x y : Int) : Get ([] : Matrix α) x y = .error .indexOutOfRange := rfl

theorem Set_nil (x y : Int) (v : α) : Set ([] : Matrix α) x y v = .error .indexOutOfRange := rfl

end IndexLemmas


end Mat

namespace Ref

section SetLemmas
variable {α : Type}

/-- The reference-level `Set` has the outcome of the value-level `Set` on the matrix that
its receiver denotes; a failing call leaves the store as it is and a successful call
replaces the array of row `y` only. -/
theorem Set_run (m : Matrix) (x y : Int) (v : α) (h : Heap α) :
    Set m x y v h = (match Mat.Set (deref h m) x y v with
      | .error e => (.error e, h)
      | .ok _ => (.ok (), h.set (m.getD y.toNat 0)
          ((h.getD (m.getD y.toNat 0) []).set x.toNat v))) := by
  unfold Set Mat.Set
  rw [bind_run, outOfBonds_run]
  cases hc : Mat.outOfBonds (deref h m) x y with
  | error e => rfl
  | ok c =>
    cases c with
    | true => rfl
    | false =>
      simp only [bind, Except.bind, Bool.false_eq_true, if_false, pure, Except.pure]
      rw [index_deref]
      cases hi : index m y with
      | error e => simp [lift, hi]
      | ok a =>
        have ha : m.getD y.toNat 0 = a := by
          unfold index at hi
          split at hi
          · cases hi
          · split at hi
            · rename_i w hw
              cases hi
              simp [List.getD_eq_getElem?_getD, hw]
            · cases hi
        simp only [lift, hi, load]
        cases hx : index (h.getD a []) x with
        | error e => simp [hx]
        | ok w =>
          subst ha
          simp [hx, store]

end SetLemmas
end Ref

namespace Mat

section IndexOutcomes

variable {α : Type}

theorem Get_ok_iff [Zero α] (m : Matrix α) (R C : Nat) (hm : IsMat m R C) (x y : Int) :
    (∃ e, Get m x y = .ok e) ↔ (0 ≤ x ∧ x < (C : Int) ∧ 0 ≤ y ∧ y < (R : Int)) := by
  by_cases hR : 0 < R
  · rw [Get_isMat_int m R C hm hR]
    by_cases h1 : (C : Int) ≤ x ∨ (R : Int) ≤ y
    · simp only [h1, if_true, false_iff, exists_false, reduceCtorEq]
      omega
    · by_cases h2 : y < 0 ∨ x < 0
      · simp only [h1, h2, if_true, if_false, false_iff, exists_false, reduceCtorEq]
        omega
      · simp only [h1, h2, if_false, Except.ok.injEq, exists_eq', true_iff]
        omega
  · have h0 : R = 0 := by omega
    subst h0
    rw [isMat_zero_rows hm, Get_nil]
    simp only [exists_false, reduceCtorEq, false_iff]
    omega

theorem Set_ok_iff [Zero α] (m : Matrix α) (R C : Nat) (hm : IsMat m R C) (x y : Int)
    (v : α) :
    (∃ m2, Set m x y v = .ok m2) ↔ (0 ≤ x ∧ x < (C : Int) ∧ 0 ≤ y ∧ y < (R : Int)) := by
  by_cases hR : 0 < R
  · rw [Set_isMat_int m R C hm hR]
    by_cases h1 : (C : Int) ≤ x ∨ (R : Int) ≤ y
    · simp only [h1, if_true, false_iff, exists_false, reduceCtorEq]
      omega
    · by_cases h2 : y < 0 ∨ x < 0
      · simp only [h1, h2, if_true, if_false, false_iff, exists_false, reduceCtorEq]
        omega
      · simp only [h1, h2, if_false, Except.ok.injEq, exists_eq', true_iff]
        omega
  · have h0 : R = 0 := by omega
    subst h0
    rw [isMat_zero_rows hm, Set_nil]
    simp only [exists_false, reduceCtorEq, false_iff]
    omega

theorem Get_error_kind [Zero α] (m : Matrix α) (R C : Nat) (hm : IsMat m R C) (x y : Int) :
    (∃ e, Get m x y = .ok e) ∨ Get m x y = .error .errOutOfBounds ∨
      Get m x y = .error .indexOutOfRange := by
  by_cases hR : 0 < R
  · rw [Get_isMat_int m R C hm hR]
    by_cases h1 : (C : Int) ≤ x ∨ (R : Int) ≤ y
    · simp [h1]
    · by_cases h2 : y < 0 ∨ x < 0
      · simp [h1, h2]
      · simp [h1, h2]
  · have h0 : R = 0 := by omega
    subst h0
    rw [isMat_zero_rows hm, Get_nil]
    simp

theorem Set_error_kind [Zero α] (m : Matrix α) (R C : Nat) (hm : IsMat m R C) (x y : Int)
    (v : α) :
    (∃ m2, Set m x y v = .ok m2) ∨ Set m x y v = .error .errOutOfBounds ∨
      Set m x y v = .error .indexOutOfRange := by
  by_cases hR : 0 < R
  · rw [Set_isMat_int m R C hm hR]
    by_cases h1 : (C : Int) ≤ x ∨ (R : Int) ≤ y
    · simp [h1]
    · by_cases h2 : y < 0 ∨ x < 0
      · simp [h1, h2]
      · simp [h1, h2]
  · have h0 : R = 0 := by omega
    subst h0
    rw [isMat_zero_rows hm, Set_nil]
    simp

end IndexOutcomes

end Mat

/-! ## The range of the initial weights -/

section PartialLoop

variable {σ β : Type}

/-- Invariant rule for a loop that is known to end normally. -/
theorem forLoop_ok_inv (I : σ → Prop) (n : Nat) (body : Nat → σ → Except Err σ) (s st : σ)
    (h : forLoop n body s = .ok st) (h0 : I s)
    (hstep : ∀ i, i < n → ∀ a b, I a → body i a = .ok b → I b) : I st := by
  induction n generalizing st with
  | zero =>
    rw [forLoop_zero] at h
    cases h
    exact h0
  | succ n ih =>
    rw [forLoop_succ] at h
    cases hp : forLoop n body s with
    | error e =>
      rw [hp] at h
      cases h
    | ok a =>
      rw [hp] at h
      exact hstep n (Nat.lt_succ_self n) a st
        (ih a hp (fun i hi => hstep i (Nat.lt_succ_of_lt hi))) h

theorem index_ok {l : List β} {i : Int} {v : β} (d : β) (h : index l i = .ok v) :
    0 ≤ i ∧ i.toNat < l.length ∧ l.getD i.toNat d = v := by
  unfold index at h
  split at h
  · cases h
  · split at h
    · rename_i hneg w hw
      cases h
      have hlt : i.toNat < l.length := by
        by_contra hc
        rw [List.getElem?_eq_none (by omega)] at hw
        cases hw
      refine ⟨by omega, hlt, ?_⟩
      rw [List.getD_eq_getElem?_getD, hw]
      rfl
    · cases h

end PartialLoop

namespace Mat

theorem applyRowS_mem {α σ : Type} (f : α → σ → α × σ) (row : List α) (s : σ) (v : α)
    (h : v ∈ (applyRowS f row s).1) : ∃ x n, v = (f x n).1 := by
  induction row generalizing s with
  | nil => simp [applyRowS] at h
  | cons x xs ih =>
    simp only [applyRowS, List.mem_cons] at h
    rcases h with h | h
    · exact ⟨x, s, h⟩
    · exact ih _ h

theorem ApplyS_mem {α σ : Type} (f : α → σ → α × σ) (m : Matrix α) (s : σ) (row : List α)
    (v : α) (hrow : row ∈ (ApplyS f m s).1) (h : v ∈ row) : ∃ x n, v = (f x n).1 := by
  induction m generalizing s with
  | nil => simp [ApplyS] at hrow
  | cons r rs ih =>
    simp only [ApplyS, List.mem_cons] at hrow
    rcases hrow with hrow | hrow
    · subst hrow
      exact applyRowS_mem f r s v h
    · exact ih _ hrow

end Mat

namespace Uniform

theorem Generate_range {α : Type} [LinearOrderedField α] (sqrt : α → α) (n : Int)
    (hs : 0 < sqrt (n : α)) (u : α) (h0 : 0 ≤ u) (h1 : u < 1) :
    (Make sqrt n).Min ≤ (Make sqrt n).Generate u ∧
      (Make sqrt n).Generate u ≤ (Make sqrt n).Max := by
  have hmin : (Make sqrt n).Min = -(1 / sqrt (n : α)) := by
    simp only [Make]
    rw [neg_div]
  have hmax : (Make sqrt n).Max = 1 / sqrt (n : α) := rfl
  have hp : 0 < 1 / sqrt (n : α) := div_pos one_pos hs
  unfold Generate
  rw [hmin, hmax]
  constructor
  · have : 0 ≤ u * (1 / sqrt (n : α) - -(1 / sqrt (n : α))) :=
      mul_nonneg h0 (by linarith)
    linarith
  · have : u * (1 / sqrt (n : α) - -(1 / sqrt (n : α))) ≤
        1 * (1 / sqrt (n : α) - -(1 / sqrt (n : α))) :=
      mul_le_mul_of_nonneg_right h1.le (by linarith)
    linarith

end Uniform

namespace Network

open Mat Activation Training

section NewRange

variable {α : Type} [Field α]

/-- An iteration of the loop of `New` that ends normally has read a size `≥ 1` for the
feeding layer and has stored, at index `j`, a matrix whose elements are all values of
`Generate` of the distribution made for that size. -/
theorem newLayer_weights (canMake : Nat → Int → Bool) (sqrt : α → α) (rnd : Nat → α)
    (layerSizes : List Int) (j : Nat) (st st2 : List (Matrix α) × Nat)
    (h : newLayer canMake sqrt rnd layerSizes j st = .ok st2) :
    1 ≤ layerSizes.getD j 0 ∧ j < st.1.length ∧ ∃ m, st2.1 = st.1.set j m ∧
      ∀ row ∈ m, ∀ v ∈ row,
        ∃ n, v = (Uniform.Make sqrt (layerSizes.getD j 0)).Generate (rnd n) := by
  have hjj : (j : Int) + 1 - 1 = (j : Int) := by omega
  unfold newLayer at h
  simp only [bind, Except.bind, pure, Except.pure, hjj] at h
  cases h1 : index layerSizes ((j : Int) + 1) with
  | error e => simp [h1] at h
  | ok size =>
    cases h2 : index layerSizes (j : Int) with
    | error e => simp [h1, h2] at h
    | ok prev =>
      cases h3 : (NewEmptyWith canMake size prev : Except Err (Matrix α)) with
      | error e => simp [h1, h2, h3] at h
      | ok matrix =>
        cases h4 : index st.1 (j : Int) with
        | error e => simp [h1, h2, h3, h4] at h
        | ok old =>
          simp only [h1, h2, h3, h4, Except.ok.injEq, Int.toNat_ofNat] at h
          have hprev := (index_ok (0 : Int) h2).2.2
          rw [Int.toNat_ofNat] at hprev
          have hlen := (index_ok ([] : Matrix α) h4).2.1
          rw [Int.toNat_ofNat] at hlen
          have hpos : 1 ≤ prev := by
            unfold NewEmptyWith at h3
            by_contra hc
            have : size < 1 ∨ prev < 1 := Or.inr (by omega)
            simp [this] at h3
          subst hprev
          subst h
          refine ⟨hpos, hlen, _, rfl, ?_⟩
          · intro row hrow v hv
            obtain ⟨x, n, hx⟩ := ApplyS_mem _ matrix st.2 row v hrow hv
            exact ⟨n, hx⟩

theorem New_weights_generated (canMake : Nat → Int → Bool) (sqrt : α → α) (rnd : Nat → α)
    (learningRate : α) (layerSizes : List Int) (net : Network α)
    (h : New canMake sqrt rnd learningRate layerSizes = .ok net) :
    ∀ i, ∀ row ∈ net.Weights.getD i [], ∀ v ∈ row,
      1 ≤ layerSizes.getD i 0 ∧
      ∃ n, v = (Uniform.Make sqrt (layerSizes.getD i 0)).Generate (rnd n) := by
  rw [New_eq] at h
  split at h
  · cases h
  · cases h0 : index layerSizes 0 with
    | error e => simp [h0] at h
    | ok inputSize =>
      simp only [h0] at h
      split at h
      · cases h
      cases hl : forLoop (layerSizes.length - 1) (newLayer canMake sqrt rnd layerSizes)
          ((List.replicate (layerSizes.length - 1) [] : List (Matrix α)), 0) with
      | error e => simp [hl] at h
      | ok st =>
        simp only [hl, Except.ok.injEq] at h
        subst h
        refine forLoop_ok_inv (fun (st : List (Matrix α) × Nat) =>
          ∀ i, ∀ row ∈ st.1.getD i [], ∀ v ∈ row, 1 ≤ layerSizes.getD i 0 ∧
            ∃ n, v = (Uniform.Make sqrt (layerSizes.getD i 0)).Generate (rnd n))
          _ _ _ st hl ?_ ?_
        · intro i row hrow
          have : (List.replicate (layerSizes.length - 1) ([] : Matrix α)).getD i [] = [] := by
            simp only [List.getD_eq_getElem?_getD, List.getElem?_replicate]
            split <;> rfl
          rw [this] at hrow
          cases hrow
        · intro j _ a b hI hb
          obtain ⟨hpos, hlen, m, hset, hm⟩ := newLayer_weights canMake sqrt rnd layerSizes j a b hb
          intro i row hrow v hv
          rw [hset] at hrow
          by_cases hij : j = i
          · subst hij
            rw [getD_set_self _ _ _ _ hlen] at hrow
            exact ⟨hpos, hm row hrow v hv⟩
          · rw [getD_set_ne _ _ _ _ _ hij] at hrow
            exact hI i row hrow v hv

end NewRange

/-- The range statement of C13 for any ordered field and any `sqrt` that is positive on the
layer sizes. -/
theorem New_weights_range_of_sqrt_pos {α : Type} [LinearOrderedField α]
    (canMake : Nat → Int → Bool) (sqrt : α → α)
    (hsqrt : ∀ n : Int, 1 ≤ n → 0 < sqrt (n : α)) (rnd : Nat → α)
    (hrnd : ∀ k, 0 ≤ rnd k ∧ rnd k < 1) (learningRate : α) (layerSizes : List Int)
    (net : Network α) (h : New canMake sqrt rnd learningRate layerSizes = .ok net) :
    ∀ i, ∀ row ∈ net.Weights.getD i [], ∀ v ∈ row,
      (-1) / sqrt ((layerSizes.getD i 0 : Int) : α) ≤ v ∧
      v ≤ 1 / sqrt ((layerSizes.getD i 0 : Int) : α) := by
  intro i row hrow v hv
  obtain ⟨hpos, n, hn⟩ := New_weights_generated canMake sqrt rnd learningRate layerSizes net
    h i row hrow v hv
  have hr := Uniform.Generate_range sqrt (layerSizes.getD i 0) (hsqrt _ hpos) (rnd n)
    (hrnd n).1 (hrnd n).2
  rw [hn]
  exact hr

end Network

/-! ## The data of `DigitRecognition` -/

/-- A loop that assigns `F i` to position `i` of a list of length `n`, after the bounds
check of the assignment, yields `[F 0, ..., F (n-1)]`. -/
theorem fill_list_checked {β : Type} (n : Nat) (body : Nat → List β → Except Err (List β))
    (F : Nat → β) (z : β)
    (h : ∀ i, i < n → ∀ l, l.length = n → body i l = .ok (l.set i (F i))) :
    forLoop n body (List.replicate n z) = .ok (tab n F) := by
  obtain ⟨st, hst, hP⟩ := forLoop_inv
    (fun k l => l = tab n (fun i => if i < k then F i else z)) n body (List.replicate n z)
    (by simp [replicate_eq_tab]) (by
      intro i hi l hP
      refine ⟨_, h i hi l (by rw [hP, tab_length]), ?_⟩
      simp only [hP, tab_set]
      apply tab_congr
      intro j _
      by_cases hj : j = i
      · subst hj
        simp
      · have : j < i + 1 ↔ j < i := by omega
        simp [hj, this])
  rw [hst, hP]
  congr 1
  apply tab_congr
  intro i hi
  simp [hi]

namespace DigitRecognition

open Training

section RecordLemmas

variable {α : Type} [Field α]

/-- The result of `recordToData` on a record of 785 fields whose first field converts to a
label from 0 to 9. -/
theorem recordToData_eq (parseFloat : String → α) (atoi : String → Int)
    (record : List String) (hlen : record.length = 785)
    (hd0 : 0 ≤ atoi (record.getD 0 "")) (hd9 : atoi (record.getD 0 "") < 10) :
    recordToData parseFloat atoi record =
      .ok { Input := tab 784 (fun k =>
              ((parseFloat (record.getD (k + 1) "") / 255) * (99 / 100)) + 1 / 100),
            Target := tab 10 (fun k =>
              if k = (atoi (record.getD 0 "")).toNat then 99 / 100 else 1 / 100) } := by
  have h1 : forLoop (record.length - 1) (fun j (input : List α) => do
      let i : Int := (j : Int) + 1
      let s ← index record i
      let f := parseFloat s
      let _ ← index input (i - 1)
      pure (input.set (i - 1).toNat (((f / 255) * (99 / 100)) + 1 / 100)))
      (List.replicate 784 (0 : α)) = .ok (tab 784 (fun k =>
        ((parseFloat (record.getD (k + 1) "") / 255) * (99 / 100)) + 1 / 100)) := by
    have hn : record.length - 1 = 784 := by omega
    rw [hn]
    apply fill_list_checked
    intro i hi l hl
    have hjj : (i : Int) + 1 - 1 = (i : Int) := by omega
    have hr : index record ((i : Int) + 1) = .ok (record.getD (i + 1) "") := by
      have := index_getD record (i + 1) "" (by omega)
      simpa using this
    have hl2 : index l (i : Int) = .ok (l.getD i 0) := index_getD l i 0 (by omega)
    simp only [hr, hjj, hl2, bind, Except.bind, pure, Except.pure, Int.toNat_ofNat]
  have h2 : forLoop 10 (fun i (target : List α) => do
      let _ ← index target (i : Int)
      pure (target.set i (1 / 100))) (List.replicate 10 (0 : α)) =
      .ok (tab 10 (fun _ => (1 / 100 : α))) := by
    apply fill_list_checked
    intro i hi l hl
    have hl2 : index l (i : Int) = .ok (l.getD i 0) := index_getD l i 0 (by omega)
    simp only [hl2, bind, Except.bind, pure, Except.pure]
  have h3 : index record 0 = .ok (record.getD 0 "") := by
    have := index_getD record 0 "" (by omega)
    simpa using this
  obtain ⟨d, hd⟩ : ∃ d : Nat, atoi (record.getD 0 "") = (d : Int) :=
    ⟨(atoi (record.getD 0 "")).toNat, by omega⟩
  have h4 : index (tab 10 (fun _ => (1 / 100 : α))) (atoi (record.getD 0 "")) =
      .ok (1 / 100) := by
    rw [hd]
    exact index_natCast _ d _ (tab_getElem? _ _ d (by omega))
  unfold recordToData
  rw [h1, h2, h3]
  simp only [bind, Except.bind]
  rw [h4]
  simp only [pure, Except.pure, tab_set, hd, Int.toNat_ofNat]

end RecordLemmas

theorem sampleRecord_length : sampleRecord.length = 785 := by
  simp only [sampleRecord, List.length_cons, List.length_replicate]

theorem sampleRecord_getD_succ (k : Nat) (hk : k < 784) :
    sampleRecord.getD (k + 1) "" = "255" := by
  simp only [sampleRecord, List.getD_eq_getElem?_getD, List.getElem?_cons_succ,
    List.getElem?_replicate, hk, if_true, Option.getD_some]

end DigitRecognition

/-! ## `FromSlice` -/

theorem wrapInt_eq (x : Int) (h1 : -(2 ^ 63) ≤ x) (h2 : x < 2 ^ 63) : wrapInt x = x := by
  unfold wrapInt
  have : (x + 2 ^ 63) % 2 ^ 64 = x + 2 ^ 63 := Int.emod_eq_of_lt (by omega) (by omega)
  omega

namespace Mat

section FromSliceLemmas

variable {α : Type}

theorem FromSlice_wrong [Zero α] (rows columns : Int) (values : List α)
    (h : (values.length : Int) ≠ wrapInt (rows * columns)) :
    FromSlice rows columns values = .error .errWrongNoValues := by
  simp only [FromSlice, h, ne_eq, not_false_eq_true, if_true, bind, Except.bind]

/-- The loops of `FromSlice` store `values[r*C + c]` at row `r`, column `c`. -/
theorem FromSlice_loop [Zero α] (R C : Nat) (values : List α) (hlen : values.length = R * C)
    (z : Nat → Nat → α) :
    forLoop R (fun r (st : Matrix α × Int) =>
      forLoop C (fun c (st : Matrix α × Int) => do
        let v ← index values st.2
        let m2 ← Set st.1 c r v
        pure (m2, st.2 + 1)) st) (mk R C z, 0) =
      .ok (mk R C (fun r c => values.getD (r * C + c) 0), ((R * C : Nat) : Int)) := by
  obtain ⟨st, hst, hP⟩ := forLoop_inv
    (fun k (st : Matrix α × Int) =>
      st = (mk R C (fun r c => if r < k then values.getD (r * C + c) 0 else z r c),
        ((k * C : Nat) : Int))) R
    (fun r (st : Matrix α × Int) =>
      forLoop C (fun c (st : Matrix α × Int) => do
        let v ← index values st.2
        let m2 ← Set st.1 c r v
        pure (m2, st.2 + 1)) st) (mk R C z, 0) (by simp) (by
      intro r hr st hP
      obtain ⟨st2, hst2, hQ⟩ := forLoop_inv
        (fun j (st : Matrix α × Int) =>
          st = (mk R C (fun r2 c => if r2 < r ∨ (r2 = r ∧ c < j) then
            values.getD (r2 * C + c) 0 else z r2 c), ((r * C + j : Nat) : Int))) C
        (fun c (st : Matrix α × Int) => do
          let v ← index values st.2
          let m2 ← Set st.1 c r v
          pure (m2, st.2 + 1)) st
        (by
          rw [hP]
          congr 1
          apply mk_congr
          intro r2 _ c _
          simp)
        (by
          intro c hc st3 hQ
          have hlt : r * C + c < values.length := by
            rw [hlen]
            calc r * C + c < r * C + C := by omega
              _ = (r + 1) * C := by ring
              _ ≤ R * C := Nat.mul_le_mul_right C hr
          refine ⟨_, ?_, rfl⟩
          rw [hQ]
          simp only [index_getD values (r * C + c) 0 hlt, Set_mk _ _ _ _ _ _ hr hc, bind,
            Except.bind, pure, Except.pure]
          congr 2
          · apply mk_congr
            intro r2 _ c2 _
            by_cases h1 : r2 = r
            · subst h1
              by_cases h2 : c2 = c
              · subst h2
                simp
              · have : c2 < c + 1 ↔ c2 < c := by omega
                simp [h2, this]
            · simp [h1])
      refine ⟨st2, hst2, ?_⟩
      rw [hQ]
      congr 1
      · apply mk_congr
        intro r2 _ c hc
        have : r2 < r + 1 ↔ (r2 < r ∨ r2 = r) := by omega
        simp [hc, this]
      · push_cast
        ring)
  rw [hst, hP]
  congr 2
  apply mk_congr
  intro r hr c _
  simp [hr]

theorem FromSlice_ok [Zero α] (R C : Nat) (values : List α) (hR : 0 < R) (hC : 0 < C)
    (hlen : values.length = R * C) (hint : R * C < 2 ^ 63) :
    FromSlice (R : Int) (C : Int) values =
      .ok (mk R C (fun r c => values.getD (r * C + c) 0)) := by
  have hw : wrapInt ((R : Int) * (C : Int)) = ((R * C : Nat) : Int) := by
    rw [wrapInt_eq]
    · push_cast
      rfl
    · have : (0 : Int) ≤ (R : Int) * (C : Int) := by positivity
      omega
    · have : ((R * C : Nat) : Int) < 2 ^ 63 := by exact_mod_cast hint
      push_cast at this
      exact this
  have hne : ¬ ((values.length : Int) ≠ wrapInt ((R : Int) * (C : Int))) := by
    rw [hw, hlen]
    simp
  unfold FromSlice
  simp only [hne, if_false, NewEmpty_eq R C hR hC, bind, Except.bind, Int.toNat_ofNat]
  have hloop := FromSlice_loop R C values hlen (fun _ _ => (0 : α))
  simp only [bind, Except.bind] at hloop
  rw [hloop]
  rfl

end FromSliceLemmas

end Mat

/-! ## Which arrays the elementwise operations and `Train` write -/

namespace Ref

section FrameLemmas2

variable {α β γ σ : Type}

theorem keeps_Dims (h0 h : Heap α) (m : Matrix) (hh : h0 <+: h) :
    Keeps h0 (fun _ => True) (Dims m : HeapM α (Int × Int)) h := by
  unfold Dims
  exact keeps_bind h0 h (fun _ => True) _ _ _ (keeps_Columns h0 h m hh)
    (fun c h2 hh2 _ => keeps_pure h0 h2 _ _ hh2 trivial)

theorem keeps_SameDims (h0 h : Heap α) (a b : Matrix) (hh : h0 <+: h) :
    Keeps h0 (fun _ => True) (SameDims a b : HeapM α Bool) h := by
  unfold SameDims
  split
  · refine keeps_bind h0 h (fun _ => True) _ _ _ (keeps_Columns h0 h a hh) ?_
    intro ca h2 hh2 _
    exact keeps_bind h0 h2 (fun _ => True) _ _ _ (keeps_Columns h0 h2 b hh2)
      (fun cb h3 hh3 _ => keeps_pure h0 h3 _ _ hh3 trivial)
  · exact keeps_pure h0 h _ _ hh trivial

/-- The function `add` keeps every array of the store it starts from, and the rows of its
result are new arrays. -/
theorem keeps_add [Ring α] (h0 h : Heap α) (a b : Matrix) (sub : Bool) (hh : h0 <+: h) :
    Keeps h0 (fun m => ∀ r ∈ m, h0.length ≤ r) (add a b sub : HeapM α Matrix) h := by
  unfold add
  refine keeps_bind h0 h (fun _ => True) _ _ _ (keeps_Dims h0 h a hh) ?_
  intro d h2 hh2 _
  refine keeps_bind h0 h2 (fun m => ∀ r ∈ m, h0.length ≤ r) _ _ _
    (keeps_NewEmpty h0 h2 _ _ hh2) ?_
  intro result h3 hh3 hres
  refine keeps_bind h0 h3 (fun _ => True) _ _ _ ?_
    (fun _ h4 hh4 _ => keeps_pure h0 h4 _ _ hh4 hres)
  refine keeps_forLoop h0 (fun _ => True) _ _ ?_ () h3 trivial hh3
  intro r _ h4 _ hh4
  refine keeps_bind h0 h4 (fun _ => True) _ _ _ (keeps_Columns h0 h4 a hh4) ?_
  intro cols h5 hh5 _
  refine keeps_forLoop h0 (fun _ => True) _ _ ?_ () h5 trivial hh5
  intro c _ h6 _ hh6
  refine keeps_bind h0 h6 (fun _ => True) _ _ _ ?_
    (fun value h7 hh7 _ => keeps_Set h0 h7 result _ _ value hh7 hres)
  split
  · refine keeps_bind h0 h6 (fun _ => True) _ _ _ (keeps_Get h0 h6 a _ _ hh6) ?_
    intro u h7 hh7 _
    exact keeps_bind h0 h7 (fun _ => True) _ _ _ (keeps_Get h0 h7 b _ _ hh7)
      (fun v h8 hh8 _ => keeps_pure h0 h8 _ _ hh8 trivial)
  · refine keeps_bind h0 h6 (fun _ => True) _ _ _ (keeps_Get h0 h6 a _ _ hh6) ?_
    intro u h7 hh7 _
    exact keeps_bind h0 h7 (fun _ => True) _ _ _ (keeps_Get h0 h7 b _ _ hh7)
      (fun v h8 hh8 _ => keeps_pure h0 h8 _ _ hh8 trivial)

theorem keeps_Subtract [Ring α] (h0 h : Heap α) (a b : Matrix) (hh : h0 <+: h) :
    Keeps h0 (fun m => ∀ r ∈ m, h0.length ≤ r) (Subtract a b : HeapM α Matrix) h := by
  unfold Subtract
  refine keeps_bind h0 h (fun _ => True) _ _ _ (keeps_SameDims h0 h a b hh) ?_
  intro s h2 hh2 _
  split
  · exact keeps_raise h0 h2 _ _ hh2
  · exact keeps_add h0 h2 a b true hh2

theorem keeps_Add [Ring α] (h0 h : Heap α) (a b : Matrix) (hh : h0 <+: h) :
    Keeps h0 (fun m => ∀ r ∈ m, h0.length ≤ r) (Add a b : HeapM α Matrix) h := by
  unfold Add
  refine keeps_bind h0 h (fun _ => True) _ _ _ (keeps_SameDims h0 h a b hh) ?_
  intro s h2 hh2 _
  split
  · exact keeps_raise h0 h2 _ _ hh2
  · exact keeps_add h0 h2 a b false hh2

theorem keeps_MulElem [Ring α] (h0 h : Heap α) (a b : Matrix) (hh : h0 <+: h) :
    Keeps h0 (fun m => ∀ r ∈ m, h0.length ≤ r) (MulElem a b : HeapM α Matrix) h := by
  unfold MulElem
  refine keeps_bind h0 h (fun _ => True) _ _ _ (keeps_SameDims h0 h a b hh) ?_
  intro s h2 hh2 _
  split
  · exact keeps_raise h0 h2 _ _ hh2
  · refine keeps_bind h0 h2 (fun _ => True) _ _ _ (keeps_Dims h0 h2 a hh2) ?_
    intro d h3 hh3 _
    refine keeps_bind h0 h3 (fun m => ∀ r ∈ m, h0.length ≤ r) _ _ _
      (keeps_NewEmpty h0 h3 _ _ hh3) ?_
    intro result h4 hh4 hres
    refine keeps_bind h0 h4 (fun _ => True) _ _ _ ?_
      (fun _ h5 hh5 _ => keeps_pure h0 h5 _ _ hh5 hres)
    refine keeps_forLoop h0 (fun _ => True) _ _ ?_ () h4 trivial hh4
    intro r _ h5 _ hh5
    refine keeps_bind h0 h5 (fun _ => True) _ _ _ (keeps_Columns h0 h5 a hh5) ?_
    intro cols h6 hh6 _
    refine keeps_forLoop h0 (fun _ => True) _ _ ?_ () h6 trivial hh6
    intro c _ h7 _ hh7
    refine keeps_bind h0 h7 (fun _ => True) _ _ _ (keeps_Get h0 h7 a _ _ hh7) ?_
    intro u h8 hh8 _
    refine keeps_bind h0 h8 (fun _ => True) _ _ _ (keeps_Get h0 h8 b _ _ hh8) ?_
    intro v h9 hh9 _
    exact keeps_Set h0 h9 result _ _ _ hh9 hres

theorem keeps_Transpose [Zero α] (h0 h : Heap α) (m : Matrix) (hh : h0 <+: h) :
    Keeps h0 (fun t => ∀ r ∈ t, h0.length ≤ r) (Transpose m : HeapM α Matrix) h := by
  unfold Transpose
  refine keeps_bind h0 h (fun _ => True) _ _ _ (keeps_Columns h0 h m hh) ?_
  intro cols h2 hh2 _
  refine keeps_forLoop h0 (fun t => ∀ r ∈ t, h0.length ≤ r) _ _ ?_ [] h2 (by simp) hh2
  intro c data h3 hI hh3
  refine keeps_bind h0 h3 (fun a => h0.length ≤ a) _ _ _ (keeps_make h0 h3 _ hh3) ?_
  intro column h4 hh4 hcol
  refine keeps_bind h0 h4 (fun _ => True) _ _ _ ?_
    (fun _ h5 hh5 _ => keeps_pure h0 h5 _ _ hh5 (fresh_append h0 data column hI hcol))
  refine keeps_forLoop h0 (fun _ => True) _ _ ?_ () h4 trivial hh4
  intro r _ h5 _ hh5
  refine keeps_bind h0 h5 (fun _ => True) _ _ _ (keeps_Get h0 h5 m _ _ hh5) ?_
  intro v h6 hh6 _
  refine keeps_bind h0 h6 (fun _ => True) _ _ _ (keeps_load h0 h6 column hh6) ?_
  intro cur h7 hh7 _
  exact keeps_store h0 h7 column _ hh7 hcol

theorem keeps_Copy (h0 h : Heap α) (m : Matrix) (hh : h0 <+: h) :
    Keeps h0 (fun t => ∀ r ∈ t, h0.length ≤ r) (Copy m : HeapM α Matrix) h := by
  unfold Copy
  refine keeps_forLoop h0 (fun t => ∀ r ∈ t, h0.length ≤ r) _ _ ?_ [] h (by simp) hh
  intro i data h2 hI hh2
  refine keeps_bind h0 h2 (fun _ => True) _ _ _
    (keeps_lift h0 h2 _ _ hh2 (fun _ _ => trivial)) ?_
  intro a h3 hh3 _
  refine keeps_bind h0 h3 (fun _ => True) _ _ _ (keeps_load h0 h3 a hh3) ?_
  intro row h4 hh4 _
  refine keeps_bind h0 h4 (fun b => h0.length ≤ b) _ _ _ (keeps_make h0 h4 _ hh4) ?_
  intro b h5 hh5 hb
  exact keeps_pure h0 h5 _ _ hh5 (fresh_append h0 data b hI hb)

theorem keeps_Scale [Mul α] (h0 h : Heap α) (m : Matrix) (scale : α) (hh : h0 <+: h)
    (hm : ∀ a ∈ m, h0.length ≤ a) :
    Keeps h0 (fun _ => True) (Scale m scale) h :=
  keeps_Apply h0 h m _ hh hm

/-- One iteration of the backward loop of `Train` keeps every array of the store it starts
from: it writes only into arrays that it has allocated. -/
theorem keeps_backStep [Field α] (h0 h : Heap α) (net : Network α) (data : Training.Data α)
    (outputs : List Matrix) (j : Nat) (st : BackState) (hh : h0 <+: h) :
    Keeps h0 (fun _ => True) (backStep net data outputs j st : HeapM α BackState) h := by
  unfold backStep
  refine keeps_bind h0 h (fun _ => True) _ _ _ ?_ ?_
  · split
    · refine keeps_bind h0 h (fun _ => True) _ _ _
        (keeps_lift h0 h _ _ hh (fun _ _ => trivial)) ?_
      intro o h2 hh2 _
      refine keeps_bind h0 h2 (fun _ => True) _ _ _
        (keeps_mono h0 h2 _ _ _ (keeps_NewColumn h0 h2 _ hh2) (fun _ _ => trivial)) ?_
      intro target h3 hh3 _
      exact keeps_mono h0 h3 _ _ _ (keeps_Subtract h0 h3 o target hh3) (fun _ _ => trivial)
    · refine keeps_bind h0 h (fun _ => True) _ _ _
        (keeps_lift h0 h _ _ hh (fun _ _ => trivial)) ?_
      intro w h2 hh2 _
      refine keeps_bind h0 h2 (fun _ => True) _ _ _
        (keeps_mono h0 h2 _ _ _ (keeps_Transpose h0 h2 w hh2) (fun _ _ => trivial)) ?_
      intro t h3 hh3 _
      exact keeps_mono h0 h3 _ _ _ (keeps_Dot h0 h3 t _ hh3) (fun _ _ => trivial)
  · intro dErrorWrtOutput h2 hh2 _
    refine keeps_bind h0 h2 (fun _ => True) _ _ _
      (keeps_lift h0 h2 _ _ hh2 (fun _ _ => trivial)) ?_
    intro o h3 hh3 _
    refine keeps_bind h0 h3 (fun t => ∀ r ∈ t, h0.length ≤ r) _ _ _
      (keeps_Copy h0 h3 o hh3) ?_
    intro dOutputWrtSum h4 hh4 hfresh
    refine keeps_bind h0 h4 (fun _ => True) _ _ _
      (keeps_Apply h0 h4 dOutputWrtSum _ hh4 hfresh) ?_
    intro _ h5 hh5 _
    refine keeps_bind h0 h5 (fun _ => True) _ _ _
      (keeps_lift h0 h5 _ _ hh5 (fun _ _ => trivial)) ?_
    intro dSumWrtWeights h6 hh6 _
    refine keeps_bind h0 h6 (fun _ => True) _ _ _
      (keeps_mono h0 h6 _ _ _ (keeps_MulElem h0 h6 _ _ hh6) (fun _ _ => trivial)) ?_
    intro m h7 hh7 _
    refine keeps_bind h0 h7 (fun _ => True) _ _ _
      (keeps_mono h0 h7 _ _ _ (keeps_Transpose h0 h7 _ hh7) (fun _ _ => trivial)) ?_
    intro t h8 hh8 _
    refine keeps_bind h0 h8 (fun d => ∀ r ∈ d, h0.length ≤ r) _ _ _
      (keeps_Dot h0 h8 m t hh8) ?_
    intro deltaWeights h9 hh9 hd
    refine keeps_bind h0 h9 (fun _ => True) _ _ _
      (keeps_Scale h0 h9 deltaWeights _ hh9 hd) ?_
    intro _ h10 hh10 _
    refine keeps_bind h0 h10 (fun _ => True) _ _ _
      (keeps_lift h0 h10 _ _ hh10 (fun _ _ => trivial)) ?_
    intro _ h11 hh11 _
    exact keeps_pure h0 h11 _ _ hh11 trivial

theorem keeps_trainDeltas [Field α] (exp : α → α) (h0 h : Heap α) (net : Network α)
    (data : Training.Data α) (hh : h0 <+: h) :
    Keeps h0 (fun _ => True) (trainDeltas exp net data : HeapM α (List Matrix)) h := by
  unfold trainDeltas
  refine keeps_bind h0 h (fun _ => True) _ _ _
    (keeps_layerOutputs exp h0 h net data.Input hh) ?_
  intro outputs h2 hh2 _
  split
  · exact keeps_raise h0 h2 _ _ hh2
  · refine keeps_bind h0 h2 (fun _ => True) _ _ _ ?_
      (fun st h3 hh3 _ => keeps_pure h0 h3 _ _ hh3 trivial)
    refine keeps_forLoop h0 (fun _ => True) _ _ ?_ _ h2 trivial hh2
    intro j st h3 _ hh3
    exact keeps_backStep h0 h3 net data outputs j st hh3

theorem applyDeltas_prefix [Field α] (h0 : Heap α) (net : Network α) (i : Nat)
    (deltas : List Matrix) (h : Heap α) (hh : h0 <+: h) :
    h0 <+: (applyDeltas net i deltas h).2 := by
  induction deltas generalizing net i h with
  | nil => exact hh
  | cons delta rest ih =>
    unfold applyDeltas
    cases hi : index net.Weights (i : Int) with
    | error e => exact hh
    | ok w =>
      have hk := (keeps_Subtract h0 h w delta hh).1
      rcases hs : Subtract w delta h with ⟨r, h2⟩
      rw [hs] at hk
      cases r with
      | error e =>
        simp only [hs]
        exact hk
      | ok w2 =>
        simp only [hs]
        exact ih _ _ h2 hk

/-- `Train` keeps every array of the store it starts from, whether it panics or not. -/
theorem Train_prefix [Field α] (exp : α → α) (h0 : Heap α) (net : Network α)
    (data : Training.Data α) (h : Heap α) (hh : h0 <+: h) :
    h0 <+: (Train exp net data h).2 := by
  have hk := (keeps_trainDeltas exp h0 h net data hh).1
  unfold Train
  rcases hs : trainDeltas exp net data h with ⟨r, h2⟩
  rw [hs] at hk
  cases r with
  | error e => exact hk
  | ok deltas => exact applyDeltas_prefix h0 net 0 deltas h2 hk

/-- A panic in the first part of `Train` leaves the network as it is. -/
theorem Train_error_net [Field α] (exp : α → α) (net : Network α) (data : Training.Data α)
    (h h2 : Heap α) (e : Err) (hs : trainDeltas exp net data h = (.error e, h2)) :
    Train exp net data h = ((net, .error e), h2) := by
  unfold Train
  rw [hs]

end FrameLemmas2
end Ref

/-! ## The elementwise operations on matrices held by reference -/

namespace Ref

section ElementwiseRun

variable {α β σ : Type}

theorem Rows_deref (m : Matrix) (h : Heap α) : Rows m = Mat.Rows (deref h m) := by
  simp [Rows, Mat.Rows, deref]

theorem Dims_run (m : Matrix) (h : Heap α) :
    (Dims m : HeapM α (Int × Int)) h = (Mat.Dims (deref h m), h) := by
  unfold Dims Mat.Dims
  rw [bind_run, Columns_run, Rows_deref m h]
  cases Mat.Columns (deref h m) <;> rfl

theorem SameDims_run (a b : Matrix) (h : Heap α) :
    (SameDims a b : HeapM α Bool) h = (Mat.SameDims (deref h a) (deref h b), h) := by
  unfold SameDims Mat.SameDims
  rw [← Rows_deref a h, ← Rows_deref b h]
  split
  · rw [bind_run, Columns_run]
    cases hca : Mat.Columns (deref h a) with
    | error e => rfl
    | ok ca =>
      simp only [bind, Except.bind]
      rw [Columns_run]
      cases hcb : Mat.Columns (deref h b) <;> rfl
  · rfl

/-- On rectangular operands of the same shape stored in `h`, the reference-level `add`
allocates the rows of its result after `h`, fills them with the sums or differences, and
leaves `h` as it is. -/
theorem add_run [Ring α] (h : Heap α) (a b : Matrix) (R C : Nat) (fa fb : Nat → Nat → α)
    (sub : Bool) (ha : deref h a = Mat.mk R C fa) (hb : deref h b = Mat.mk R C fb)
    (hva : ∀ x ∈ a, x < h.length) (hvb : ∀ x ∈ b, x < h.length) (hR : 0 < R) (hC : 0 < C) :
    (add a b sub : HeapM α Matrix) h =
      (.ok (tab R (fun i => h.length + i)),
        h ++ Mat.mk R C (fun r c => if sub then fa r c - fb r c else fa r c + fb r c)) := by
  have hRa : Rows a = (R : Int) := by
    rw [Rows_deref a h, ha, Mat.Rows_mk]
  have hda : ∀ f, deref (h ++ Mat.mk R C f) a = Mat.mk R C fa := fun f => by
    rw [deref_append h _ a hva, ha]
  have hdb : ∀ f, deref (h ++ Mat.mk R C f) b = Mat.mk R C fb := fun f => by
    rw [deref_append h _ b hvb, hb]
  have hD : (Dims a : HeapM α (Int × Int)) h = (.ok ((R : Int), (C : Int)), h) := by
    rw [Dims_run, ha, Mat.Dims_mk _ _ _ hR]
  have hCa2 : ∀ f, (Columns a : HeapM α Int) (h ++ Mat.mk R C f) =
      (.ok (C : Int), h ++ Mat.mk R C f) := fun f => by
    rw [Columns_run, hda, Mat.Columns_mk _ _ _ hR]
  unfold add
  rw [bind_run_ok _ _ _ _ _ hD]
  simp only []
  rw [bind_run_ok _ _ _ _ _ (NewEmpty_run h R C hR hC), hRa]
  simp only [Int.toNat_ofNat]
  rw [bind_run_ok _ _ _ _ () (fill_loop_run h R C _
    (fun r c _ => do
      let value ← (
        if sub then do
          let u ← Get a c r
          let v ← Get b c r
          pure (u - v)
        else do
          let u ← Get a c r
          let v ← Get b c r
          pure (u + v))
      Set (tab R (fun i => h.length + i)) c r value)
    (fun r c => if sub then fa r c - fb r c else fa r c + fb r c) (fun _ _ => 0) ?_ ?_)]
  · rfl
  · intro r _ f
    rw [bind_run_ok _ _ _ _ _ (hCa2 f)]
    rfl
  · intro r hr c hc f
    beta_reduce
    cases sub with
    | true =>
      simp only [if_true]
      rw [bind_run_ok _ _ _ (h ++ Mat.mk R C f) (fa r c - fb r c) ?_]
      rw [bind_run_ok _ _ _ (h ++ Mat.mk R C f) (fa r c)
        (by rw [Get_run, hda, Mat.Get_mk _ _ _ _ _ hr hc])]
      rw [bind_run_ok _ _ _ (h ++ Mat.mk R C f) (fb r c)
        (by rw [Get_run, hdb, Mat.Get_mk _ _ _ _ _ hr hc])]
      rfl
    | false =>
      simp only [Bool.false_eq_true, if_false]
      rw [bind_run_ok _ _ _ (h ++ Mat.mk R C f) (fa r c + fb r c) ?_]
      rw [bind_run_ok _ _ _ (h ++ Mat.mk R C f) (fa r c)
        (by rw [Get_run, hda, Mat.Get_mk _ _ _ _ _ hr hc])]
      rw [bind_run_ok _ _ _ (h ++ Mat.mk R C f) (fb r c)
        (by rw [Get_run, hdb, Mat.Get_mk _ _ _ _ _ hr hc])]
      rfl

theorem Subtract_run [Ring α] (h : Heap α) (a b : Matrix) (R C : Nat)
    (fa fb : Nat → Nat → α) (ha : deref h a = Mat.mk R C fa) (hb : deref h b = Mat.mk R C fb)
    (hva : ∀ x ∈ a, x < h.length) (hvb : ∀ x ∈ b, x < h.length) (hR : 0 < R) (hC : 0 < C) :
    (Subtract a b : HeapM α Matrix) h =
      (.ok (tab R (fun i => h.length + i)), h ++ Mat.mk R C (fun r c => fa r c - fb r c)) := by
  unfold Subtract
  rw [bind_run_ok _ _ _ h true (by
    rw [SameDims_run, ha, hb, Mat.SameDims_mk _ _ _ _ _ _ hR hR]
    simp)]
  simp only [Bool.not_true, Bool.false_eq_true, if_false]
  rw [add_run h a b R C fa fb true ha hb hva hvb hR hC]
  simp only [if_true]

theorem Add_run [Ring α] (h : Heap α) (a b : Matrix) (R C : Nat)
    (fa fb : Nat → Nat → α) (ha : deref h a = Mat.mk R C fa) (hb : deref h b = Mat.mk R C fb)
    (hva : ∀ x ∈ a, x < h.length) (hvb : ∀ x ∈ b, x < h.length) (hR : 0 < R) (hC : 0 < C) :
    (Add a b : HeapM α Matrix) h =
      (.ok (tab R (fun i => h.length + i)), h ++ Mat.mk R C (fun r c => fa r c + fb r c)) := by
  unfold Add
  rw [bind_run_ok _ _ _ h true (by
    rw [SameDims_run, ha, hb, Mat.SameDims_mk _ _ _ _ _ _ hR hR]
    simp)]
  simp only [Bool.not_true, Bool.false_eq_true, if_false]
  rw [add_run h a b R C fa fb false ha hb hva hvb hR hC]
  simp only [Bool.false_eq_true, if_false]

theorem MulElem_run [Ring α] (h : Heap α) (a b : Matrix) (R C : Nat)
    (fa fb : Nat → Nat → α) (ha : deref h a = Mat.mk R C fa) (hb : deref h b = Mat.mk R C fb)
    (hva : ∀ x ∈ a, x < h.length) (hvb : ∀ x ∈ b, x < h.length) (hR : 0 < R) (hC : 0 < C) :
    (MulElem a b : HeapM α Matrix) h =
      (.ok (tab R (fun i => h.length + i)), h ++ Mat.mk R C (fun r c => fa r c * fb r c)) := by
  have hRa : Rows a = (R : Int) := by
    rw [Rows_deref a h, ha, Mat.Rows_mk]
  have hda : ∀ f, deref (h ++ Mat.mk R C f) a = Mat.mk R C fa := fun f => by
    rw [deref_append h _ a hva, ha]
  have hdb : ∀ f, deref (h ++ Mat.mk R C f) b = Mat.mk R C fb := fun f => by
    rw [deref_append h _ b hvb, hb]
  have hD : (Dims a : HeapM α (Int × Int)) h = (.ok ((R : Int), (C : Int)), h) := by
    rw [Dims_run, ha, Mat.Dims_mk _ _ _ hR]
  have hCa2 : ∀ f, (Columns a : HeapM α Int) (h ++ Mat.mk R C f) =
      (.ok (C : Int), h ++ Mat.mk R C f) := fun f => by
    rw [Columns_run, hda, Mat.Columns_mk _ _ _ hR]
  unfold MulElem
  rw [bind_run_ok _ _ _ h true (by
    rw [SameDims_run, ha, hb, Mat.SameDims_mk _ _ _ _ _ _ hR hR]
    simp)]
  simp only [Bool.not_true, Bool.false_eq_true, if_false]
  rw [bind_run_ok _ _ _ _ _ hD]
  simp only []
  rw [bind_run_ok _ _ _ _ _ (NewEmpty_run h R C hR hC), hRa]
  simp only [Int.toNat_ofNat]
  rw [bind_run_ok _ _ _ _ () (fill_loop_run h R C _
    (fun r c _ => do
      let u ← Get a c r
      let v ← Get b c r
      Set (tab R (fun i => h.length + i)) c r (u * v))
    (fun r c => fa r c * fb r c) (fun _ _ => 0) ?_ ?_)]
  · rfl
  · intro r _ f
    rw [bind_run_ok _ _ _ _ _ (hCa2 f)]
    rfl
  · intro r hr c hc f
    beta_reduce
    rw [bind_run_ok _ _ _ (h ++ Mat.mk R C f) (fa r c)
      (by rw [Get_run, hda, Mat.Get_mk _ _ _ _ _ hr hc])]
    rw [bind_run_ok _ _ _ (h ++ Mat.mk R C f) (fb r c)
      (by rw [Get_run, hdb, Mat.Get_mk _ _ _ _ _ hr hc])]

theorem Subtract_run_mismatch [Ring α] (h : Heap α) (a b : Matrix)
    (hs : Mat.SameDims (deref h a) (deref h b) = .ok false) :
    (Subtract a b : HeapM α Matrix) h = (.error .errSubtractionSize, h) := by
  unfold Subtract
  rw [bind_run_ok _ _ _ h false (by rw [SameDims_run, hs])]
  rfl

theorem Add_run_mismatch [Ring α] (h : Heap α) (a b : Matrix)
    (hs : Mat.SameDims (deref h a) (deref h b) = .ok false) :
    (Add a b : HeapM α Matrix) h = (.error .errAdditionSize, h) := by
  unfold Add
  rw [bind_run_ok _ _ _ h false (by rw [SameDims_run, hs])]
  rfl

theorem MulElem_run_mismatch [Ring α] (h : Heap α) (a b : Matrix)
    (hs : Mat.SameDims (deref h a) (deref h b) = .ok false) :
    (MulElem a b : HeapM α Matrix) h = (.error .errMulElemSize, h) := by
  unfold MulElem
  rw [bind_run_ok _ _ _ h false (by rw [SameDims_run, hs])]
  rfl

end ElementwiseRun
end Ref

namespace Mat

section ElementwiseOutcome

variable {α : Type}

theorem SameDims_isMat [Zero α] (a b : Matrix α) (R C R2 C2 : Nat) (ha : IsMat a R C)
    (hb : IsMat b R2 C2) (hR : 0 < R) (hR2 : 0 < R2) :
    SameDims a b = .ok (decide (R = R2 ∧ C = C2)) := by
  have h := SameDims_mk R C R2 C2 (entry a) (entry b) hR hR2
  rw [← ha.eq_mk, ← hb.eq_mk] at h
  exact h

theorem Add_mismatch [Ring α] (a b : Matrix α) (hs : SameDims a b = .ok false) :
    Add a b = .error .errAdditionSize := by
  simp only [Add, hs, bind, Except.bind, Bool.not_false, if_true]

theorem Subtract_mismatch [Ring α] (a b : Matrix α) (hs : SameDims a b = .ok false) :
    Subtract a b = .error .errSubtractionSize := by
  simp only [Subtract, hs, bind, Except.bind, Bool.not_false, if_true]

theorem MulElem_mismatch [Ring α] (a b : Matrix α) (hs : SameDims a b = .ok false) :
    MulElem a b = .error .errMulElemSize := by
  simp only [MulElem, hs, bind, Except.bind, Bool.not_false, if_true]

theorem Add_isMat [Ring α] (a b : Matrix α) (R C : Nat) (ha : IsMat a R C) (hb : IsMat b R C)
    (hR : 0 < R) (hC : 0 < C) :
    Add a b = .ok (mk R C (fun r c => entry a r c + entry b r c)) := by
  have h := Add_mk R C (entry a) (entry b) hR hC
  rw [← ha.eq_mk, ← hb.eq_mk] at h
  exact h

theorem Subtract_isMat_eq [Ring α] (a b : Matrix α) (R C : Nat) (ha : IsMat a R C)
    (hb : IsMat b R C) (hR : 0 < R) (hC : 0 < C) :
    Subtract a b = .ok (mk R C (fun r c => entry a r c - entry b r c)) := by
  have h := Subtract_mk R C (entry a) (entry b) hR hC
  rw [← ha.eq_mk, ← hb.eq_mk] at h
  exact h

theorem MulElem_isMat_eq [Ring α] (a b : Matrix α) (R C : Nat) (ha : IsMat a R C)
    (hb : IsMat b R C) (hR : 0 < R) (hC : 0 < C) :
    MulElem a b = .ok (mk R C (fun r c => entry a r c * entry b r c)) := by
  have h := MulElem_mk R C (entry a) (entry b) hR hC
  rw [← ha.eq_mk, ← hb.eq_mk] at h
  exact h

end ElementwiseOutcome

end Mat

namespace Ref

section ElementwiseRefines

variable {α : Type}

/-- The reference-level `Add` leaves the store it starts from as it is, and its outcome
denotes the outcome of the value-level `Add` on the matrices that its operands denote. -/
theorem Add_refines [Ring α] (h : Heap α) (ra rb : Matrix) (a b : Mat.Matrix α)
    (R C R2 C2 : Nat) (ha : Mat.IsMat a R C) (hb : Mat.IsMat b R2 C2) (hR : 0 < R)
    (hC : 0 < C) (hR2 : 0 < R2) (hva : ∀ x ∈ ra, x < h.length)
    (hvb : ∀ x ∈ rb, x < h.length) (hda : deref h ra = a) (hdb : deref h rb = b) :
    h <+: (Add ra rb h).2 ∧ deref (Add ra rb h).2 ra = a ∧ deref (Add ra rb h).2 rb = b ∧
      (Add ra rb h).1.map (deref (Add ra rb h).2) = Mat.Add a b := by
  have hk := (keeps_Add h h ra rb (List.prefix_refl h)).1
  refine ⟨hk, by rw [prefix_deref h _ hk ra hva, hda], by rw [prefix_deref h _ hk rb hvb, hdb],
    ?_⟩
  have hs := Mat.SameDims_isMat a b R C R2 C2 ha hb hR hR2
  by_cases hsh : R = R2 ∧ C = C2
  · obtain ⟨rfl, rfl⟩ := hsh
    rw [Add_run h ra rb R C (Mat.entry a) (Mat.entry b) (by rw [hda]; exact ha.eq_mk)
      (by rw [hdb]; exact hb.eq_mk) hva hvb hR hC, Mat.Add_isMat a b R C ha hb hR hC]
    simp only [Except.map, deref_fresh_mk]
  · simp only [hsh, decide_False] at hs
    rw [Add_run_mismatch h ra rb (by rw [hda, hdb]; exact hs), Mat.Add_mismatch a b hs]
    rfl

/-- The reference-level `Subtract` leaves the store it starts from as it is, and its
outcome denotes the outcome of the value-level `Subtract`. -/
theorem Subtract_refines [Ring α] (h : Heap α) (ra rb : Matrix) (a b : Mat.Matrix α)
    (R C R2 C2 : Nat) (ha : Mat.IsMat a R C) (hb : Mat.IsMat b R2 C2) (hR : 0 < R)
    (hC : 0 < C) (hR2 : 0 < R2) (hva : ∀ x ∈ ra, x < h.length)
    (hvb : ∀ x ∈ rb, x < h.length) (hda : deref h ra = a) (hdb : deref h rb = b) :
    h <+: (Subtract ra rb h).2 ∧ deref (Subtract ra rb h).2 ra = a ∧
      deref (Subtract ra rb h).2 rb = b ∧
      (Subtract ra rb h).1.map (deref (Subtract ra rb h).2) = Mat.Subtract a b := by
  have hk := (keeps_Subtract h h ra rb (List.prefix_refl h)).1
  refine ⟨hk, by rw [prefix_deref h _ hk ra hva, hda], by rw [prefix_deref h _ hk rb hvb, hdb],
    ?_⟩
  have hs := Mat.SameDims_isMat a b R C R2 C2 ha hb hR hR2
  by_cases hsh : R = R2 ∧ C = C2
  · obtain ⟨rfl, rfl⟩ := hsh
    rw [Subtract_run h ra rb R C (Mat.entry a) (Mat.entry b) (by rw [hda]; exact ha.eq_mk)
      (by rw [hdb]; exact hb.eq_mk) hva hvb hR hC, Mat.Subtract_isMat_eq a b R C ha hb hR hC]
    simp only [Except.map, deref_fresh_mk]
  · simp only [hsh, decide_False] at hs
    rw [Subtract_run_mismatch h ra rb (by rw [hda, hdb]; exact hs),
      Mat.Subtract_mismatch a b hs]
    rfl

/-- The reference-level `MulElem` leaves the store it starts from as it is, and its
outcome denotes the outcome of the value-level `MulElem`. -/
theorem MulElem_refines [Ring α] (h : Heap α) (ra rb : Matrix) (a b : Mat.Matrix α)
    (R C R2 C2 : Nat) (ha : Mat.IsMat a R C) (hb : Mat.IsMat b R2 C2) (hR : 0 < R)
    (hC : 0 < C) (hR2 : 0 < R2) (hva : ∀ x ∈ ra, x < h.length)
    (hvb : ∀ x ∈ rb, x < h.length) (hda : deref h ra = a) (hdb : deref h rb = b) :
    h <+: (MulElem ra rb h).2 ∧ deref (MulElem ra rb h).2 ra = a ∧
      deref (MulElem ra rb h).2 rb = b ∧
      (MulElem ra rb h).1.map (deref (MulElem ra rb h).2) = Mat.MulElem a b := by
  have hk := (keeps_MulElem h h ra rb (List.prefix_refl h)).1
  refine ⟨hk, by rw [prefix_deref h _ hk ra hva, hda], by rw [prefix_deref h _ hk rb hvb, hdb],
    ?_⟩
  have hs := Mat.SameDims_isMat a b R C R2 C2 ha hb hR hR2
  by_cases hsh : R = R2 ∧ C = C2
  · obtain ⟨rfl, rfl⟩ := hsh
    rw [MulElem_run h ra rb R C (Mat.entry a) (Mat.entry b) (by rw [hda]; exact ha.eq_mk)
      (by rw [hdb]; exact hb.eq_mk) hva hvb hR hC, Mat.MulElem_isMat_eq a b R C ha hb hR hC]
    simp only [Except.map, deref_fresh_mk]
  · simp only [hsh, decide_False] at hs
    rw [MulElem_run_mismatch h ra rb (by rw [hda, hdb]; exact hs),
      Mat.MulElem_mismatch a b hs]
    rfl

end ElementwiseRefines

end Ref

/-! ## Failing calls of `Train` -/

namespace Mat

theorem SameDims_rows_ne {α : Type} (a b : Matrix α) (h : Rows a ≠ Rows b) :
    SameDims a b = .ok false := by
  simp only [SameDims, h, if_false]
  rfl

end Mat

namespace Network

open Mat Activation Training

section TrainFailure

variable {α : Type} [Field α]

/-- A panic in the first part of `Train` leaves the network as it is. -/
theorem Train_phase_error (exp : α → α) (net : Network α) (data : Data α) (e : Err)
    (h : trainDeltas exp net data = .error e) : Train exp net data = (net, .error e) := by
  unfold Train
  rw [h]

theorem Train_wrong_input (exp : α → α) (net : Network α) (data : Data α)
    (h : (data.Input.length : Int) ≠ net.InputSize) :
    Train exp net data = (net, .error .errInputsSize) := by
  apply Train_phase_error
  simp only [trainDeltas, layerOutputs_wrong_size exp net data.Input h, bind, Except.bind]

theorem backStep_wrong_target (net : Network α) (data : Data α) (outs : List (Matrix α))
    (n : Nat) (deltas : List (Matrix α)) (hlen : 0 < outs.length)
    (hout : IsMat (outs.getD (outs.length - 1) []) n 1) (htg : data.Target.length ≠ n) :
    backStep net data outs 0 ⟨true, [], deltas⟩ = .error .errSubtractionSize := by
  have hi : index outs ((outs.length : Int) - 1 - ((0 : Nat) : Int)) =
      .ok (outs.getD (outs.length - 1) []) := by
    have h1 : (outs.length : Int) - 1 - ((0 : Nat) : Int) = ((outs.length - 1 : Nat) : Int) := by
      omega
    rw [h1]
    exact index_getD outs _ [] (by omega)
  have hrows : Rows (outs.getD (outs.length - 1) []) ≠ Rows data.TargetMatrix := by
    simp only [Rows, hout.1, Data.TargetMatrix, NewColumn, List.length_map]
    omega
  have hsub := Subtract_mismatch (outs.getD (outs.length - 1) []) data.TargetMatrix
    (SameDims_rows_ne _ _ hrows)
  simp only [backStep, hi, hsub, bind, Except.bind, if_true]

theorem Train_wrong_target (exp : α → α) (net : Network α) (sizes : List Nat) (data : Data α)
    (hinv : ShapeInv net sizes) (hin : data.Input.length = sizes.getD 0 0)
    (htg : data.Target.length ≠ sizes.getD (sizes.length - 1) 0) :
    Train exp net data = (net, .error .errSubtractionSize) := by
  obtain ⟨outs, houts, _, hlen, hshape⟩ := hinv.layerOutputs_ok exp net sizes data.Input hin
  have hL := hinv.1
  apply Train_phase_error
  have hnn : ¬ ((outs.length : Int) - 1 < 0) := by omega
  have hstep := backStep_wrong_target net data outs (sizes.getD (sizes.length - 1) 0)
    (List.replicate (outs.length - 1) []) (by omega)
    (by rw [hlen]; exact hshape _ (by omega)) htg
  have hloop := forLoop_error (outs.length - 1) 0 (backStep net data outs)
    ⟨true, [], List.replicate (outs.length - 1) []⟩ _ _ (forLoop_zero _ _) hstep (by omega)
  simp only [trainDeltas, houts, hnn, if_false, hloop, bind, Except.bind]
  rfl

end TrainFailure

end Network

namespace Ref

section TrainFailureRun

variable {α σ : Type}

theorem forLoop_run_first_error (n : Nat) (body : Nat → σ → HeapM α σ) (s : σ)
    (h h2 : Heap α) (e : Err) (hb : body 0 s h = (.error e, h2)) :
    forLoop (n + 1) body s h = (.error e, h2) := by
  induction n with
  | zero =>
    rw [forLoop_run_succ, forLoop_run_zero]
    exact hb
  | succ n ih =>
    rw [forLoop_run_succ, ih]

theorem Train_run_wrong_input [Field α] (exp : α → α) (net : Network α)
    (data : Training.Data α) (h : Heap α) (hne : (data.Input.length : Int) ≠ net.InputSize) :
    Train exp net data h = ((net, .error .errInputsSize), h) := by
  apply Train_error_net
  unfold trainDeltas layerOutputs
  simp only [hne, ne_eq, not_false_eq_true, if_true]
  rfl

theorem Train_run_wrong_target [Field α] (exp : α → α) (h : Heap α) (net : Network α)
    (sizes : List Nat) (data : Training.Data α)
    (hinv : Gonet.Network.ShapeInv (derefNet h net) sizes)
    (hv : ∀ W ∈ net.Weights, ∀ a ∈ W, a < h.length)
    (hin : data.Input.length = sizes.getD 0 0)
    (htg : data.Target.length ≠ sizes.getD (sizes.length - 1) 0) :
    (Train exp net data h).1 = (net, .error .errSubtractionSize) := by
  obtain ⟨refs, hf, outs, hrun, hval, hmap⟩ :=
    layerOutputs_run exp h net sizes data.Input hinv hv hin
  obtain ⟨outs2, houts2, _, hlen2, hshape⟩ :=
    Gonet.Network.ShapeInv.layerOutputs_ok exp (derefNet h net) sizes data.Input hinv hin
  rw [hval] at houts2
  cases houts2
  have hL := hinv.1
  have hlen : refs.length = sizes.length := by
    rw [← hlen2, ← hmap, List.length_map]
  have hnn : ¬ ((refs.length : Int) - 1 < 0) := by omega
  have hi : index refs ((refs.length : Int) - 1 - ((0 : Nat) : Int)) =
      .ok (refs.getD (sizes.length - 1) []) := by
    have h1 : (refs.length : Int) - 1 - ((0 : Nat) : Int) = ((sizes.length - 1 : Nat) : Int) := by
      omega
    rw [h1]
    exact index_getD refs _ [] (by omega)
  have hrowsO : (refs.getD (sizes.length - 1) []).length = sizes.getD (sizes.length - 1) 0 := by
    have h1 := (hshape (sizes.length - 1) (by omega)).1
    rw [← hmap] at h1
    have h2 : (refs.map (deref hf)).getD (sizes.length - 1) [] =
        deref hf (refs.getD (sizes.length - 1) []) := getD_map_deref _ _ _
    rw [h2] at h1
    simpa [deref] using h1
  have hstep : backStep net data refs 0
      ⟨true, [], List.replicate (refs.length - 1) []⟩ hf =
      (.error .errSubtractionSize, hf ++ Mat.NewColumn data.Target) := by
    unfold backStep
    simp only [if_true]
    rw [bind_run]
    rw [bind_run_ok _ _ _ hf (refs.getD (sizes.length - 1) []) (by rw [hi]; rfl)]
    rw [bind_run_ok _ _ _ _ _ (NewColumn_run data.Target hf)]
    rw [Subtract_run_mismatch _ _ _ (by
      apply Mat.SameDims_rows_ne
      simp only [Mat.Rows, deref, List.length_map, tab_length, hrowsO]
      omega)]
  have hd : trainDeltas exp net data h =
      (.error .errSubtractionSize, hf ++ Mat.NewColumn data.Target) := by
    unfold trainDeltas
    rw [bind_run_ok _ _ _ _ _ hrun]
    simp only [hnn, if_false]
    obtain ⟨n, hn⟩ : ∃ n, refs.length - 1 = n + 1 := ⟨refs.length - 2, by omega⟩
    rw [bind_run]
    have hstep2 := hstep
    rw [hn] at hstep2 ⊢
    rw [forLoop_run_first_error n _ _ hf _ _ hstep2]
  rw [Train_error_net exp net data h _ _ hd]

theorem prefix_derefNet (h0 h : Heap α) (hh : h0 <+: h) (net : Network α)
    (hv : ∀ W ∈ net.Weights, ∀ a ∈ W, a < h0.length) : derefNet h net = derefNet h0 net := by
  unfold derefNet
  congr 1
  apply List.map_congr_left
  intro W hW
  exact prefix_deref h0 h hh W (hv W hW)

end TrainFailureRun

end Ref

/-! ## Repeated training on one sample -/

theorem list_ext_getD {β : Type} (l1 l2 : List β) (d : β) (hlen : l1.length = l2.length)
    (h : ∀ i, i < l1.length → l1.getD i d = l2.getD i d) : l1 = l2 := by
  apply List.ext_getElem hlen
  intro i h1 h2
  have := h i h1
  simpa [List.getD_eq_getElem?_getD, List.getElem?_eq_getElem h1,
    List.getElem?_eq_getElem h2] using this

namespace Network

open Mat Activation Training

section Repeated

variable {α : Type} [Field α]

theorem Train_ok_shape (exp : α → α) (net : Network α) (sizes : List Nat) (data : Data α)
    (hinv : ShapeInv net sizes) (hin : data.Input.length = sizes.getD 0 0)
    (htg : data.Target.length = sizes.getD (sizes.length - 1) 0) :
    ∃ net2, Train exp net data = (net2, .ok ()) ∧ ShapeInv net2 sizes ∧
      net2.LearningRate = net.LearningRate := by
  obtain ⟨acts, errs, net2, _, _, _, _, h5, h6, h7, h8, h9, h10⟩ :=
    Train_spec exp net sizes data hinv hin htg
  refine ⟨net2, h5, ⟨hinv.1, hinv.2.1, ?_, ?_, h9, ?_⟩, h8⟩
  · show net2.InputSize = _
    rw [h6]
    exact hinv.2.2.1
  · show net2.Layers = _
    rw [h7]
    exact hinv.2.2.2.1
  · intro i hi
    obtain ⟨_, _, _, _, _, _, _, _, hM⟩ := h10 i (by omega)
    exact hM

/-- With learning rate 0 a call of `Train` leaves every weight as it is. -/
theorem Train_lr_zero (exp : α → α) (net : Network α) (sizes : List Nat) (data : Data α)
    (hinv : ShapeInv net sizes) (hin : data.Input.length = sizes.getD 0 0)
    (htg : data.Target.length = sizes.getD (sizes.length - 1) 0)
    (hlr : net.LearningRate = 0) : Train exp net data = (net, .ok ()) := by
  obtain ⟨acts, errs, net2, _, _, _, _, h5, h6, h7, h8, h9, h10⟩ :=
    Train_spec exp net sizes data hinv hin htg
  have hpos := hinv.2.1
  have hWlen : net.Weights.length = sizes.length - 1 := hinv.2.2.2.2.1
  have hW : net2.Weights = net.Weights := by
    apply list_ext_getD _ _ [] (by rw [h9, hWlen])
    intro i hi
    rw [h9] at hi
    obtain ⟨m, t, d, _, _, _, hsub, hdM, hM⟩ := h10 i (by omega)
    have hWi := hinv.2.2.2.2.2 i hi
    rw [hM.eq_mk, hWi.eq_mk]
    apply mk_congr
    intro r hr c hc
    rw [Subtract_entry _ _ _ _ _ hWi (Scale_isMat d _ _ _ hdM) (hpos (i + 1) (by omega))
      (hpos i (by omega)) hsub r c hr hc, Scale_entry d _ _ _ hdM r c hr hc, hlr]
    simp
  rw [h5]
  congr 1
  cases net2
  cases net
  simp only at h6 h7 h8 hW
  subst h6 h7 h8 hW
  rfl

theorem trainN_ok (exp : α → α) (sizes : List Nat) (data : Data α)
    (hin : data.Input.length = sizes.getD 0 0)
    (htg : data.Target.length = sizes.getD (sizes.length - 1) 0) (n : Nat) (net : Network α)
    (hinv : ShapeInv net sizes) :
    ∃ net2, trainN exp data n net = (net2, .ok ()) ∧ ShapeInv net2 sizes ∧
      net2.LearningRate = net.LearningRate := by
  induction n generalizing net with
  | zero => exact ⟨net, rfl, hinv, rfl⟩
  | succ n ih =>
    obtain ⟨net1, h1, hinv1, hlr1⟩ := Train_ok_shape exp net sizes data hinv hin htg
    obtain ⟨net2, h2, hinv2, hlr2⟩ := ih net1 hinv1
    refine ⟨net2, ?_, hinv2, by rw [hlr2, hlr1]⟩
    simp only [trainN, h1]
    exact h2

theorem trainN_lr_zero (exp : α → α) (sizes : List Nat) (data : Data α)
    (hin : data.Input.length = sizes.getD 0 0)
    (htg : data.Target.length = sizes.getD (sizes.length - 1) 0) (n : Nat) (net : Network α)
    (hinv : ShapeInv net sizes) (hlr : net.LearningRate = 0) :
    trainN exp data n net = (net, .ok ()) := by
  induction n with
  | zero => rfl
  | succ n ih =>
    simp only [trainN, Train_lr_zero exp net sizes data hinv hin htg hlr]
    exact ih

theorem squaredError_ok (exp : α → α) (net : Network α) (sizes : List Nat) (data : Data α)
    (hinv : ShapeInv net sizes) (hin : data.Input.length = sizes.getD 0 0) :
    ∃ out, Predict exp net data.Input = .ok out ∧
      squaredError exp net data = .ok ((List.range data.Target.length).map
        (fun i => (entry out i 0 - data.Target.getD i 0) ^ 2)).sum := by
  obtain ⟨outs, houts, hf, _, _⟩ := hinv.layerOutputs_ok exp net sizes data.Input hin
  have hlen := (forward_rel exp _ _ _ hf).1
  have hP := Predict_eq exp net data.Input outs houts hlen
  refine ⟨_, hP, ?_⟩
  simp only [squaredError, hP, bind, Except.bind]
  rfl

end Repeated

theorem sum_sq_nonneg {α : Type} [LinearOrderedField α] (n : Nat) (f : Nat → α) :
    0 ≤ ((List.range n).map (fun i => (f i) ^ 2)).sum := by
  apply List.sum_nonneg
  intro x hx
  obtain ⟨i, _, rfl⟩ := List.mem_map.mp hx
  exact sq_nonneg _

end Network

/-! ## Saving and loading -/

namespace Network
open Mat Activation Training

section Persistence

variable {α : Type}

/-- The outcome of `Save` when the file can be created, the network can be marshalled and
the write succeeds: the file holds the marshalled bytes and every other file is as it
was. -/
theorem Save_ok (marshal : Network α → Except FileErr String) (net : Network α)
    (fileName : String) (d : Disk) (bytes : String) (hc : d.createFails fileName = false)
    (hm : marshal net = .ok bytes) (hw : d.writeFails fileName = false) :
    (Save marshal net fileName d).2 = none ∧
    (Save marshal net fileName d).1.files fileName = some bytes ∧
    ∀ other, other ≠ fileName → (Save marshal net fileName d).1.files other = d.files other := by
  simp only [Save, hc, hm, hw, Bool.false_eq_true, if_false, if_true, true_and]
  refine ⟨by simp, ?_⟩
  intro other hne
  simp only [hne, if_false]

theorem Save_none_iff (marshal : Network α → Except FileErr String) (net : Network α)
    (fileName : String) (d : Disk) :
    (Save marshal net fileName d).2 = none ↔
      (d.createFails fileName = false ∧ (∃ bytes, marshal net = .ok bytes) ∧
        d.writeFails fileName = false) := by
  constructor
  · intro h
    unfold Save at h
    cases hc : d.createFails fileName with
    | true => simp [hc] at h
    | false =>
      cases hm : marshal net with
      | error e => simp [hc, hm] at h
      | ok bytes =>
        cases hw : d.writeFails fileName with
        | true => simp [hc, hm, hw] at h
        | false => exact ⟨rfl, ⟨bytes, rfl⟩, rfl⟩
  · rintro ⟨hc, ⟨bytes, hm⟩, hw⟩
    exact (Save_ok marshal net fileName d bytes hc hm hw).1

theorem Load_of_file (unmarshal : String → Network α × Option FileErr) (fileName : String)
    (d : Disk) (bytes : String) (h : d.files fileName = some bytes) :
    Load unmarshal fileName d = (some (unmarshal bytes).1, (unmarshal bytes).2) := by
  simp only [Load, h]

end Persistence

end Network

/-! ### Failing calls of `New` -/

namespace Network

open Mat Activation Training

section NewFailure

variable {α : Type} [Field α]

/-- The first iteration that fails decides the outcome of `New`. -/
theorem New_first_failure (canMake : Nat → Int → Bool) (sqrt : α → α) (rnd : Nat → α)
    (learningRate : α) (layerSizes : List Int) (j0 : Nat) (e : Err)
    (hL : 3 ≤ layerSizes.length) (hw : canMake 24 ((layerSizes.length : Int) - 1) = true)
    (hj : j0 + 1 < layerSizes.length)
    (hpos : ∀ j, j < j0 → 1 ≤ layerSizes.getD j 0 ∧ 1 ≤ layerSizes.getD (j + 1) 0)
    (hmk : ∀ j, j < j0 → canMake 24 (layerSizes.getD (j + 1) 0) = true ∧
      canMake 8 (layerSizes.getD j 0) = true)
    (hfail : ∀ st, newLayer canMake sqrt rnd layerSizes j0 st = .error e) :
    New canMake sqrt rnd learningRate layerSizes = .error e := by
  obtain ⟨st, hst, _, _⟩ := newLoop_prefix canMake sqrt rnd layerSizes j0 (by omega) hpos hmk
  have herr := forLoop_error (layerSizes.length - 1) j0 (newLayer canMake sqrt rnd layerSizes)
    _ st _ hst (hfail st) (by omega)
  have h0 : index layerSizes 0 = .ok (layerSizes.getD 0 0) := by
    have := index_getD layerSizes 0 0 (by omega)
    simpa using this
  have hnl : ¬ layerSizes.length < 3 := by omega
  rw [New_eq]
  simp only [hnl, if_false, h0, hw, Bool.true_eq_false, herr]

end NewFailure

theorem makeLenOk_sample : ∀ i, i + 1 < ([2, 3, 2] : List Nat).length →
    makeLenOk 24 ((([2, 3, 2] : List Nat).getD (i + 1) 0 : Nat) : Int) = true ∧
    makeLenOk 8 ((([2, 3, 2] : List Nat).getD i 0 : Nat) : Int) = true := by
  intro i hi
  have h : i = 0 ∨ i = 1 := by
    simp only [List.length_cons, List.length_nil] at hi
    omega
  rcases h with rfl | rfl <;> decide

theorem New_large_middle_size :
    New makeLenOk (fun x : ℚ => x) (fun _ => 0) (1 / 2) [1, 2 ^ 62, 1] =
      .error .makesliceLen := by
  refine New_first_failure makeLenOk _ _ _ _ 0 _ (by decide) (by decide) (by decide)
    (fun j hj => absurd hj (Nat.not_lt_zero j)) (fun j hj => absurd hj (Nat.not_lt_zero j)) ?_
  intro st
  exact newLayer_makeslice makeLenOk _ _ _ 0 st (by decide) (by decide) (by decide)
    (Or.inl (by decide))

end Network

/-! ### The values of the forward pass -/

namespace Activation

theorem sigmoid_closed_range {α : Type} [LinearOrderedField α] (exp : α → α)
    (hexp : ∀ x, 0 ≤ exp x) (x : α) : 0 < sigmoid exp x ∧ sigmoid exp x ≤ 1 := by
  have h := hexp (-x)
  have h1 : (0 : α) < 1 + exp (-x) := by linarith
  unfold sigmoid
  exact ⟨div_pos one_pos h1, (div_le_one h1).mpr (by linarith)⟩

end Activation

namespace Network

open Mat Activation Training

section ForwardEntries

variable {α : Type} [Field α]

/-- Under the weight-shape invariant every activation after the input is, entry by entry,
`1/(1+exp(-z))` for the entry `z` of the product of the weight matrix and the previous
activation. -/
theorem forward_entries (exp : α → α) (net : Network α) (sizes : List Nat) (input : List α)
    (hinv : ShapeInv net sizes) (hin : input.length = sizes.getD 0 0) :
    ∃ outs, layerOutputs exp net input = .ok outs ∧ outs.length = sizes.length ∧
      (∀ i, i < sizes.length → IsMat (outs.getD i []) (sizes.getD i 0) 1) ∧
      (∀ r, r < sizes.getD 0 0 → Get (outs.getD 0 []) 0 (r : Int) = .ok (input.getD r 0)) ∧
      ∀ i, i + 1 < sizes.length → ∀ r, r < sizes.getD (i + 1) 0 →
        Get (outs.getD (i + 1) []) 0 (r : Int) =
          .ok (1 / (1 + exp (-(∑ k in Finset.range (sizes.getD i 0),
            entry (net.Weights.getD i []) r k * entry (outs.getD i []) k 0)))) := by
  obtain ⟨outs, houts, hf, hlen, hshape⟩ := hinv.layerOutputs_ok exp net sizes input hin
  obtain ⟨hL, hpos, hI, _, hWlen, hW⟩ := hinv
  obtain ⟨hlen2, h0, hstep⟩ := forward_rel exp _ _ _ hf
  refine ⟨outs, houts, hlen, hshape, ?_, ?_⟩
  · intro r hr
    have h00 : outs.getD 0 [] = NewColumn input := by
      rw [List.getD_eq_getElem?_getD, h0]
      rfl
    rw [h00, NewColumn_eq_mk]
    exact Get_mk _ _ _ r 0 (by omega) Nat.one_pos
  · intro i hi r hr
    obtain ⟨z, hz, hout⟩ := hstep i (by omega)
    have hd := Dot_isMat (net.Weights.getD i []) (outs.getD i []) (sizes.getD (i + 1) 0)
      (sizes.getD i 0) 1 (hW i (by omega)) (hshape i (by omega)) (hpos _ (by omega))
      (hpos _ (by omega)) Nat.one_pos
    rw [hz] at hd
    cases hd
    have h1 : outs.getD (i + 1) [] = Apply (Mat.mk (sizes.getD (i + 1) 0) 1 (fun r c =>
        ∑ k in Finset.range (sizes.getD i 0),
          entry (net.Weights.getD i []) r k * entry (outs.getD i []) k c)) (sigmoid exp) := by
      rw [List.getD_eq_getElem?_getD, hout]
      rfl
    rw [h1, Apply_mk]
    exact Get_mk _ _ _ r 0 hr Nat.one_pos

end ForwardEntries

/-- The range of the values that `Predict` returns, for any ordered field and any `exp`
without negative values. -/
theorem Predict_range_of_exp_nonneg {α : Type} [LinearOrderedField α] (exp : α → α)
    (hexp : ∀ x, 0 ≤ exp x) (net : Network α) (sizes : List Nat) (input : List α)
    (hinv : ShapeInv net sizes) (hin : input.length = sizes.getD 0 0) :
    ∃ out, Predict exp net input = .ok out ∧
      IsMat out (sizes.getD (sizes.length - 1) 0) 1 ∧
      (∀ row, row ∈ out → ∀ v, v ∈ row → 0 < v ∧ v ≤ 1) ∧
      ∀ r, r < sizes.getD (sizes.length - 1) 0 →
        ∃ v, Get out 0 (r : Int) = .ok v ∧ 0 < v ∧ v ≤ 1 := by
  obtain ⟨outs, houts, hf, hlen, hshape⟩ := hinv.layerOutputs_ok exp net sizes input hin
  obtain ⟨hL, hpos, hI, _, hWlen, hW⟩ := hinv
  obtain ⟨hlen2, _, hstep⟩ := forward_rel exp _ _ _ hf
  have hP := Predict_eq exp net input outs houts hlen2
  have hidx : net.Weights.length = sizes.length - 1 := hWlen
  obtain ⟨z, _, hz⟩ := hstep (sizes.length - 2) (by omega)
  have hsub : sizes.length - 2 + 1 = sizes.length - 1 := by omega
  rw [hsub] at hz
  have hout : outs.getD (sizes.length - 1) [] = Apply z (sigmoid exp) := by
    rw [List.getD_eq_getElem?_getD, hz]
    rfl
  have hmat := hshape (sizes.length - 1) (by omega)
  rw [hidx] at hP
  generalize outs.getD (sizes.length - 1) [] = out at hP hmat hout
  have hall : ∀ row, row ∈ out → ∀ v, v ∈ row → 0 < v ∧ v ≤ 1 := by
    intro row hrow v hv
    rw [hout, Apply_eq_map] at hrow
    obtain ⟨row0, _, rfl⟩ := List.mem_map.mp hrow
    obtain ⟨x, _, rfl⟩ := List.mem_map.mp hv
    exact sigmoid_closed_range exp hexp x
  refine ⟨out, hP, hmat, hall, ?_⟩
  intro r hr
  have hg := Get_entry out _ 1 r 0 hmat hr Nat.one_pos
  refine ⟨_, by simpa using hg, ?_⟩
  have hmem : ∃ row, row ∈ Mat.mk (sizes.getD (sizes.length - 1) 0) 1 (entry out) ∧
      entry out r 0 ∈ row :=
    ⟨tab 1 (entry out r), List.mem_iff_getElem?.mpr ⟨r, mk_getElem? _ _ _ r hr⟩,
      by simp [tab]⟩
  rw [← hmat.eq_mk] at hmem
  obtain ⟨row, hrow, hv⟩ := hmem
  exact hall row hrow _ hv

theorem underflowExp_nonneg (x : ℚ) : 0 ≤ underflowExp x := by
  unfold underflowExp
  split
  · exact le_refl 0
  · exact Even.pow_nonneg (by decide) _

theorem underflowExp_neg_1000 : underflowExp (-1000) = 0 := by
  unfold underflowExp
  norm_num

theorem saturatedNetwork_shape : ShapeInv saturatedNetwork [1, 1, 1] := by decide

theorem Dot_one_by_one {α : Type} [Semiring α] (a b : α) :
    Dot [[a]] [[b]] = .ok [[a * b]] := by
  have ha : IsMat [[a]] 1 1 := ⟨rfl, by simp⟩
  have hb : IsMat [[b]] 1 1 := ⟨rfl, by simp⟩
  rw [Dot_isMat [[a]] [[b]] 1 1 1 ha hb Nat.one_pos Nat.one_pos Nat.one_pos]
  simp [Mat.mk, tab, entry, List.range_succ]

theorem saturatedNetwork_forward :
    forward underflowExp saturatedNetwork.Weights (NewColumn [1]) =
      .ok [[[1]], [[1]], [[1]]] := by
  have hs : sigmoid underflowExp (1000 * 1) = 1 := by
    simp [sigmoid, underflowExp_neg_1000]
  have hc : NewColumn ([1] : List ℚ) = [[1]] := rfl
  have ha : ∀ x : ℚ, Apply [[x]] (sigmoid underflowExp) = [[sigmoid underflowExp x]] := by
    intro x
    rw [Apply_eq_map]
    rfl
  simp only [saturatedNetwork, forward, hc, Dot_one_by_one, ha, hs]

theorem saturatedNetwork_predict :
    Predict underflowExp saturatedNetwork [1] = .ok [[1]] := by
  have h := layerOutputs_eq_forward underflowExp saturatedNetwork [1] (by decide)
  rw [saturatedNetwork_forward] at h
  exact Predict_eq underflowExp saturatedNetwork [1] _ h rfl

end Network

/-! ### The JSON text of a network, read back -/

namespace Json

section TextLemmas

variable {β : Type}

theorem skipSpace_ws (ws : List Char) (d : Char) (s : List Char)
    (hws : ∀ c, c ∈ ws → isSpace c = true) (hd : isSpace d = false) :
    skipSpace (ws ++ d :: s) = d :: s := by
  induction ws with
  | nil => simp [skipSpace, List.dropWhile, hd]
  | cons c ws ih =>
    have hc := hws c (List.mem_cons_self _ _)
    have := ih (fun c hc => hws c (List.mem_cons_of_mem _ hc))
    simp only [skipSpace] at this ⊢
    simp only [List.cons_append, List.dropWhile_cons, hc, if_true]
    exact this

theorem newline_ws (depth : Nat) : ∀ c, c ∈ newline depth → isSpace c = true := by
  intro c hc
  simp only [newline, List.mem_cons, List.mem_replicate] at hc
  rcases hc with rfl | ⟨_, rfl⟩ <;> rfl

theorem append_ws (ws ws2 : List Char) (h1 : ∀ c, c ∈ ws → isSpace c = true)
    (h2 : ∀ c, c ∈ ws2 → isSpace c = true) : ∀ c, c ∈ ws ++ ws2 → isSpace c = true := by
  intro c hc
  rcases List.mem_append.mp hc with h | h
  · exact h1 c h
  · exact h2 c h

theorem expect_ws (c : Char) (ws s : List Char) (hws : ∀ c, c ∈ ws → isSpace c = true)
    (hc : isSpace c = false) : expect c (ws ++ c :: s) = some s := by
  simp only [expect, skipSpace_ws ws c s hws hc, if_true]

theorem stripText_append (t s : List Char) : stripText t (t ++ s) = some s := by
  induction t with
  | nil => rfl
  | cons c t ih =>
    show stripText (c :: t) (c :: (t ++ s)) = some s
    simp only [stripText, if_true, ih]

theorem expectKey_ws (name ws s : List Char) (hws : ∀ c, c ∈ ws → isSpace c = true) :
    expectKey name (ws ++ ('"' :: (name ++ ('"' :: ':' :: s)))) = some s := by
  have h1 : skipSpace (ws ++ ('"' :: (name ++ ('"' :: ':' :: s)))) =
      ('"' :: (name ++ ['"'])) ++ (':' :: s) := by
    rw [skipSpace_ws ws '"' _ hws rfl]
    simp
  have h2 := expect_ws ':' [] s (fun c hc => absurd hc (List.not_mem_nil c)) rfl
  simp only [List.nil_append] at h2
  simp only [expectKey, h1, stripText_append, h2]

theorem isNumChar_not_space (c : Char) (h : isNumChar c = true) : isSpace c = false := by
  cases hs : isSpace c with
  | false => rfl
  | true =>
    simp only [isSpace, Bool.or_eq_true, decide_eq_true_eq] at hs
    rcases hs with ((rfl | rfl) | rfl) | rfl <;> simp [isNumChar] at h

theorem delim_not_num (rest : List Char) (h : Delim rest) :
    rest.takeWhile isNumChar = [] ∧ rest.dropWhile isNumChar = rest := by
  obtain ⟨r, h | h⟩ := h <;> subst h <;> constructor <;> rfl

theorem decNumber_ws (parse : List Char → Option β) (ws tok rest : List Char)
    (hws : ∀ c, c ∈ ws → isSpace c = true) (hne : tok ≠ [])
    (htok : ∀ c, c ∈ tok → isNumChar c = true) (hrest : Delim rest) :
    decNumber parse (ws ++ (tok ++ rest)) =
      match parse tok with
      | none => none
      | some v => some (v, rest) := by
  obtain ⟨c, t, rfl⟩ := List.exists_cons_of_ne_nil hne
  have hc := isNumChar_not_space c (htok c (List.mem_cons_self _ _))
  have h1 : skipSpace (ws ++ (c :: t ++ rest)) = c :: t ++ rest := by
    rw [List.cons_append, skipSpace_ws ws c _ hws hc]
  obtain ⟨hr1, hr2⟩ := delim_not_num rest hrest
  have h2 : (c :: t ++ rest).takeWhile isNumChar = c :: t := by
    rw [List.takeWhile_append_of_pos (fun x hx => htok x hx), hr1, List.append_nil]
  have h3 : (c :: t ++ rest).dropWhile isNumChar = rest := by
    rw [List.dropWhile_append_of_pos (fun x hx => htok x hx), hr2]
  simp only [decNumber, h1, h2, h3, reduceCtorEq, if_false]

end TextLemmas

end Json

namespace Json

section ArrayLemmas

variable {β : Type}

theorem delim_comma (r : List Char) : Delim (',' :: r) := ⟨r, Or.inl rfl⟩

theorem delim_newline (depth : Nat) (r : List Char) : Delim (newline depth ++ r) :=
  ⟨List.replicate (4 * depth) ' ' ++ r, Or.inr rfl⟩

theorem encTail_length (enc : β → List Char) (depth : Nat) (xs : List β) :
    xs.length ≤ (encTail enc depth xs).length := by
  induction xs with
  | nil => exact Nat.zero_le _
  | cons x xs ih =>
    simp only [encTail, List.length_cons, List.length_append]
    omega

/-- The elements after the first one are read back up to the closing bracket. -/
theorem decTail_encTail (p : List Char → Option (β × List Char)) (enc : β → List Char)
    (depth depth0 : Nat) (xs : List β) (hx : ∀ x, x ∈ xs → ReadsBack p enc x) :
    ∀ (fuel : Nat) (rest : List Char), xs.length < fuel →
      decTail p fuel (encTail enc depth xs ++ (newline depth0 ++ (']' :: rest))) =
        some (xs, rest) := by
  induction xs with
  | nil =>
    intro fuel rest hf
    obtain ⟨fuel, rfl⟩ : ∃ k, fuel = k + 1 := ⟨fuel - 1, by omega⟩
    simp only [encTail, List.nil_append, decTail,
      skipSpace_ws (newline depth0) ']' rest (newline_ws depth0) rfl, if_true]
  | cons x xs ih =>
    intro fuel rest hf
    obtain ⟨fuel, rfl⟩ : ∃ k, fuel = k + 1 := ⟨fuel - 1, by omega⟩
    have hfx : xs.length < fuel := by
      simp only [List.length_cons] at hf
      omega
    have hrb := (hx x (List.mem_cons_self _ _)).2
    have hcomma : skipSpace (encTail enc depth (x :: xs) ++ (newline depth0 ++ (']' :: rest))) =
        ',' :: (newline depth ++ (enc x ++
          (encTail enc depth xs ++ (newline depth0 ++ (']' :: rest))))) := by
      have := skipSpace_ws [] ',' (newline depth ++ (enc x ++
          (encTail enc depth xs ++ (newline depth0 ++ (']' :: rest)))))
        (fun c hc => absurd hc (List.not_mem_nil c)) rfl
      simpa [encTail] using this
    have hd : Delim (encTail enc depth xs ++ (newline depth0 ++ (']' :: rest))) := by
      cases xs with
      | nil => exact delim_newline depth0 _
      | cons y ys => exact delim_comma _
    have hp := hrb (newline depth) _ (newline_ws depth) hd
    have hrec := ih (fun y hy => hx y (List.mem_cons_of_mem _ hy)) fuel rest hfx
    have hne : (',' : Char) ≠ ']' := by decide
    simp only [decTail, hcomma, hne, if_false, if_true, hp, hrec]

/-- An array is read back when its elements are. -/
theorem decArray_encArray (p : List Char → Option (β × List Char)) (enc : β → List Char)
    (depth : Nat) (xs : List β) (hx : ∀ x, x ∈ xs → ReadsBack p enc x) :
    ReadsBack (decArray p) (encArray enc depth) xs := by
  constructor
  · cases xs with
    | nil => exact ⟨'[', [']'], rfl, rfl, by decide⟩
    | cons x xs => exact ⟨'[', _, rfl, rfl, by decide⟩
  · intro ws rest hws hrest
    cases xs with
    | nil =>
      have h1 : skipSpace (ws ++ (encArray enc depth [] ++ rest)) = '[' :: (']' :: rest) := by
        have := skipSpace_ws ws '[' (']' :: rest) hws rfl
        simpa [encArray] using this
      have h2 : skipSpace (']' :: rest) = ']' :: rest :=
        skipSpace_ws [] ']' rest (fun c hc => absurd hc (List.not_mem_nil c)) rfl
      simp only [decArray, h1, h2, if_true]
    | cons x xs =>
      obtain ⟨⟨c, t, hct, hcs, hcb⟩, hrb⟩ := hx x (List.mem_cons_self _ _)
      have h1 : skipSpace (ws ++ (encArray enc depth (x :: xs) ++ rest)) =
          '[' :: (newline (depth + 1) ++ (enc x ++ (encTail enc (depth + 1) xs ++
            (newline depth ++ (']' :: rest))))) := by
        have := skipSpace_ws ws '[' (newline (depth + 1) ++ (enc x ++
          (encTail enc (depth + 1) xs ++ (newline depth ++ (']' :: rest))))) hws rfl
        simpa [encArray] using this
      have h2 : skipSpace (newline (depth + 1) ++ (enc x ++ (encTail enc (depth + 1) xs ++
            (newline depth ++ (']' :: rest))))) =
          c :: (t ++ (encTail enc (depth + 1) xs ++ (newline depth ++ (']' :: rest)))) := by
        rw [hct]
        exact skipSpace_ws (newline (depth + 1)) c _ (newline_ws _) hcs
      have hd : Delim (encTail enc (depth + 1) xs ++ (newline depth ++ (']' :: rest))) := by
        cases xs with
        | nil => exact delim_newline depth _
        | cons y ys => exact delim_comma _
      have hp := hrb (newline (depth + 1)) _ (newline_ws _) hd
      have hlen : xs.length <
          (encTail enc (depth + 1) xs ++ (newline depth ++ (']' :: rest))).length + 1 := by
        have := encTail_length enc (depth + 1) xs
        simp only [List.length_append]
        omega
      have hrec := decTail_encTail p enc (depth + 1) depth xs
        (fun y hy => hx y (List.mem_cons_of_mem _ hy)) _ rest hlen
      simp only [decArray, h1, h2, if_true, hcb, if_false, hp, hrec]

/-- A number is read back when its token is not empty, consists of number characters and
is converted back to the number. -/
theorem decNumber_readsBack (parse : List Char → Option β) (enc : β → List Char) (x : β)
    (hne : enc x ≠ []) (htok : ∀ c, c ∈ enc x → isNumChar c = true)
    (hparse : parse (enc x) = some x) : ReadsBack (decNumber parse) enc x := by
  constructor
  · obtain ⟨c, t, hct⟩ := List.exists_cons_of_ne_nil hne
    have hc : isNumChar c = true := htok c (by rw [hct]; exact List.mem_cons_self _ _)
    refine ⟨c, t, hct, isNumChar_not_space c hc, ?_⟩
    rintro rfl
    revert hc
    decide
  · intro ws rest hws hrest
    rw [decNumber_ws parse ws (enc x) rest hws hne htok hrest, hparse]

end ArrayLemmas

end Json

namespace Json

section IntLemmas

theorem digitChar_spec (d : Nat) (h : d < 10) :
    (digitChar d).isDigit = true ∧ (digitChar d).toNat - 48 = d ∧
      (d ≠ 0 → digitChar d ≠ '0') ∧ digitChar d ≠ '-' := by
  have h10 : d = 0 ∨ d = 1 ∨ d = 2 ∨ d = 3 ∨ d = 4 ∨ d = 5 ∨ d = 6 ∨ d = 7 ∨ d = 8 ∨
      d = 9 := by omega
  rcases h10 with rfl | rfl | rfl | rfl | rfl | rfl | rfl | rfl | rfl | rfl <;>
    exact ⟨by decide, by decide, by decide, by decide⟩

theorem isDigit_isNumChar (c : Char) (h : c.isDigit = true) : isNumChar c = true := by
  simp [isNumChar, h]

theorem fmtNat_spec (n : Nat) :
    fmtNat n ≠ [] ∧ (∀ c, c ∈ fmtNat n → c.isDigit = true) ∧ parseNat (fmtNat n) = some n := by
  by_cases hn : n = 0
  · subst hn
    refine ⟨by simp [fmtNat], ?_, by simp [fmtNat, parseNat]⟩
    intro c hc
    simp only [fmtNat, if_true, List.mem_singleton] at hc
    subst hc
    decide
  · have hdig : ∀ d, d ∈ Nat.digits 10 n → d < 10 := fun d hd => Nat.digits_lt_base (by decide) hd
    have hne : Nat.digits 10 n ≠ [] := Nat.digits_ne_nil_iff_ne_zero.mpr hn
    have hlast := Nat.getLast_digit_ne_zero 10 hn
    have hall : ∀ c, c ∈ fmtNat n → c.isDigit = true := by
      intro c hc
      simp only [fmtNat, hn, if_false, List.mem_map, List.mem_reverse] at hc
      obtain ⟨d, hd, rfl⟩ := hc
      exact (digitChar_spec d (hdig d hd)).1
    have hnil : fmtNat n ≠ [] := by
      simp only [fmtNat, hn, if_false, ne_eq, List.map_eq_nil_iff, List.reverse_eq_nil_iff]
      exact hne
    refine ⟨hnil, hall, ?_⟩
    have hhead : (fmtNat n).head? = some (digitChar ((Nat.digits 10 n).getLast hne)) := by
      simp only [fmtNat, hn, if_false, List.head?_map, List.head?_reverse,
        List.getLast?_eq_getLast _ hne, Option.map_some']
    have hh0 : (fmtNat n).head? ≠ some '0' := by
      rw [hhead]
      intro h
      exact (digitChar_spec _ (hdig _ (List.getLast_mem hne))).2.2.1 hlast (Option.some.inj h)
    have hn0 : fmtNat n ≠ ['0'] := by
      intro h
      rw [h] at hh0
      exact hh0 rfl
    have hallb : (fmtNat n).all Char.isDigit = true := List.all_eq_true.mpr hall
    have hback : (fmtNat n).reverse.map (fun c => c.toNat - 48) = Nat.digits 10 n := by
      simp only [fmtNat, hn, if_false, List.map_reverse, List.reverse_reverse, List.map_map]
      conv_rhs => rw [← List.map_id (Nat.digits 10 n)]
      apply List.map_congr_left
      intro d hd
      exact (digitChar_spec d (hdig d hd)).2.1
    simp only [parseNat, hn0, if_false, hnil, ne_eq, not_false_eq_true, hh0, hallb, and_self,
      if_true, hback, Nat.ofDigits_digits]

theorem fmtInt_spec (n : Int) :
    fmtInt n ≠ [] ∧ (∀ c, c ∈ fmtInt n → isNumChar c = true) ∧
      parseInt (fmtInt n) = some n := by
  cases n with
  | ofNat n =>
    obtain ⟨h1, h2, h3⟩ := fmtNat_spec n
    refine ⟨h1, fun c hc => isDigit_isNumChar c (h2 c hc), ?_⟩
    show parseInt (fmtNat n) = some (Int.ofNat n)
    obtain ⟨c, t, hct⟩ := List.exists_cons_of_ne_nil h1
    have hc : c ≠ '-' := by
      intro h
      have := h2 c (by rw [hct]; exact List.mem_cons_self _ _)
      rw [h] at this
      revert this
      decide
    rw [hct] at h3 ⊢
    simp only [parseInt, hc, if_false, h3, Option.map_some']
    rfl
  | negSucc n =>
    obtain ⟨h1, h2, h3⟩ := fmtNat_spec (n + 1)
    refine ⟨by simp [fmtInt], ?_, ?_⟩
    · intro c hc
      simp only [fmtInt, List.mem_cons] at hc
      rcases hc with rfl | hc
      · rfl
      · exact isDigit_isNumChar c (h2 c hc)
    · simp only [fmtInt, parseInt, if_true, h3, Option.map_some']
      rfl

/-- An `int` field in the range of a 64-bit `int` is read back. -/
theorem decInt_readsBack (n : Int) (hlo : -(2 ^ 63) ≤ n) (hhi : n < 2 ^ 63) :
    ReadsBack decInt fmtInt n := by
  obtain ⟨h1, h2, h3⟩ := fmtInt_spec n
  obtain ⟨hhead, hrb⟩ := decNumber_readsBack parseInt fmtInt n h1 h2 h3
  refine ⟨hhead, ?_⟩
  intro ws rest hws hrest
  simp only [decInt, hrb ws rest hws hrest, hlo, hhi, and_self, if_true]

end IntLemmas

end Json

namespace Json

section NetworkLemmas

variable {α : Type}

theorem supported_iff (fmtFloat : α → Option (List Char)) (net : Network α) :
    supported fmtFloat net = true ↔
      (∀ m, m ∈ net.Weights → ∀ row, row ∈ m → ∀ x, x ∈ row → ∃ s, fmtFloat x = some s) ∧
        ∃ s, fmtFloat net.LearningRate = some s := by
  simp only [supported, Bool.and_eq_true, List.all_eq_true, Option.isSome_iff_exists]

/-- A number with a text is read back, when `parseFloat` converts the texts of `fmtFloat`
back. -/
theorem decFloat_readsBack (fmtFloat : α → Option (List Char))
    (parseFloat : List Char → Option α)
    (hfmt : ∀ x s, fmtFloat x = some s →
      s ≠ [] ∧ (∀ c, c ∈ s → isNumChar c = true) ∧ parseFloat s = some x)
    (x : α) (hx : ∃ s, fmtFloat x = some s) :
    ReadsBack (decNumber parseFloat) (encFloat fmtFloat) x := by
  obtain ⟨s, hs⟩ := hx
  obtain ⟨h1, h2, h3⟩ := hfmt x s hs
  have he : encFloat fmtFloat x = s := by simp only [encFloat, hs, Option.getD_some]
  exact decNumber_readsBack parseFloat (encFloat fmtFloat) x (by rw [he]; exact h1)
    (by rw [he]; exact h2) (by rw [he]; exact h3)

theorem decWeights_readsBack (fmtFloat : α → Option (List Char))
    (parseFloat : List Char → Option α)
    (hfmt : ∀ x s, fmtFloat x = some s →
      s ≠ [] ∧ (∀ c, c ∈ s → isNumChar c = true) ∧ parseFloat s = some x)
    (ws : List (Mat.Matrix α))
    (hws : ∀ m, m ∈ ws → ∀ row, row ∈ m → ∀ x, x ∈ row → ∃ s, fmtFloat x = some s) :
    ReadsBack (decArray (decArray (decArray (decNumber parseFloat))))
      (encWeights fmtFloat) ws := by
  unfold encWeights
  apply decArray_encArray
  intro m hm
  apply decArray_encArray
  intro row hrow
  apply decArray_encArray
  intro x hx
  exact decFloat_readsBack fmtFloat parseFloat hfmt x (hws m hm row hrow x hx)

theorem expectKey_encField (name value rest : List Char) :
    expectKey name (encField name value rest) = some (' ' :: (value ++ rest)) :=
  expectKey_ws name (newline 1) _ (newline_ws 1)

theorem space_ws : ∀ c, c ∈ [' '] → isSpace c = true := by
  intro c hc
  rw [List.mem_singleton.mp hc]
  rfl

theorem delim_encField (name value rest : List Char) : Delim (encField name value rest) :=
  delim_newline 1 _

/-- The text of a network is decoded to the network, when every number has a text that
`parseFloat` converts back and the two `int` fields are in the range of a 64-bit `int`. -/
theorem decNetwork_encNetwork (fmtFloat : α → Option (List Char))
    (parseFloat : List Char → Option α)
    (hfmt : ∀ x s, fmtFloat x = some s →
      s ≠ [] ∧ (∀ c, c ∈ s → isNumChar c = true) ∧ parseFloat s = some x)
    (net : Network α) (hsup : supported fmtFloat net = true)
    (hI : -(2 ^ 63) ≤ net.InputSize ∧ net.InputSize < 2 ^ 63)
    (hL : -(2 ^ 63) ≤ net.Layers ∧ net.Layers < 2 ^ 63) :
    decNetwork parseFloat (encNetwork fmtFloat net) = some net := by
  obtain ⟨hws, hlr⟩ := (supported_iff fmtFloat net).mp hsup
  have h0 : ∀ rest, expect '\x7b' ('\x7b' :: rest) = some rest := fun rest =>
    expect_ws '\x7b' [] rest (fun c hc => absurd hc (List.not_mem_nil c)) rfl
  have hcomma : ∀ rest, expect ',' (',' :: rest) = some rest := fun rest =>
    expect_ws ',' [] rest (fun c hc => absurd hc (List.not_mem_nil c)) rfl
  have hend : expect '\x7d' (newline 0 ++ ['\x7d']) = some [] :=
    expect_ws '\x7d' (newline 0) [] (newline_ws 0) rfl
  have hint : ∀ (n : Int) rest, -(2 ^ 63) ≤ n → n < 2 ^ 63 → Delim rest →
      decInt (' ' :: (fmtInt n ++ rest)) = some (n, rest) := fun n rest h1 h2 hd =>
    (decInt_readsBack n h1 h2).2 [' '] rest space_ws hd
  have hW : ∀ rest, Delim rest → decArray (decArray (decArray (decNumber parseFloat)))
      (' ' :: (encWeights fmtFloat net.Weights ++ rest)) = some (net.Weights, rest) :=
    fun rest hd => (decWeights_readsBack fmtFloat parseFloat hfmt net.Weights hws).2
      [' '] rest space_ws hd
  have hR : ∀ rest, Delim rest → decNumber parseFloat
      (' ' :: (encFloat fmtFloat net.LearningRate ++ rest)) = some (net.LearningRate, rest) :=
    fun rest hd => (decFloat_readsBack fmtFloat parseFloat hfmt net.LearningRate hlr).2
      [' '] rest space_ws hd
  simp only [decNetwork, encNetwork, h0, expectKey_encField, hcomma, bind, Option.bind,
    hint _ _ hI.1 hI.2 (delim_comma _), hint _ _ hL.1 hL.2 (delim_comma _),
    hW _ (delim_comma _), hR _ (delim_newline 0 _), hend]
  rfl

end NetworkLemmas

end Json

namespace Network

theorem wholeFmtFloat_parse : ∀ x s, wholeFmtFloat x = some s →
    s ≠ [] ∧ (∀ c, c ∈ s → Json.isNumChar c = true) ∧ wholeParseFloat s = some x := by
  intro x s h
  unfold wholeFmtFloat at h
  split at h
  · rename_i hden
    have hs : s = Json.fmtInt x.num := (Option.some.inj h).symm
    subst hs
    obtain ⟨h1, h2, h3⟩ := Json.fmtInt_spec x.num
    refine ⟨h1, h2, ?_⟩
    simp only [wholeParseFloat, h3, Option.map_some']
    rw [Rat.coe_int_num_of_den_eq_one hden]
  · cases h

theorem wholeUnmarshal_decodes : ∀ bytes v,
    Json.decNetwork wholeParseFloat bytes.data = some v → wholeUnmarshal bytes = (v, none) := by
  intro bytes v h
  simp only [wholeUnmarshal, h]

theorem saturatedNetwork_supported :
    (∀ m, m ∈ saturatedNetwork.Weights → ∀ row, row ∈ m → ∀ x, x ∈ row →
      ∃ s, wholeFmtFloat x = some s) ∧
    ∃ s, wholeFmtFloat saturatedNetwork.LearningRate = some s := by
  have h1000 : ∃ s, wholeFmtFloat 1000 = some s := ⟨_, if_pos (by norm_num)⟩
  constructor
  · intro m hm row hrow x hx
    simp only [saturatedNetwork, List.mem_cons, List.mem_singleton, List.not_mem_nil,
      or_false, or_self] at hm
    subst hm
    simp only [List.mem_singleton] at hrow
    subst hrow
    simp only [List.mem_singleton] at hx
    subst hx
    exact h1000
  · exact ⟨_, if_pos rfl⟩


theorem fmtNat_1000 : Json.fmtNat 1000 = ['1', '0', '0', '0'] := by
  simp [Json.fmtNat, Json.digitChar]

theorem fmtNat_1 : Json.fmtNat 1 = ['1'] := by
  simp [Json.fmtNat, Json.digitChar]

theorem fmtNat_3 : Json.fmtNat 3 = ['3'] := by
  simp [Json.fmtNat, Json.digitChar]

set_option maxRecDepth 100000 in
theorem saturatedNetwork_text :
    Json.encNetwork wholeFmtFloat saturatedNetwork =
      ("\x7b\n    \"InputSize\": 1,\n    \"Layers\": 3,\n    \"Weights\": [\n        [\n" ++
      "            [\n                1000\n            ]\n        ],\n        [\n" ++
      "            [\n                1000\n            ]\n        ]\n    ],\n" ++
      "    \"LearningRate\": 1\n\x7d").toList := by
  have h1000 : wholeFmtFloat 1000 = some ['1', '0', '0', '0'] := by
    have hd : (1000 : ℚ).den = 1 := by norm_num
    have hn : (1000 : ℚ).num = 1000 := by norm_num
    simp only [wholeFmtFloat, hd, hn, if_true]
    exact congrArg some fmtNat_1000
  have h1 : wholeFmtFloat 1 = some ['1'] := by
    simp only [wholeFmtFloat, Rat.den_one, Rat.num_one, if_true]
    exact congrArg some fmtNat_1
  have hi1 : Json.fmtInt 1 = ['1'] := fmtNat_1
  have hi3 : Json.fmtInt 3 = ['3'] := fmtNat_3
  simp only [Json.encNetwork, saturatedNetwork, Json.encWeights, Json.encArray, Json.encTail,
    Json.encFloat, h1000, h1, hi1, hi3, Option.getD_some, Json.encField, Json.newline]
  decide

end Network

namespace Network

/-- When the file can be created and a number of the network has no JSON text, `Save`
returns the error of `json.MarshalIndent` and leaves the file empty. -/
theorem Save_unsupported {α : Type} (marshal : Network α → Except FileErr String)
    (net : Network α) (fileName : String) (d : Disk) (e : FileErr)
    (hc : d.createFails fileName = false) (hm : marshal net = .error e) :
    (Save marshal net fileName d).2 = some e ∧
      (Save marshal net fileName d).1.files fileName = some "" := by
  simp only [Save, hc, hm, Bool.false_eq_true, if_false, if_true, and_self]

theorem nanNetwork_unsupported : Json.supported nanFmtFloat nanNetwork = false := by
  simp [Json.supported, nanNetwork, nanFmtFloat]

theorem nanNetwork_marshal :
    Json.marshalIndent nanFmtFloat nanNetwork = .error FileErr.marshalFailed := by
  simp only [Json.marshalIndent, nanNetwork_unsupported, Bool.false_eq_true, if_false]

theorem nanUnmarshal_empty :
    nanUnmarshal "" = ({ InputSize := 0, Layers := 0, Weights := [], LearningRate := some 0 },
      some FileErr.unmarshalFailed) := by
  rfl

end Network

/-! ## Properties of the matrix package -/

namespace Mat

section MatrixClaims

variable {α : Type}

/-- C4: for rectangular matrices `a` (`R` rows, `K` columns) and `b` (`K` rows, `C` columns),
so that `a.Columns() == b.Rows()`, `Dot a b` returns a result as soon as the three
dimensions are positive, and whenever it returns a matrix, that matrix is rectangular with
`R` rows and `C` columns and its element at row `r`, column `c` (read with `Get`) is the sum
over `k < K` of `a[r][k] * b[k][c]`.  The operands are left unchanged: when `a` and `b` are
held by reference in a store `h`, the store after `Dot` (returning or panicking) still has
`h` as a prefix, the operands denote the same matrices in it, and the returned reference
denotes the result of `Dot a b`. -/
theorem Dot_standard_product [Semiring α] (a b : Matrix α) (R K C : Nat)
    (ha : IsMat a R K) (hb : IsMat b K C) :
    (0 < R → 0 < K → 0 < C → ∃ res, Dot a b = .ok res) ∧
    (∀ res, Dot a b = .ok res →
      IsMat res R C ∧ ∀ r, r < R → ∀ c, c < C →
        Get res (c : Int) (r : Int) =
          .ok (∑ k in Finset.range K, entry a r k * entry b k c)) ∧
    ∀ (h : Ref.Heap α) (ra rb : Ref.Matrix),
      (∀ x ∈ ra, x < h.length) → (∀ x ∈ rb, x < h.length) →
      Ref.deref h ra = a → Ref.deref h rb = b →
      h <+: (Ref.Dot ra rb h).2 ∧
      Ref.deref (Ref.Dot ra rb h).2 ra = a ∧ Ref.deref (Ref.Dot ra rb h).2 rb = b ∧
      (0 < R → 0 < K → 0 < C → ∃ res, (Ref.Dot ra rb h).1 = .ok res ∧
        Dot a b = .ok (Ref.deref (Ref.Dot ra rb h).2 res)) := by
  refine ⟨fun hR hK hC => ⟨_, Dot_isMat a b R K C ha hb hR hK hC⟩, ?_, ?_⟩
  · intro res hres
    by_cases hdeg : R = 0 ∨ K = 0 ∨ C = 0
    · obtain ⟨e, he⟩ := Dot_error_of_degenerate a b R K C ha hb hdeg
      rw [he] at hres
      cases hres
    · have hR : 0 < R := by omega
      have hK : 0 < K := by omega
      have hC : 0 < C := by omega
      rw [Dot_isMat a b R K C ha hb hR hK hC] at hres
      cases hres
      refine ⟨isMat_mk _ _ _, ?_⟩
      intro r hr c hc
      exact Get_mk R C _ r c hr hc
  · intro h ra rb hva hvb hda hdb
    have hk := (Ref.keeps_Dot h h ra rb (List.prefix_refl h)).1
    refine ⟨hk, ?_, ?_, ?_⟩
    · rw [Ref.prefix_deref h _ hk ra hva, hda]
    · rw [Ref.prefix_deref h _ hk rb hvb, hdb]
    · intro hR hK hC
      have hrun := Ref.Dot_run h ra rb R K C (entry a) (entry b)
        (by rw [hda]; exact ha.eq_mk) (by rw [hdb]; exact hb.eq_mk) hva hvb hR hK hC
      rw [hrun]
      refine ⟨_, rfl, ?_⟩
      rw [Dot_isMat a b R K C ha hb hR hK hC]
      have hfresh := Ref.deref_fresh h
        (mk R C (fun r c => ∑ k in Finset.range K, entry a r k * entry b k c))
      have hlen : (mk R C (fun r c =>
          ∑ k in Finset.range K, entry a r k * entry b k c)).length = R := tab_length _ _
      rw [hlen] at hfresh
      exact congrArg Except.ok hfresh.symm

theorem Dot_standard_product_witness :
    IsMat ([[1, 2], [3, 4]] : Matrix Int) 2 2 ∧ IsMat ([[5], [6]] : Matrix Int) 2 1 ∧
    (∃ res, Dot ([[1, 2], [3, 4]] : Matrix Int) [[5], [6]] = .ok res) ∧
    ([[9, 9], [1, 2], [3, 4], [5], [6]] : Ref.Heap Int) <+:
      (Ref.Dot [1, 2] [3, 4] ([[9, 9], [1, 2], [3, 4], [5], [6]] : Ref.Heap Int)).2 :=
  ⟨by decide, by decide,
    (Dot_standard_product [[1, 2], [3, 4]] [[5], [6]] 2 2 1 (by decide) (by decide)).1
      (by decide) (by decide) (by decide),
    ((Dot_standard_product [[1, 2], [3, 4]] [[5], [6]] 2 2 1 (by decide) (by decide)).2.2
      [[9, 9], [1, 2], [3, 4], [5], [6]] [1, 2] [3, 4] (by decide) (by decide)
      (by decide) (by decide)).1⟩

/-- C5: for rectangular matrices `a` (`R` by `K`) and `b` (`K2` by `C`) with at least one row
and one column each, `Dot a b` fails if and only if `K ≠ K2`, the failure is then the
dot-product dimension error, and a successful result has `R` rows and `C` columns. -/
theorem Dot_dimension_contract [Semiring α] (a b : Matrix α) (R K K2 C : Nat)
    (ha : IsMat a R K) (hb : IsMat b K2 C) (hR : 0 < R) (hK : 0 < K) (hK2 : 0 < K2)
    (hC : 0 < C) :
    (Dot a b = .error .errDotProductSize ↔ K ≠ K2) ∧
    ((∃ e, Dot a b = .error e) ↔ K ≠ K2) ∧
    (K = K2 → ∃ res, Dot a b = .ok res) ∧
    ∀ res, Dot a b = .ok res →
      Rows res = (R : Int) ∧ Columns res = .ok (C : Int) ∧ IsMat res R C := by
  by_cases hKK : K = K2
  · subst hKK
    have hd := Dot_isMat a b R K C ha hb hR hK hC
    rw [hd]
    refine ⟨by simp, by simp, fun _ => ⟨_, rfl⟩, ?_⟩
    intro res hres
    cases hres
    exact ⟨Rows_mk _ _ _, Columns_mk _ _ _ hR, isMat_mk _ _ _⟩
  · have hne : ¬ ((K : Int) = (K2 : Int)) := by omega
    have hd : Dot a b = .error .errDotProductSize := by
      rw [ha.eq_mk, hb.eq_mk]
      simp only [Dot, Columns_mk _ _ _ hR, Rows_mk, bind, Except.bind, ne_eq, hne,
        not_false_eq_true, if_true]
    rw [hd]
    refine ⟨by simp [hKK], ⟨fun _ => hKK, fun _ => ⟨_, rfl⟩⟩, fun h => absurd h hKK, ?_⟩
    intro res hres
    cases hres

theorem Dot_dimension_contract_witness :
    (Dot ([[1, 2], [3, 4]] : Matrix Int) [[5, 6, 7]] = .error .errDotProductSize ↔ 2 ≠ 1) ∧
    ((∃ e, Dot ([[1, 2], [3, 4]] : Matrix Int) [[5, 6, 7]] = .error e) ↔ 2 ≠ 1) ∧
    (2 = 1 → ∃ res, Dot ([[1, 2], [3, 4]] : Matrix Int) [[5, 6, 7]] = .ok res) ∧
    ∀ res, Dot ([[1, 2], [3, 4]] : Matrix Int) [[5, 6, 7]] = .ok res →
      Rows res = ((2 : Nat) : Int) ∧ Columns res = .ok ((3 : Nat) : Int) ∧ IsMat res 2 3 :=
  Dot_dimension_contract [[1, 2], [3, 4]] [[5, 6, 7]] 2 2 1 3 (by decide) (by decide)
    (by decide) (by decide) (by decide) (by decide)

/-- C9: for a rectangular matrix `m` with `R ≥ 1` rows and `C ≥ 1` columns, `Transpose m`
returns a matrix with `C` rows and `R` columns whose element at row `c`, column `r` is the
element of `m` at row `r`, column `c`, and transposing the result gives `m` back. -/
theorem Transpose_involution [Zero α] (m : Matrix α) (R C : Nat) (hm : IsMat m R C)
    (hR : 0 < R) (hC : 0 < C) :
    ∃ t, Transpose m = .ok t ∧ IsMat t C R ∧ Rows t = (C : Int) ∧ Columns t = .ok (R : Int) ∧
      (∀ r, r < R → ∀ c, c < C →
        Get t (r : Int) (c : Int) = .ok (entry m r c) ∧
        Get m (c : Int) (r : Int) = .ok (entry m r c)) ∧
      Transpose t = .ok m := by
  have ht : Transpose m = .ok (mk C R (fun c r => entry m r c)) := by
    have h := Transpose_mk R C (entry m) hR
    rw [← hm.eq_mk] at h
    exact h
  refine ⟨_, ht, isMat_mk _ _ _, Rows_mk _ _ _, Columns_mk _ _ _ hC, ?_, ?_⟩
  · intro r hr c hc
    exact ⟨Get_mk C R _ c r hc hr, Get_entry m R C r c hm hr hc⟩
  · rw [Transpose_mk C R _ hC]
    exact congrArg Except.ok hm.eq_mk.symm

theorem Transpose_involution_witness :
    ∃ t, Transpose ([[1, 2, 3], [4, 5, 6]] : Matrix Int) = .ok t ∧ IsMat t 3 2 ∧
      Rows t = ((3 : Nat) : Int) ∧ Columns t = .ok ((2 : Nat) : Int) ∧
      (∀ r : Nat, r < 2 → ∀ c : Nat, c < 3 →
        Get t (r : Int) (c : Int) = .ok (entry ([[1, 2, 3], [4, 5, 6]] : Matrix Int) r c) ∧
        Get ([[1, 2, 3], [4, 5, 6]] : Matrix Int) (c : Int) (r : Int) =
          .ok (entry ([[1, 2, 3], [4, 5, 6]] : Matrix Int) r c)) ∧
      Transpose t = .ok [[1, 2, 3], [4, 5, 6]] :=
  Transpose_involution [[1, 2, 3], [4, 5, 6]] 2 3 (by decide) (by decide) (by decide)

/-- C10: for matrices `a` and `b` of the same shape (`R ≥ 1` rows, `C ≥ 1` columns), over a
ring (exact arithmetic), `Add a b` succeeds and `Subtract (Add a b) b` succeeds and is
equal to `a`. -/
theorem Subtract_Add_inverse [Ring α] (a b : Matrix α) (R C : Nat) (ha : IsMat a R C)
    (hb : IsMat b R C) (hR : 0 < R) (hC : 0 < C) :
    ∃ s, Add a b = .ok s ∧ Subtract s b = .ok a := by
  have hs : Add a b = .ok (mk R C (fun r c => entry a r c + entry b r c)) := by
    have h := Add_mk R C (entry a) (entry b) hR hC
    rw [← ha.eq_mk, ← hb.eq_mk] at h
    exact h
  refine ⟨_, hs, ?_⟩
  have h := Subtract_mk R C (fun r c => entry a r c + entry b r c) (entry b) hR hC
  rw [← hb.eq_mk] at h
  rw [h]
  have h2 : mk R C (fun r c => entry a r c + entry b r c - entry b r c) = a := by
    rw [ha.eq_mk]
    apply mk_congr
    intro r hr c hc
    rw [add_sub_cancel_right, ← ha.eq_mk]
  rw [h2]

theorem Subtract_Add_inverse_witness :
    ∃ s, Add ([[1, 2], [3, 4]] : Matrix Int) [[5, 6], [7, 8]] = .ok s ∧
      Subtract s [[5, 6], [7, 8]] = .ok [[1, 2], [3, 4]] :=
  Subtract_Add_inverse [[1, 2], [3, 4]] [[5, 6], [7, 8]] 2 2 (by decide) (by decide)
    (by decide) (by decide)

/-- C16: on a rectangular matrix `m` with `R ≥ 1` rows and `C` columns (so that `Rows()` is
`R` and `Columns()` is `C`), `Get(x, y)` and `Set(x, y, v)` fail with the out-of-bounds
error when `x ≥ C` or `y ≥ R`.  For `0 ≤ x < C` and `0 ≤ y < R`, `Get` returns the element
of row `y` at column `x`, and `Set` returns a matrix in which `Get(x, y)` is `v`, which is
again `R` by `C` with the same `Rows()` and `Columns()`, and on which `Get` has the same
outcome as on `m` at every other pair of indices. -/
theorem Get_Set_bounds_contract [Zero α] (m : Matrix α) (R C : Nat) (hm : IsMat m R C)
    (hR : 0 < R) (x y : Int) (v : α) :
    (Rows m = (R : Int) ∧ Columns m = .ok (C : Int)) ∧
    ((C : Int) ≤ x ∨ (R : Int) ≤ y →
      Get m x y = .error .errOutOfBounds ∧ Set m x y v = .error .errOutOfBounds) ∧
    (0 ≤ x → x < (C : Int) → 0 ≤ y → y < (R : Int) →
      Get m x y = .ok (entry m y.toNat x.toNat) ∧
      ∃ m2, Set m x y v = .ok m2 ∧ Get m2 x y = .ok v ∧
        IsMat m2 R C ∧ Rows m2 = Rows m ∧ Columns m2 = Columns m ∧
        ∀ x2 y2 : Int, ¬ (x2 = x ∧ y2 = y) → Get m2 x2 y2 = Get m x2 y2) := by
  have hrows : Rows m = (R : Int) := by rw [hm.eq_mk]; exact Rows_mk _ _ _
  have hcols : Columns m = .ok (C : Int) := by rw [hm.eq_mk]; exact Columns_mk _ _ _ hR
  refine ⟨⟨hrows, hcols⟩, ?_, ?_⟩
  · intro h
    rw [Get_isMat_int m R C hm hR, Set_isMat_int m R C hm hR]
    simp only [h, if_true, and_self]
  · intro hx0 hxC hy0 hyR
    have h1 : ¬ ((C : Int) ≤ x ∨ (R : Int) ≤ y) := by omega
    have h2 : ¬ (y < 0 ∨ x < 0) := by omega
    rw [Get_isMat_int m R C hm hR, Set_isMat_int m R C hm hR]
    simp only [h1, h2, if_false, true_and]
    refine ⟨_, rfl, ?_, isMat_mk _ _ _, ?_, ?_, ?_⟩
    · rw [Get_mk_int R C _ hR]
      simp [h1, h2]
    · rw [hrows, Rows_mk]
    · rw [hcols, Columns_mk _ _ _ hR]
    · intro x2 y2 hne
      rw [Get_mk_int R C _ hR, Get_isMat_int m R C hm hR]
      by_cases h3 : (C : Int) ≤ x2 ∨ (R : Int) ≤ y2
      · simp only [h3, if_true]
      · by_cases h4 : y2 < 0 ∨ x2 < 0
        · simp only [h3, h4, if_true, if_false]
        · have h5 : ¬ (y2.toNat = y.toNat ∧ x2.toNat = x.toNat) := by omega
          simp only [h3, h4, h5, if_false]

theorem Get_Set_bounds_contract_witness :
    Get ([[1, 2, 3], [4, 5, 6]] : Matrix Int) 3 0 = .error .errOutOfBounds ∧
    Set ([[1, 2, 3], [4, 5, 6]] : Matrix Int) 3 0 9 = .error .errOutOfBounds ∧
    Get ([[1, 2, 3], [4, 5, 6]] : Matrix Int) 2 1 =
      .ok (entry ([[1, 2, 3], [4, 5, 6]] : Matrix Int) 1 2) :=
  ⟨((Get_Set_bounds_contract [[1, 2, 3], [4, 5, 6]] 2 3 (by decide) (by decide) 3 0 9).2.1
      (by decide)).1,
    ((Get_Set_bounds_contract [[1, 2, 3], [4, 5, 6]] 2 3 (by decide) (by decide) 3 0 9).2.1
      (by decide)).2,
    ((Get_Set_bounds_contract [[1, 2, 3], [4, 5, 6]] 2 3 (by decide) (by decide) 2 1 9).2.2
      (by decide) (by decide) (by decide) (by decide)).1⟩

/-- C20: for every rectangular matrix `m` (`R` rows of `C` elements, empty ones included)
and every pair of indices, `Get(x, y)` returns a value if and only if `0 ≤ x < C` and
`0 ≤ y < R`, and `Set(x, y, v)` returns if and only if `0 ≤ x < C` and `0 ≤ y < R`; with
`x < 0` or `y < 0` both abort, with the out-of-bounds error or with the run-time index
failure.  When the matrix is held by reference in a store `h`, `Get` leaves the store as
it is, `Set` completes exactly for the indices in range, and a `Set` with an index out of
range aborts and leaves every array of the store as it was. -/
theorem Get_Set_index_safety [Zero α] (m : Matrix α) (R C : Nat) (hm : IsMat m R C)
    (x y : Int) (v : α) :
    ((∃ e, Get m x y = .ok e) ↔ (0 ≤ x ∧ x < (C : Int) ∧ 0 ≤ y ∧ y < (R : Int))) ∧
    ((∃ m2, Set m x y v = .ok m2) ↔ (0 ≤ x ∧ x < (C : Int) ∧ 0 ≤ y ∧ y < (R : Int))) ∧
    (x < 0 ∨ y < 0 →
      (Get m x y = .error .errOutOfBounds ∨ Get m x y = .error .indexOutOfRange) ∧
      (Set m x y v = .error .errOutOfBounds ∨ Set m x y v = .error .indexOutOfRange)) ∧
    ∀ (h : Ref.Heap α) (rm : Ref.Matrix), Ref.deref h rm = m →
      (Ref.Get rm x y h = (Get m x y, h)) ∧
      ((Ref.Set rm x y v h).1 = .ok () ↔
        (0 ≤ x ∧ x < (C : Int) ∧ 0 ≤ y ∧ y < (R : Int))) ∧
      (¬ (0 ≤ x ∧ x < (C : Int) ∧ 0 ≤ y ∧ y < (R : Int)) →
        (Ref.Set rm x y v h).2 = h ∧
        ((Ref.Set rm x y v h).1 = .error .errOutOfBounds ∨
          (Ref.Set rm x y v h).1 = .error .indexOutOfRange)) := by
  have hG := Get_ok_iff m R C hm x y
  have hS := Set_ok_iff m R C hm x y v
  refine ⟨hG, hS, ?_, ?_⟩
  · intro hneg
    have hnot : ¬ (0 ≤ x ∧ x < (C : Int) ∧ 0 ≤ y ∧ y < (R : Int)) := by omega
    constructor
    · rcases Get_error_kind m R C hm x y with h | h
      · exact absurd (hG.mp h) hnot
      · exact h
    · rcases Set_error_kind m R C hm x y v with h | h
      · exact absurd (hS.mp h) hnot
      · exact h
  · intro h rm hd
    have hrun := Ref.Set_run rm x y v h
    rw [hd] at hrun
    refine ⟨by rw [Ref.Get_run, hd], ?_, ?_⟩
    · rw [← hS, hrun]
      cases hs : Set m x y v with
      | error e => simp
      | ok m2 => simp
    · intro hnot
      rw [hrun]
      rcases Set_error_kind m R C hm x y v with hk | hk | hk
      · exact absurd (hS.mp hk) hnot
      · rw [hk]
        exact ⟨rfl, Or.inl rfl⟩
      · rw [hk]
        exact ⟨rfl, Or.inr rfl⟩

theorem Get_Set_index_safety_witness :
    IsMat ([[1, 2, 3], [4, 5, 6]] : Matrix Int) 2 3 ∧
    (Get ([[1, 2, 3], [4, 5, 6]] : Matrix Int) (-1) 0 = .error .errOutOfBounds ∨
      Get ([[1, 2, 3], [4, 5, 6]] : Matrix Int) (-1) 0 = .error .indexOutOfRange) ∧
    (Ref.Set [1, 2] (-1) 0 (9 : Int) [[7], [1, 2, 3], [4, 5, 6]]).2 =
      [[7], [1, 2, 3], [4, 5, 6]] :=
  ⟨by decide,
    ((Get_Set_index_safety [[1, 2, 3], [4, 5, 6]] 2 3 (by decide) (-1) 0 9).2.2.1
      (by decide)).1,
    (((Get_Set_index_safety [[1, 2, 3], [4, 5, 6]] 2 3 (by decide) (-1) 0 9).2.2.2
      [[7], [1, 2, 3], [4, 5, 6]] [1, 2] (by decide)).2.2 (by decide)).1⟩

/-- C15 (amended): `FromSlice(rows, columns, values)` fails with the wrong-number-of-values
error whenever `len(values)` differs from the product `rows*columns` as the code computes
it, on 64-bit integers; this is the case whenever `len(values)` differs from the exact
product and the exact product is in the range of `int`.  For `rows ≥ 1`, `columns ≥ 1` and
`values` of length `rows*columns` (a slice length, hence below `2^63`) it returns a
rows-by-columns matrix filled row-major: the element at column `c` of row `r` is
`values[r*columns + c]`. -/
theorem FromSlice_row_major [Zero α] (rows columns : Int) (values : List α) :
    ((values.length : Int) ≠ wrapInt (rows * columns) →
      FromSlice rows columns values = .error .errWrongNoValues) ∧
    (-(2 ^ 63) ≤ rows * columns → rows * columns < 2 ^ 63 →
      (values.length : Int) ≠ rows * columns →
      FromSlice rows columns values = .error .errWrongNoValues) ∧
    (1 ≤ rows → 1 ≤ columns → (values.length : Int) = rows * columns →
      values.length < 2 ^ 63 →
      ∃ m, FromSlice rows columns values = .ok m ∧ IsMat m rows.toNat columns.toNat ∧
        Rows m = rows ∧ Columns m = .ok columns ∧
        ∀ r c : Nat, (r : Int) < rows → (c : Int) < columns →
          index values ((r : Int) * columns + (c : Int)) =
            .ok (values.getD (r * columns.toNat + c) 0) ∧
          Get m (c : Int) (r : Int) = .ok (values.getD (r * columns.toNat + c) 0)) := by
  refine ⟨FromSlice_wrong rows columns values, ?_, ?_⟩
  · intro h1 h2 hne
    apply FromSlice_wrong
    rw [wrapInt_eq _ h1 h2]
    exact hne
  · intro hr hc hlen hint
    obtain ⟨R, rfl⟩ : ∃ R : Nat, rows = (R : Int) := ⟨rows.toNat, by omega⟩
    obtain ⟨C, rfl⟩ : ∃ C : Nat, columns = (C : Int) := ⟨columns.toNat, by omega⟩
    have hR : 0 < R := by omega
    have hC : 0 < C := by omega
    have hlenN : values.length = R * C := by exact_mod_cast hlen
    simp only [Int.toNat_ofNat]
    refine ⟨_, FromSlice_ok R C values hR hC hlenN (by omega), isMat_mk _ _ _,
      Rows_mk _ _ _, Columns_mk _ _ _ hR, ?_⟩
    intro r c hr2 hc2
    have hr3 : r < R := by omega
    have hc3 : c < C := by omega
    have hlt : r * C + c < values.length := by
      rw [hlenN]
      calc r * C + c < r * C + C := by omega
        _ = (r + 1) * C := by ring
        _ ≤ R * C := Nat.mul_le_mul_right C hr3
    refine ⟨?_, Get_mk R C _ r c hr3 hc3⟩
    have := index_getD values (r * C + c) 0 hlt
    push_cast at this
    exact this

theorem FromSlice_row_major_witness :
    ∃ m, FromSlice 2 3 ([1, 2, 3, 4, 5, 6] : List Int) = .ok m ∧ IsMat m 2 3 ∧
      Get m 2 1 = .ok 6 := by
  obtain ⟨m, h1, h2, _, _, h5⟩ := (FromSlice_row_major 2 3 ([1, 2, 3, 4, 5, 6] : List Int)).2.2
    (by decide) (by decide) (by decide) (by decide)
  exact ⟨m, h1, h2, (h5 1 2 (by decide) (by decide)).2⟩

/-- C15, as stated, fails: with `rows = -2^63` and `columns = 2` the product computed on
64-bit integers is 0, so for the empty slice, whose length 0 differs from the exact product
`-2^64`, `FromSlice` passes the length check and fails in `NewEmpty` with the
invalid-shape error, not with the wrong-number-of-values error. -/
theorem FromSlice_overflow_counterexample :
    ((([] : List Int).length : Int) ≠ (-(2 ^ 63)) * 2) ∧
    FromSlice (-(2 ^ 63)) 2 ([] : List Int) = .error .errInvalidSize ∧
    FromSlice (-(2 ^ 63)) 2 ([] : List Int) ≠ .error .errWrongNoValues := by
  have h : FromSlice (-(2 ^ 63)) 2 ([] : List Int) = .error .errInvalidSize := by
    have hw : wrapInt (-(2 ^ 63) * 2) = 0 := by decide
    simp only [FromSlice, hw, List.length_nil, Nat.cast_zero, ne_eq, not_true_eq_false,
      if_false, NewEmpty, bind, Except.bind]
    rfl
  refine ⟨by decide, h, ?_⟩
  rw [h]
  intro hh
  cases hh

/-- C14: for rectangular matrices `a` (`R` by `C`) and `b` (`R2` by `C2`) with at least one
row and one column each, `Add`, `Subtract` and `MulElem` fail with their dimension errors
exactly when `a` and `b` do not have the same number of rows and columns; otherwise each
returns a matrix with `R` rows and `C` columns whose element at row `r`, column `c` (read
with `Get`) is the sum, the difference and the product of the elements of `a` and `b` at
that position.  The operands are left unchanged: when `a` and `b` are held by reference in
a store `h`, the store after each of the three calls (returning or panicking) still has
`h` as a prefix, the operands denote the same matrices in it, and the outcome of the call
denotes the outcome of the operation on `a` and `b`. -/
theorem Add_Subtract_MulElem_contract [Ring α] (a b : Matrix α) (R C R2 C2 : Nat)
    (ha : IsMat a R C) (hb : IsMat b R2 C2) (hR : 0 < R) (hC : 0 < C) (hR2 : 0 < R2)
    (hC2 : 0 < C2) :
    ((Add a b = .error .errAdditionSize ↔ ¬ (R = R2 ∧ C = C2)) ∧
      (Subtract a b = .error .errSubtractionSize ↔ ¬ (R = R2 ∧ C = C2)) ∧
      (MulElem a b = .error .errMulElemSize ↔ ¬ (R = R2 ∧ C = C2))) ∧
    ((R = R2 ∧ C = C2) →
      ∃ s d p, Add a b = .ok s ∧ Subtract a b = .ok d ∧ MulElem a b = .ok p ∧
        IsMat s R C ∧ IsMat d R C ∧ IsMat p R C ∧
        ∀ r, r < R → ∀ c, c < C →
          Get s (c : Int) (r : Int) = .ok (entry a r c + entry b r c) ∧
          Get d (c : Int) (r : Int) = .ok (entry a r c - entry b r c) ∧
          Get p (c : Int) (r : Int) = .ok (entry a r c * entry b r c)) ∧
    ∀ (h : Ref.Heap α) (ra rb : Ref.Matrix),
      (∀ x ∈ ra, x < h.length) → (∀ x ∈ rb, x < h.length) →
      Ref.deref h ra = a → Ref.deref h rb = b →
      (h <+: (Ref.Add ra rb h).2 ∧ Ref.deref (Ref.Add ra rb h).2 ra = a ∧
        Ref.deref (Ref.Add ra rb h).2 rb = b ∧
        (Ref.Add ra rb h).1.map (Ref.deref (Ref.Add ra rb h).2) = Add a b) ∧
      (h <+: (Ref.Subtract ra rb h).2 ∧ Ref.deref (Ref.Subtract ra rb h).2 ra = a ∧
        Ref.deref (Ref.Subtract ra rb h).2 rb = b ∧
        (Ref.Subtract ra rb h).1.map (Ref.deref (Ref.Subtract ra rb h).2) = Subtract a b) ∧
      (h <+: (Ref.MulElem ra rb h).2 ∧ Ref.deref (Ref.MulElem ra rb h).2 ra = a ∧
        Ref.deref (Ref.MulElem ra rb h).2 rb = b ∧
        (Ref.MulElem ra rb h).1.map (Ref.deref (Ref.MulElem ra rb h).2) = MulElem a b) := by
  have hs := SameDims_isMat a b R C R2 C2 ha hb hR hR2
  refine ⟨?_, ?_, ?_⟩
  · by_cases hsh : R = R2 ∧ C = C2
    · obtain ⟨rfl, rfl⟩ := hsh
      rw [Add_isMat a b R C ha hb hR hC, Subtract_isMat_eq a b R C ha hb hR hC,
        MulElem_isMat_eq a b R C ha hb hR hC]
      simp
    · simp only [hsh, decide_False] at hs
      rw [Add_mismatch a b hs, Subtract_mismatch a b hs, MulElem_mismatch a b hs]
      simp [hsh]
  · rintro ⟨rfl, rfl⟩
    refine ⟨_, _, _, Add_isMat a b R C ha hb hR hC, Subtract_isMat_eq a b R C ha hb hR hC,
      MulElem_isMat_eq a b R C ha hb hR hC, isMat_mk _ _ _, isMat_mk _ _ _, isMat_mk _ _ _, ?_⟩
    intro r hr c hc
    exact ⟨Get_mk R C _ r c hr hc, Get_mk R C _ r c hr hc, Get_mk R C _ r c hr hc⟩
  · intro h ra rb hva hvb hda hdb
    exact ⟨Ref.Add_refines h ra rb a b R C R2 C2 ha hb hR hC hR2 hva hvb hda hdb,
      Ref.Subtract_refines h ra rb a b R C R2 C2 ha hb hR hC hR2 hva hvb hda hdb,
      Ref.MulElem_refines h ra rb a b R C R2 C2 ha hb hR hC hR2 hva hvb hda hdb⟩

theorem Add_Subtract_MulElem_contract_witness :
    (Subtract ([[1, 2], [3, 4]] : Matrix Int) [[5, 6, 7]] = .error .errSubtractionSize ↔
      ¬ (2 = 1 ∧ 2 = 3)) ∧
    (∃ s d p, Add ([[1, 2], [3, 4]] : Matrix Int) [[5, 6], [7, 8]] = .ok s ∧
      Subtract ([[1, 2], [3, 4]] : Matrix Int) [[5, 6], [7, 8]] = .ok d ∧
      MulElem ([[1, 2], [3, 4]] : Matrix Int) [[5, 6], [7, 8]] = .ok p ∧
      IsMat s 2 2 ∧ IsMat d 2 2 ∧ IsMat p 2 2) ∧
    ([[9], [1, 2], [3, 4], [5, 6], [7, 8]] : Ref.Heap Int) <+:
      (Ref.MulElem [1, 2] [3, 4] ([[9], [1, 2], [3, 4], [5, 6], [7, 8]] : Ref.Heap Int)).2 := by
  refine ⟨(Add_Subtract_MulElem_contract ([[1, 2], [3, 4]] : Matrix Int) [[5, 6, 7]] 2 2 1 3
      (by decide) (by decide) (by decide) (by decide) (by decide) (by decide)).1.2.1, ?_, ?_⟩
  · obtain ⟨s, d, p, h1, h2, h3, h4, h5, h6, _⟩ :=
      (Add_Subtract_MulElem_contract ([[1, 2], [3, 4]] : Matrix Int) [[5, 6], [7, 8]] 2 2 2 2
        (by decide) (by decide) (by decide) (by decide) (by decide) (by decide)).2.1
        ⟨rfl, rfl⟩
    exact ⟨s, d, p, h1, h2, h3, h4, h5, h6⟩
  · exact ((Add_Subtract_MulElem_contract ([[1, 2], [3, 4]] : Matrix Int) [[5, 6], [7, 8]]
      2 2 2 2 (by decide) (by decide) (by decide) (by decide) (by decide) (by decide)).2.2
      [[9], [1, 2], [3, 4], [5, 6], [7, 8]] [1, 2] [3, 4] (by decide) (by decide)
      (by decide) (by decide)).2.2.1

end MatrixClaims

end Mat

/-! ## Properties of the network -/

namespace Network

open Mat Activation Training

section NetworkClaims

/-- C2: when `len(input)` differs from `InputSize`, `layerOutputs` and `Predict` fail with
the wrong-number-of-inputs error.  Otherwise every list `outs` returned by `layerOutputs`
has one entry per layer, starts with the input as a column (one row `[v]` per input
value `v`), has as entry `i+1` the matrix `Dot(Weights[i], outs[i])` with every element
`x` replaced by `1/(1+exp(-x))`, and `Predict` returns its last entry.  Under the
weight-shape invariant for the sizes `[n_0, ..., n_{L-1}]` `layerOutputs` does return:
entry `i` of the list is a column of `n_i` values, the values of entry 0 are the input
values, and value `r` of entry `i+1` is `1/(1+exp(-z))` for `z` the sum over `k < n_i` of
`Weights[i][r][k]` times value `k` of entry `i`. -/
theorem layerOutputs_forward_pass {α : Type} [Field α] (exp : α → α) (net : Network α)
    (input : List α) :
    ((input.length : Int) ≠ net.InputSize →
      layerOutputs exp net input = .error .errInputsSize ∧
      Predict exp net input = .error .errInputsSize) ∧
    ((input.length : Int) = net.InputSize →
      (∀ outs, layerOutputs exp net input = .ok outs →
        outs.length = net.Weights.length + 1 ∧
        outs[0]? = some (NewColumn input) ∧
        outs[0]? = some (input.map (fun v => [v])) ∧
        (∀ i, i < net.Weights.length →
          ∃ z, Dot (net.Weights.getD i []) (outs.getD i []) = .ok z ∧
            outs[i + 1]? = some (Apply z (Sigmoid exp).Func) ∧
            outs[i + 1]? = some (z.map (List.map (fun x => 1 / (1 + exp (-x)))))) ∧
        Predict exp net input = .ok (outs.getD net.Weights.length [])) ∧
      (∀ sizes, ShapeInv net sizes →
        ∃ outs, layerOutputs exp net input = .ok outs ∧ outs.length = sizes.length ∧
          (∀ i, i < sizes.length → IsMat (outs.getD i []) (sizes.getD i 0) 1) ∧
          (∀ r, r < sizes.getD 0 0 →
            Get (outs.getD 0 []) 0 (r : Int) = .ok (input.getD r 0)) ∧
          ∀ i, i + 1 < sizes.length → ∀ r, r < sizes.getD (i + 1) 0 →
            Get (outs.getD (i + 1) []) 0 (r : Int) =
              .ok (1 / (1 + exp (-(∑ k in Finset.range (sizes.getD i 0),
                entry (net.Weights.getD i []) r k * entry (outs.getD i []) k 0)))))) := by
  constructor
  · intro h
    have h1 := layerOutputs_wrong_size exp net input h
    refine ⟨h1, ?_⟩
    simp only [Predict, h1, bind, Except.bind]
  · intro h
    constructor
    · intro outs houts
      have hf := houts
      rw [layerOutputs_eq_forward exp net input h] at hf
      obtain ⟨hlen, h0, hstep⟩ := forward_rel exp _ _ _ hf
      refine ⟨hlen, h0, h0, ?_, Predict_eq exp net input outs houts hlen⟩
      intro i hi
      obtain ⟨z, hz, hout⟩ := hstep i hi
      refine ⟨z, hz, hout, ?_⟩
      rw [hout, Apply_eq_map]
      rfl
    · intro sizes hinv
      have hin : input.length = sizes.getD 0 0 := by
        have := hinv.2.2.1
        rw [← h] at this
        exact_mod_cast this
      exact forward_entries exp net sizes input hinv hin

theorem layerOutputs_forward_pass_witness :
    ∃ outs, layerOutputs Real.exp (sampleNetwork ℝ) (sampleData ℝ).Input = .ok outs ∧
      outs.length = 3 ∧ outs[0]? = some [[1 / 2], [9 / 10]] ∧
      Get (outs.getD 1 []) 0 2 = .ok (1 / (1 + Real.exp (-(∑ k in Finset.range 2,
        entry ((sampleNetwork ℝ).Weights.getD 0 []) 2 k * entry (outs.getD 0 []) k 0)))) ∧
      Predict Real.exp (sampleNetwork ℝ) (sampleData ℝ).Input = .ok (outs.getD 2 []) := by
  have h := (layerOutputs_forward_pass Real.exp (sampleNetwork ℝ) (sampleData ℝ).Input).2
    (by decide)
  obtain ⟨outs, houts, _, _, _, hv⟩ := h.2 [2, 3, 2] (by decide)
  obtain ⟨h1, _, h2, _, h4⟩ := h.1 outs houts
  exact ⟨outs, houts, h1, h2, hv 0 (by decide) 2 (by decide), h4⟩

/-- C3 (amended): for every `exp` whose values are never negative, which allows the
underflow of `math.Exp` to 0, for a network that satisfies the weight-shape invariant for
the sizes `[n_0, ..., n_{L-1}]` and an input of length `n_0`, `Predict` returns a column
of exactly `n_{L-1}` values, and every value `v` satisfies `0 ≤ v` and `v ≤ 1`. -/
theorem Predict_output_range {α : Type} [LinearOrderedField α] (exp : α → α)
    (hexp : ∀ x, 0 ≤ exp x) (net : Network α) (sizes : List Nat) (input : List α)
    (hinv : ShapeInv net sizes) (hin : input.length = sizes.getD 0 0) :
    ∃ out, Predict exp net input = .ok out ∧
      IsMat out (sizes.getD (sizes.length - 1) 0) 1 ∧
      (∀ row, row ∈ out → ∀ v, v ∈ row → 0 ≤ v ∧ v ≤ 1) ∧
      ∀ r, r < sizes.getD (sizes.length - 1) 0 →
        ∃ v, Get out 0 (r : Int) = .ok v ∧ 0 ≤ v ∧ v ≤ 1 := by
  obtain ⟨out, h1, h2, h3, h4⟩ :=
    Predict_range_of_exp_nonneg exp hexp net sizes input hinv hin
  refine ⟨out, h1, h2, fun row hrow v hv => ⟨le_of_lt (h3 row hrow v hv).1,
    (h3 row hrow v hv).2⟩, ?_⟩
  intro r hr
  obtain ⟨v, hv, hp, hle⟩ := h4 r hr
  exact ⟨v, hv, le_of_lt hp, hle⟩

/-- C3, as stated, fails: the network with the layer sizes 1, 1, 1 and both weights 1000
satisfies the weight-shape invariant, and with an exponential that underflows to 0 as
`math.Exp` does, `Predict` on the input `[1]` returns the value 1, which is not strictly
less than 1: both pre-activations are 1000 and `1/(1+exp(-1000))` is `1/(1+0)`. -/
theorem Predict_output_range_counterexample :
    ShapeInv saturatedNetwork [1, 1, 1] ∧
    ([1] : List ℚ).length = ([1, 1, 1] : List Nat).getD 0 0 ∧
    underflowExp (-1000) = 0 ∧
    Predict underflowExp saturatedNetwork [1] = .ok [[1]] ∧
    ¬ ((1 : ℚ) < 1) :=
  ⟨saturatedNetwork_shape, rfl, underflowExp_neg_1000, saturatedNetwork_predict,
    lt_irrefl 1⟩

theorem Predict_output_range_witness :
    ∃ out, Predict Real.exp (sampleNetwork ℝ) [1 / 2, 9 / 10] = .ok out ∧ IsMat out 2 1 ∧
      ∀ row, row ∈ out → ∀ v, v ∈ row → 0 ≤ v ∧ v ≤ 1 := by
  obtain ⟨out, h1, h2, h3, _⟩ :=
    Predict_output_range Real.exp (fun x => le_of_lt (Real.exp_pos x)) (sampleNetwork ℝ)
      [2, 3, 2] [1 / 2, 9 / 10] (by decide) (by decide)
  exact ⟨out, h1, h2, h3⟩

/-- C1: for a network that satisfies the weight-shape invariant for the sizes
`[n_0, ..., n_{L-1}]` and a sample with input length `n_0` and target length `n_{L-1}`,
`Train` ends normally, and with `acts` the forward activations of the pre-update network,
`errs (L-2) = acts[L-1] - target` and `errs i = Dot(Transpose(W[i+1]), errs (i+1))` for
`i < L-2`, every weight matrix after the call is
`Subtract(W[i], Scale(Dot(MulElem(errs i, s_i), Transpose(acts[i])), LearningRate))` with
`s_i = acts[i+1] * (1 - acts[i+1])` elementwise, where every `W` is a pre-update weight
matrix; entry by entry the new weight is the old weight minus the learning rate times the
entry of that product. -/
theorem Train_update_rule {α : Type} [Field α] (exp : α → α) (net : Network α)
    (sizes : List Nat) (data : Data α) (hinv : ShapeInv net sizes)
    (hin : data.Input.length = sizes.getD 0 0)
    (htg : data.Target.length = sizes.getD (sizes.length - 1) 0) :
    ∃ acts, ∃ errs : Nat → Matrix α,
      layerOutputs exp net data.Input = .ok acts ∧ acts.length = sizes.length ∧
      Subtract (acts.getD (sizes.length - 1) []) data.TargetMatrix =
        .ok (errs (sizes.length - 2)) ∧
      (∀ i, i + 2 < sizes.length → ∃ t, Transpose (net.Weights.getD (i + 1) []) = .ok t ∧
        Dot t (errs (i + 1)) = .ok (errs i)) ∧
      (Train exp net data).2 = .ok () ∧
      (Train exp net data).1.Weights.length = sizes.length - 1 ∧
      ∀ i, i + 1 < sizes.length → ∃ m t d,
        MulElem (errs i) (Apply (acts.getD (i + 1) []) (fun a => a * (1 - a))) = .ok m ∧
        Transpose (acts.getD i []) = .ok t ∧ Dot m t = .ok d ∧
        Subtract (net.Weights.getD i []) (Scale d net.LearningRate) =
          .ok ((Train exp net data).1.Weights.getD i []) ∧
        ∀ r, r < sizes.getD (i + 1) 0 → ∀ c, c < sizes.getD i 0 →
          entry ((Train exp net data).1.Weights.getD i []) r c =
            entry (net.Weights.getD i []) r c - net.LearningRate * entry d r c := by
  obtain ⟨acts, errs, net2, h1, h2, h3, h4, h5, _, _, _, h9, h10⟩ :=
    Train_spec exp net sizes data hinv hin htg
  refine ⟨acts, errs, h1, h2, h3, h4, by rw [h5], by rw [h5]; exact h9, ?_⟩
  intro i hi
  obtain ⟨m, t, d, hm, ht, hd, hsub, hdM, _⟩ := h10 i hi
  refine ⟨m, t, d, hm, ht, hd, by rw [h5]; exact hsub, ?_⟩
  intro r hr c hc
  rw [h5]
  have hW := hinv.2.2.2.2.2 i (by omega)
  have hpos := hinv.2.1
  rw [Subtract_entry _ _ _ _ _ hW (Scale_isMat d _ _ _ hdM) (hpos (i + 1) (by omega))
    (hpos i (by omega)) hsub r c hr hc, Scale_entry d _ _ _ hdM r c hr hc]

theorem Train_update_rule_witness :
    ShapeInv (sampleNetwork ℝ) [2, 3, 2] ∧
    (Train Real.exp (sampleNetwork ℝ) (sampleData ℝ)).2 = .ok () ∧
    (Train Real.exp (sampleNetwork ℝ) (sampleData ℝ)).1.Weights.length = 2 ∧
    ∃ d, Subtract ((sampleNetwork ℝ).Weights.getD 1 []) (Scale d (1 / 2)) =
      .ok ((Train Real.exp (sampleNetwork ℝ) (sampleData ℝ)).1.Weights.getD 1 []) := by
  have hinv : ShapeInv (sampleNetwork ℝ) [2, 3, 2] := by decide
  obtain ⟨acts, errs, h1, h2, h3, _, h5, h6, h7⟩ :=
    Train_update_rule Real.exp (sampleNetwork ℝ) [2, 3, 2] (sampleData ℝ) hinv
      (by decide) (by decide)
  obtain ⟨m, t, d, _, _, _, hsub, _⟩ := h7 1 (by decide)
  exact ⟨hinv, h5, h6, d, hsub⟩

/-- C6 (amended): for at least three positive layer sizes for which every `make` of `New`
succeeds (the slice of `L - 1` matrices and, for every `i`, the `n_{i+1}` rows of `n_i`
numbers each), `New` returns a network that satisfies the weight-shape invariant
(`InputSize = n_0`, `Layers = L`, `L - 1` weight matrices, `W[i]` with `n_{i+1}` rows and
`n_i` columns); and for a network that satisfies the invariant and a sample with input
length `n_0` and target length `n_{L-1}`, `Train` ends without error, the invariant holds
afterwards, and `InputSize`, `Layers` and `LearningRate` are unchanged.
`canMake elemSize len` tells whether `make` of `len` elements of `elemSize` bytes
succeeds. -/
theorem New_Train_shape_invariant {α : Type} [Field α] (canMake : Nat → Int → Bool)
    (sqrt exp : α → α) (rnd : Nat → α)
    (learningRate : α) (sizes : List Nat) (hL : 3 ≤ sizes.length)
    (hpos : ∀ i, i < sizes.length → 0 < sizes.getD i 0)
    (hw : canMake 24 ((sizes.length : Int) - 1) = true)
    (hmk : ∀ i, i + 1 < sizes.length →
      canMake 24 ((sizes.getD (i + 1) 0 : Nat) : Int) = true ∧
      canMake 8 ((sizes.getD i 0 : Nat) : Int) = true) :
    (∃ net, New canMake sqrt rnd learningRate (sizes.map Int.ofNat) = .ok net ∧
      ShapeInv net sizes ∧
      net.InputSize = ((sizes.getD 0 0 : Nat) : Int) ∧
      net.Layers = ((sizes.length : Nat) : Int) ∧
      net.Weights.length = sizes.length - 1 ∧
      (∀ i, i + 1 < sizes.length →
        IsMat (net.Weights.getD i []) (sizes.getD (i + 1) 0) (sizes.getD i 0)) ∧
      net.LearningRate = learningRate) ∧
    ∀ (net : Network α) (data : Data α), ShapeInv net sizes →
      data.Input.length = sizes.getD 0 0 →
      data.Target.length = sizes.getD (sizes.length - 1) 0 →
      (Train exp net data).2 = .ok () ∧
      ShapeInv (Train exp net data).1 sizes ∧
      (Train exp net data).1.InputSize = net.InputSize ∧
      (Train exp net data).1.Layers = net.Layers ∧
      (Train exp net data).1.LearningRate = net.LearningRate := by
  constructor
  · obtain ⟨net, hnew, hinv, hlr⟩ := New_ok canMake sqrt rnd learningRate sizes hL hpos hw hmk
    exact ⟨net, hnew, hinv, hinv.2.2.1, hinv.2.2.2.1, hinv.2.2.2.2.1,
      fun i hi => hinv.2.2.2.2.2 i (by omega), hlr⟩
  · intro net data hinv hin htg
    obtain ⟨acts, errs, net2, _, _, _, _, h5, h6, h7, h8, h9, h10⟩ :=
      Train_spec exp net sizes data hinv hin htg
    rw [h5]
    refine ⟨rfl, ⟨hL, hpos, ?_, ?_, h9, ?_⟩, h6, h7, h8⟩
    · show net2.InputSize = _
      rw [h6]
      exact hinv.2.2.1
    · show net2.Layers = _
      rw [h7]
      exact hinv.2.2.2.1
    · intro i hi
      obtain ⟨_, _, _, _, _, _, _, _, hM⟩ := h10 i (by omega)
      exact hM

theorem New_Train_shape_invariant_witness :
    (∃ net, New makeLenOk Real.sqrt (fun _ => (1 / 2 : ℝ)) (1 / 2)
        ([2, 3, 2].map Int.ofNat) = .ok net ∧ ShapeInv net [2, 3, 2]) ∧
    ShapeInv (Train Real.exp (sampleNetwork ℝ) (sampleData ℝ)).1 [2, 3, 2] := by
  have h := New_Train_shape_invariant makeLenOk Real.sqrt Real.exp (fun _ => (1 / 2 : ℝ))
    (1 / 2) [2, 3, 2] (by decide) (by decide) (by decide) makeLenOk_sample
  obtain ⟨net, hnew, hinv, _⟩ := h.1
  exact ⟨⟨net, hnew, hinv⟩,
    (h.2 (sampleNetwork ℝ) (sampleData ℝ) (by decide) (by decide) (by decide)).2.1⟩

/-- C6, as stated, fails: the three layer sizes `1, 2^62, 1` are positive, and with the
allocation rule of the Go runtime on a 64-bit machine `New` does not return a network for
them: its first iteration calls `NewEmpty(2^62, 1)`, where `make([][]float64, 2^62)` fails
with the length error of `make`. -/
theorem New_Train_shape_invariant_counterexample :
    3 ≤ ([1, 2 ^ 62, 1] : List Int).length ∧
    (∀ s, s ∈ ([1, 2 ^ 62, 1] : List Int) → 0 < s) ∧
    New makeLenOk (fun x : ℚ => x) (fun _ => 0) (1 / 2) [1, 2 ^ 62, 1] =
      .error .makesliceLen ∧
    ¬ ∃ net, New makeLenOk (fun x : ℚ => x) (fun _ => 0) (1 / 2) [1, 2 ^ 62, 1] =
      .ok net := by
  refine ⟨by decide, by decide, New_large_middle_size, ?_⟩
  rw [New_large_middle_size]
  rintro ⟨net, h⟩
  cases h

/-- C7: `Predict` never mutates the network.  With the weight matrices held by reference
in a store `h`, the store after `Predict` (whether the call returns or panics) still has
`h` as a prefix: every backing array that exists before the call has the same content
after it, so every element of every weight matrix of the network is unchanged.  The
fields `InputSize`, `Layers` and `LearningRate` belong to the receiver, which `Predict`
takes by value and never assigns.  Under the weight-shape invariant the call returns a
reference to the matrix that `Predict` returns on the network denoted in `h`. -/
theorem Predict_no_mutation {α : Type} [Field α] (exp : α → α) (net : Ref.Network α)
    (input : List α) (h : Ref.Heap α) :
    h <+: (Ref.Predict exp net input h).2 ∧
    (∀ a, a < h.length → (Ref.Predict exp net input h).2.getD a [] = h.getD a []) ∧
    (∀ W, W ∈ net.Weights → (∀ a ∈ W, a < h.length) →
      Ref.deref (Ref.Predict exp net input h).2 W = Ref.deref h W) ∧
    h <+: (Ref.layerOutputs exp net input h).2 ∧
    (∀ sizes, ShapeInv (Ref.derefNet h net) sizes →
      (∀ W ∈ net.Weights, ∀ a ∈ W, a < h.length) → input.length = sizes.getD 0 0 →
      ∃ ref, (Ref.Predict exp net input h).1 = .ok ref ∧
        Predict exp (Ref.derefNet h net) input =
          .ok (Ref.deref (Ref.Predict exp net input h).2 ref)) := by
  have hk := (Ref.keeps_Predict exp h h net input (List.prefix_refl h)).1
  refine ⟨hk, fun a ha => Ref.prefix_getD h _ hk a ha,
    fun W _ hW => Ref.prefix_deref h _ hk W hW,
    (Ref.keeps_layerOutputs exp h h net input (List.prefix_refl h)).1, ?_⟩
  intro sizes hinv hv hin
  obtain ⟨ref, hf, hrun, hval⟩ := Ref.Predict_run exp h net sizes input hinv hv hin
  rw [hrun]
  exact ⟨ref, rfl, hval⟩

theorem Predict_no_mutation_witness :
    ([[1, 2], [3, 4], [5, 6], [1, 0, 1], [0, 1, 1]] : Ref.Heap ℝ) <+:
      (Ref.Predict Real.exp
        { InputSize := 2, Layers := 3, Weights := [[0, 1, 2], [3, 4]], LearningRate := 1 / 2 }
        [1 / 2, 9 / 10] [[1, 2], [3, 4], [5, 6], [1, 0, 1], [0, 1, 1]]).2 :=
  (Predict_no_mutation Real.exp
    { InputSize := 2, Layers := 3, Weights := [[0, 1, 2], [3, 4]], LearningRate := 1 / 2 }
    [1 / 2, 9 / 10] [[1, 2], [3, 4], [5, 6], [1, 0, 1], [0, 1, 1]]).1

/-- C13: with `math.Sqrt` the real square root, for every fan-in `n ≥ 1` the distribution
`uniform.Make(n)` has `Min = -1/sqrt(n)` and `Max = 1/sqrt(n)`, and for every draw `u` with
`0 ≤ u < 1` the value `v` returned by `Generate` satisfies `Min ≤ v ≤ Max`.  Hence, when
every call of `rand.Float64()` returns a value in `[0, 1)`, every element of every weight
matrix `W[i]` of a network returned by `New` lies between `-1/sqrt(n_i)` and `1/sqrt(n_i)`,
where `n_i` is the size of layer `i`, the layer that feeds `W[i]`; this holds whichever
`make` calls succeed (`canMake`). -/
theorem New_weight_init_range (canMake : Nat → Int → Bool) (rnd : Nat → ℝ)
    (hrnd : ∀ k, 0 ≤ rnd k ∧ rnd k < 1) (learningRate : ℝ) (layerSizes : List Int) :
    (∀ n : Int, 1 ≤ n →
      (Uniform.Make Real.sqrt n).Min = (-1) / Real.sqrt (n : ℝ) ∧
      (Uniform.Make Real.sqrt n).Max = 1 / Real.sqrt (n : ℝ) ∧
      ∀ u : ℝ, 0 ≤ u → u < 1 →
        (Uniform.Make Real.sqrt n).Min ≤ (Uniform.Make Real.sqrt n).Generate u ∧
        (Uniform.Make Real.sqrt n).Generate u ≤ (Uniform.Make Real.sqrt n).Max) ∧
    ∀ net, New canMake Real.sqrt rnd learningRate layerSizes = .ok net →
      ∀ i, i < net.Weights.length → ∀ row ∈ net.Weights.getD i [], ∀ v ∈ row,
        (-1) / Real.sqrt ((layerSizes.getD i 0 : Int) : ℝ) ≤ v ∧
        v ≤ 1 / Real.sqrt ((layerSizes.getD i 0 : Int) : ℝ) := by
  have hsqrt : ∀ n : Int, 1 ≤ n → 0 < Real.sqrt (n : ℝ) := by
    intro n hn
    apply Real.sqrt_pos.mpr
    exact_mod_cast (by omega : (0 : Int) < n)
  refine ⟨?_, ?_⟩
  · intro n hn
    refine ⟨rfl, rfl, ?_⟩
    intro u h0 h1
    exact Uniform.Generate_range Real.sqrt n (hsqrt n hn) u h0 h1
  · intro net hnet i _ row hrow v hv
    exact New_weights_range_of_sqrt_pos canMake Real.sqrt hsqrt rnd hrnd learningRate
      layerSizes net hnet i row hrow v hv

theorem New_weight_init_range_witness :
    ∃ net, New makeLenOk Real.sqrt (fun _ => 1 / 2) (1 / 2)
        (([2, 3, 2] : List Nat).map Int.ofNat) = .ok net ∧
      ∀ row ∈ net.Weights.getD 1 [], ∀ v ∈ row,
        (-1) / Real.sqrt ((3 : Int) : ℝ) ≤ v ∧ v ≤ 1 / Real.sqrt ((3 : Int) : ℝ) := by
  obtain ⟨net, hnet, hinv, _⟩ := New_ok makeLenOk Real.sqrt (fun _ => (1 / 2 : ℝ)) (1 / 2)
    [2, 3, 2] (by decide) (by decide) (by decide) makeLenOk_sample
  refine ⟨net, hnet, ?_⟩
  have hlen : 1 < net.Weights.length := by
    rw [hinv.2.2.2.2.1]
    decide
  exact (New_weight_init_range makeLenOk (fun _ => (1 / 2 : ℝ)) (fun _ => by norm_num)
    (1 / 2) (([2, 3, 2] : List Nat).map Int.ofNat)).2 net hnet 1 hlen

/-- C19: for a network that satisfies the weight-shape invariant for the sizes
`[n_0, ..., n_{L-1}]`, `Train` on a sample whose input length differs from `InputSize`
panics with the wrong-number-of-inputs error, `Train` on a sample with input length `n_0`
whose target length differs from `n_{L-1}` panics with the subtraction dimension error,
and in both cases the network after the call is the network before it; with both lengths
right `Train` ends normally, so a panic of `Train` is one of these two and leaves the
network as it was.  For every network, a panic anywhere before the update loop leaves the
network as it is: the weights are replaced only after all deltas have been computed.  With
the weight matrices held by reference in a store `h`, the store after `Train` (returning
or panicking) still has `h` as a prefix, so every backing array that exists before the call
has the same content after it; in the two failure cases the network record is unchanged
and denotes the same network in the store after the call. -/
theorem Train_atomic_on_failure {α : Type} [Field α] (exp : α → α) (net : Network α)
    (sizes : List Nat) (data : Data α) (hinv : ShapeInv net sizes) :
    ((data.Input.length : Int) ≠ net.InputSize →
      Train exp net data = (net, .error .errInputsSize)) ∧
    (data.Input.length = sizes.getD 0 0 →
      data.Target.length ≠ sizes.getD (sizes.length - 1) 0 →
      Train exp net data = (net, .error .errSubtractionSize)) ∧
    (data.Input.length = sizes.getD 0 0 →
      data.Target.length = sizes.getD (sizes.length - 1) 0 →
      (Train exp net data).2 = .ok ()) ∧
    (∀ e, (Train exp net data).2 = .error e →
      (Train exp net data).1 = net ∧ (e = .errInputsSize ∨ e = .errSubtractionSize)) ∧
    (∀ (net2 : Network α) (e : Err), trainDeltas exp net2 data = .error e →
      Train exp net2 data = (net2, .error e)) ∧
    ∀ (h : Ref.Heap α) (rnet : Ref.Network α), Ref.derefNet h rnet = net →
      (∀ W ∈ rnet.Weights, ∀ a ∈ W, a < h.length) →
      h <+: (Ref.Train exp rnet data h).2 ∧
      (∀ a, a < h.length → (Ref.Train exp rnet data h).2.getD a [] = h.getD a []) ∧
      Ref.derefNet (Ref.Train exp rnet data h).2 rnet = net ∧
      ((data.Input.length : Int) ≠ net.InputSize →
        Ref.Train exp rnet data h = ((rnet, .error .errInputsSize), h)) ∧
      (data.Input.length = sizes.getD 0 0 →
        data.Target.length ≠ sizes.getD (sizes.length - 1) 0 →
        (Ref.Train exp rnet data h).1 = (rnet, .error .errSubtractionSize)) := by
  have hI : net.InputSize = ((sizes.getD 0 0 : Nat) : Int) := hinv.2.2.1
  have h1 := Train_wrong_input exp net data
  have h2 := Train_wrong_target exp net sizes data hinv
  have h3 : data.Input.length = sizes.getD 0 0 →
      data.Target.length = sizes.getD (sizes.length - 1) 0 →
      (Train exp net data).2 = .ok () := by
    intro hin htg
    obtain ⟨_, _, net2, _, _, _, _, h5, _⟩ := Train_spec exp net sizes data hinv hin htg
    rw [h5]
  refine ⟨h1, h2, h3, ?_, fun net2 e he => Train_phase_error exp net2 data e he, ?_⟩
  · intro e he
    by_cases hin : data.Input.length = sizes.getD 0 0
    · by_cases htg : data.Target.length = sizes.getD (sizes.length - 1) 0
      · rw [h3 hin htg] at he
        cases he
      · rw [h2 hin htg] at he ⊢
        cases he
        exact ⟨rfl, Or.inr rfl⟩
    · have hne : (data.Input.length : Int) ≠ net.InputSize := by
        rw [hI]
        exact_mod_cast hin
      rw [h1 hne] at he ⊢
      cases he
      exact ⟨rfl, Or.inl rfl⟩
  · intro h rnet hd hv
    have hk := Ref.Train_prefix exp h rnet data h (List.prefix_refl h)
    refine ⟨hk, fun a ha => Ref.prefix_getD h _ hk a ha, ?_, ?_, ?_⟩
    · rw [Ref.prefix_derefNet h _ hk rnet hv, hd]
    · intro hne
      exact Ref.Train_run_wrong_input exp rnet data h (by
        have : rnet.InputSize = net.InputSize := by rw [← hd]; rfl
        rw [this]
        exact hne)
    · intro hin htg
      exact Ref.Train_run_wrong_target exp h rnet sizes data (by rw [hd]; exact hinv) hv hin htg

theorem Train_atomic_on_failure_witness :
    Train Real.exp (sampleNetwork ℝ) ⟨[1 / 2], [99 / 100, 1 / 100]⟩ =
      (sampleNetwork ℝ, .error .errInputsSize) ∧
    Train Real.exp (sampleNetwork ℝ) ⟨[1 / 2, 9 / 10], [99 / 100]⟩ =
      (sampleNetwork ℝ, .error .errSubtractionSize) ∧
    (Train Real.exp (sampleNetwork ℝ) (sampleData ℝ)).2 = .ok () :=
  ⟨(Train_atomic_on_failure Real.exp (sampleNetwork ℝ) [2, 3, 2] ⟨[1 / 2], [99 / 100, 1 / 100]⟩
      (by decide)).1 (by decide),
    (Train_atomic_on_failure Real.exp (sampleNetwork ℝ) [2, 3, 2] ⟨[1 / 2, 9 / 10], [99 / 100]⟩
      (by decide)).2.1 (by decide) (by decide),
    (Train_atomic_on_failure Real.exp (sampleNetwork ℝ) [2, 3, 2] (sampleData ℝ)
      (by decide)).2.2.1 (by decide) (by decide)⟩

/-- C11 (amended): `json.MarshalIndent` and `json.Unmarshal` are the parameters `marshal`
and `unmarshal`: `marshal` gives the indented JSON text `Json.encNetwork` of the network,
or an error when a number of the network has no JSON text (`NaN` and the infinities have
none), and `unmarshal` returns the network and a `nil` error on every text that the
decoder `Json.decNetwork` decodes; `fmtFloat` and `parseFloat` are the conversions of
`strconv`, where `parseFloat` converts every text of `fmtFloat`, a non-empty sequence of
number characters, back to the number; `InputSize` and `Layers` are in the range of a
64-bit `int`.  `Save` returns `nil` exactly when the file can be created, every weight and
the learning rate have a JSON text and the write succeeds; it then leaves the text of the
network, and nothing else, in the named file and every other file as it was.  When the
file can be created and a number of the network has no JSON text, `Save` returns the error
of `json.MarshalIndent` and leaves the file empty.  After a `Save` that returned `nil`,
`Load` of the same file name returns a network and a `nil` error, the network has the same
`InputSize`, `Layers`, `LearningRate` and the same weight matrices, and `Predict` on any
input has the same outcome as on the original network. -/
theorem Save_Load_round_trip {α : Type} [Field α] (exp : α → α)
    (fmtFloat : α → Option (List Char)) (parseFloat : List Char → Option α)
    (marshal : Network α → Except FileErr String)
    (unmarshal : String → Network α × Option FileErr) (net : Network α) (fileName : String)
    (d : Disk)
    (hfmt : ∀ x s, fmtFloat x = some s →
      s ≠ [] ∧ (∀ c, c ∈ s → Json.isNumChar c = true) ∧ parseFloat s = some x)
    (hmarshal : marshal net = Json.marshalIndent fmtFloat net)
    (hunmarshal : ∀ bytes v, Json.decNetwork parseFloat bytes.data = some v →
      unmarshal bytes = (v, none))
    (hI : -(2 ^ 63) ≤ net.InputSize ∧ net.InputSize < 2 ^ 63)
    (hL : -(2 ^ 63) ≤ net.Layers ∧ net.Layers < 2 ^ 63) :
    ((Save marshal net fileName d).2 = none ↔
      (d.createFails fileName = false ∧
        ((∀ m, m ∈ net.Weights → ∀ row, row ∈ m → ∀ x, x ∈ row →
            ∃ s, fmtFloat x = some s) ∧
          ∃ s, fmtFloat net.LearningRate = some s) ∧
        d.writeFails fileName = false)) ∧
    ((Save marshal net fileName d).2 = none →
      (Save marshal net fileName d).1.files fileName =
        some (String.mk (Json.encNetwork fmtFloat net)) ∧
      ∀ other, other ≠ fileName →
        (Save marshal net fileName d).1.files other = d.files other) ∧
    (d.createFails fileName = false → Json.supported fmtFloat net = false →
      (Save marshal net fileName d).2 = some FileErr.marshalFailed ∧
      (Save marshal net fileName d).1.files fileName = some "") ∧
    ((Save marshal net fileName d).2 = none →
      ∃ net2, Load unmarshal fileName (Save marshal net fileName d).1 = (some net2, none) ∧
        net2.InputSize = net.InputSize ∧ net2.Layers = net.Layers ∧
        net2.LearningRate = net.LearningRate ∧ net2.Weights = net.Weights ∧
        ∀ input, Predict exp net2 input = Predict exp net input) := by
  have hiff := Save_none_iff marshal net fileName d
  have hsupp : (∃ bytes, marshal net = .ok bytes) ↔ Json.supported fmtFloat net = true := by
    rw [hmarshal]
    unfold Json.marshalIndent
    cases hs : Json.supported fmtFloat net with
    | true => simp
    | false => simp
  have hbytes : ∀ bytes, marshal net = .ok bytes →
      bytes = String.mk (Json.encNetwork fmtFloat net) ∧
        Json.supported fmtFloat net = true := by
    intro bytes hb
    have hs := hsupp.mp ⟨bytes, hb⟩
    rw [hmarshal] at hb
    simp only [Json.marshalIndent, hs, if_true] at hb
    exact ⟨(Except.ok.inj hb).symm, hs⟩
  refine ⟨?_, ?_, ?_, ?_⟩
  · rw [hiff, hsupp, Json.supported_iff]
  · intro hs
    obtain ⟨hc, ⟨bytes, hm⟩, hw⟩ := hiff.mp hs
    have h := (Save_ok marshal net fileName d bytes hc hm hw).2
    rw [(hbytes bytes hm).1] at h
    exact h
  · intro hc hns
    have hm : marshal net = .error FileErr.marshalFailed := by
      rw [hmarshal]
      simp only [Json.marshalIndent, hns, Bool.false_eq_true, if_false]
    exact Save_unsupported marshal net fileName d _ hc hm
  · intro hs
    obtain ⟨hc, ⟨bytes, hm⟩, hw⟩ := hiff.mp hs
    have hfile := (Save_ok marshal net fileName d bytes hc hm hw).2.1
    obtain ⟨hb, hsup⟩ := hbytes bytes hm
    have hdec : Json.decNetwork parseFloat bytes.data = some net := by
      rw [hb]
      exact Json.decNetwork_encNetwork fmtFloat parseFloat hfmt net hsup hI hL
    refine ⟨net, ?_, rfl, rfl, rfl, rfl, fun _ => rfl⟩
    rw [Load_of_file unmarshal fileName _ bytes hfile, hunmarshal bytes net hdec]

theorem Save_Load_round_trip_witness :
    (Save (Json.marshalIndent wholeFmtFloat) saturatedNetwork "net.json"
        ⟨fun _ => none, fun _ => false, fun _ => false⟩).1.files "net.json" =
      some (String.mk
        ("\x7b\n    \"InputSize\": 1,\n    \"Layers\": 3,\n    \"Weights\": [\n        [\n" ++
        "            [\n                1000\n            ]\n        ],\n        [\n" ++
        "            [\n                1000\n            ]\n        ]\n    ],\n" ++
        "    \"LearningRate\": 1\n\x7d").toList) ∧
    ∃ net2, Load wholeUnmarshal "net.json"
        (Save (Json.marshalIndent wholeFmtFloat) saturatedNetwork "net.json"
          ⟨fun _ => none, fun _ => false, fun _ => false⟩).1 = (some net2, none) ∧
      net2.InputSize = 1 ∧ net2.Layers = 3 ∧ net2.Weights = [[[1000]], [[1000]]] ∧
      net2.LearningRate = 1 := by
  have h := Save_Load_round_trip (fun x : ℚ => x) wholeFmtFloat wholeParseFloat
    (Json.marshalIndent wholeFmtFloat) wholeUnmarshal saturatedNetwork "net.json"
    ⟨fun _ => none, fun _ => false, fun _ => false⟩ wholeFmtFloat_parse rfl
    wholeUnmarshal_decodes (by decide) (by decide)
  have hs := h.1.mpr ⟨rfl, saturatedNetwork_supported, rfl⟩
  obtain ⟨net2, h1, h2, h3, h4, h5, _⟩ := h.2.2.2 hs
  refine ⟨?_, net2, h1, h2, h3, h5, h4⟩
  rw [(h.2.1 hs).1, saturatedNetwork_text]

/-- C11, as stated, fails: for the network with the layer sizes 1, 1, 1 whose first weight
is `NaN`, which has no JSON text, `Save` creates the file, returns the error of
`json.MarshalIndent` and leaves the file empty, and `Load` of that file does not succeed:
it returns the error of `json.Unmarshal` for an empty text together with a zero network,
which has no weights. -/
theorem Save_Load_round_trip_counterexample :
    (Save (Json.marshalIndent nanFmtFloat) nanNetwork "net.json"
        ⟨fun _ => none, fun _ => false, fun _ => false⟩).2 = some FileErr.marshalFailed ∧
    (Save (Json.marshalIndent nanFmtFloat) nanNetwork "net.json"
        ⟨fun _ => none, fun _ => false, fun _ => false⟩).1.files "net.json" = some "" ∧
    Load nanUnmarshal "net.json"
        (Save (Json.marshalIndent nanFmtFloat) nanNetwork "net.json"
          ⟨fun _ => none, fun _ => false, fun _ => false⟩).1 =
      (some { InputSize := 0, Layers := 0, Weights := [], LearningRate := some 0 },
        some FileErr.unmarshalFailed) := by
  obtain ⟨h1, h2⟩ := Save_unsupported (Json.marshalIndent nanFmtFloat) nanNetwork "net.json"
    ⟨fun _ => none, fun _ => false, fun _ => false⟩ FileErr.marshalFailed rfl nanNetwork_marshal
  refine ⟨h1, h2, ?_⟩
  rw [Load_of_file nanUnmarshal "net.json" _ "" h2, nanUnmarshal_empty]

end NetworkClaims

end Network

/-! ## Properties of the data of `DigitRecognition` -/

namespace DigitRecognition

open Training

section RecordClaims

/-- C17 (amended): for every record of 785 fields whose first field converts to a label `d`
from 0 to 9 and whose other fields convert to pixel values from 0 to 255, `recordToData`
returns an input vector of 784 components and a target vector of 10 components; input
component `k` is `(pixel_{k+1}/255)*0.99 + 0.01`, it lies in `[0.01, 1]`, and it is `1` for
a pixel value of 255; target component `k` is `0.99` for `k = d` and `0.01` otherwise. -/
theorem recordToData_contract {α : Type} [LinearOrderedField α] (parseFloat : String → α)
    (atoi : String → Int) (record : List String) (hlen : record.length = 785)
    (hd0 : 0 ≤ atoi (record.getD 0 "")) (hd9 : atoi (record.getD 0 "") ≤ 9)
    (hpix : ∀ i, 1 ≤ i → i < 785 →
      0 ≤ parseFloat (record.getD i "") ∧ parseFloat (record.getD i "") ≤ 255) :
    ∃ data, recordToData parseFloat atoi record = .ok data ∧
      data.Input.length = 784 ∧ data.Target.length = 10 ∧
      (∀ k, k < 784 →
        data.Input.getD k 0 =
          ((parseFloat (record.getD (k + 1) "") / 255) * (99 / 100)) + 1 / 100 ∧
        1 / 100 ≤ data.Input.getD k 0 ∧ data.Input.getD k 0 ≤ 1 ∧
        (parseFloat (record.getD (k + 1) "") = 255 → data.Input.getD k 0 = 1)) ∧
      ∀ k, k < 10 →
        data.Target.getD k 0 =
          if (k : Int) = atoi (record.getD 0 "") then 99 / 100 else 1 / 100 := by
  have hres := recordToData_eq parseFloat atoi record hlen hd0 (by omega)
  refine ⟨_, hres, ?_, ?_, ?_, ?_⟩
  · simp only [tab_length]
  · simp only [tab_length]
  · intro k hk
    have hk2 : (tab 784 (fun k =>
        ((parseFloat (record.getD (k + 1) "") / 255) * (99 / 100)) + 1 / 100)).getD k 0 =
        ((parseFloat (record.getD (k + 1) "") / 255) * (99 / 100)) + 1 / 100 := by
      rw [List.getD_eq_getElem?_getD, tab_getElem? _ _ k hk]
      rfl
    simp only [hk2]
    obtain ⟨hp0, hp1⟩ := hpix (k + 1) (by omega) (by omega)
    have hq0 : 0 ≤ parseFloat (record.getD (k + 1) "") / 255 := div_nonneg hp0 (by norm_num)
    have hq1 : parseFloat (record.getD (k + 1) "") / 255 ≤ 1 :=
      (div_le_one (by norm_num)).mpr hp1
    refine ⟨trivial, by linarith, by linarith, ?_⟩
    intro h255
    rw [h255]
    norm_num
  · intro k hk
    rw [List.getD_eq_getElem?_getD, tab_getElem? _ _ k hk]
    have : (k = (atoi (record.getD 0 "")).toNat) ↔ ((k : Int) = atoi (record.getD 0 "")) := by
      omega
    simp only [this]
    rfl

theorem recordToData_contract_witness :
    ∃ data, recordToData sampleParseFloat sampleAtoi sampleRecord = .ok data ∧
      data.Input.length = 784 ∧ data.Target.length = 10 ∧
      data.Target.getD 5 0 = 99 / 100 := by
  obtain ⟨data, h1, h2, h3, _, h5⟩ := recordToData_contract sampleParseFloat sampleAtoi
    sampleRecord sampleRecord_length (by decide) (by decide)
    (fun i _ _ => by
      unfold sampleParseFloat
      split <;> norm_num)
  refine ⟨data, h1, h2, h3, ?_⟩
  rw [h5 5 (by norm_num)]
  rfl

/-- C17, as stated, fails: `sampleRecord`, the record with label 5 and 784 pixel values
255, has 785 fields, a label from 0 to 9 and pixel values from 0 to 255, and `recordToData`
returns for it an input vector whose component 0 is `(255/255)*0.99 + 0.01 = 1`, which is
above `0.99`. -/
theorem recordToData_range_counterexample :
    sampleRecord.length = 785 ∧ sampleAtoi (sampleRecord.getD 0 "") = 5 ∧
    (∀ i, 1 ≤ i → i < 785 → sampleParseFloat (sampleRecord.getD i "") = 255) ∧
    ∃ data, recordToData sampleParseFloat sampleAtoi sampleRecord = .ok data ∧
      data.Input.getD 0 0 = 1 ∧
      ¬ (∀ v ∈ data.Input, 1 / 100 ≤ v ∧ v ≤ 99 / 100) := by
  refine ⟨sampleRecord_length, by decide, ?_, ?_⟩
  · intro i h1 h2
    obtain ⟨k, rfl⟩ : ∃ k, i = k + 1 := ⟨i - 1, by omega⟩
    rw [sampleRecord_getD_succ k (by omega)]
    rfl
  · have h := recordToData_eq sampleParseFloat sampleAtoi sampleRecord sampleRecord_length
      (by decide) (by decide)
    obtain ⟨data, hdata, hlen, hd0⟩ : ∃ data,
        recordToData sampleParseFloat sampleAtoi sampleRecord = .ok data ∧
        data.Input.length = 784 ∧ data.Input.getD 0 0 = 1 := by
      refine ⟨_, h, ?_, ?_⟩
      · simp only [tab_length]
      · dsimp only
        rw [List.getD_eq_getElem?_getD, tab_getElem? _ _ 0 (by norm_num),
          sampleRecord_getD_succ 0 (by norm_num)]
        simp only [sampleParseFloat, if_true, Option.getD_some]
        norm_num
    refine ⟨data, hdata, hd0, ?_⟩
    intro hall
    have hmem : data.Input.getD 0 0 ∈ data.Input := by
      rw [List.getD_eq_getElem?_getD, List.getElem?_eq_getElem (by omega)]
      exact List.getElem_mem _
    have h99 := (hall _ hmem).2
    rw [hd0] at h99
    norm_num at h99

end RecordClaims

end DigitRecognition

end Gonet
